import Mathlib

/-!
# Cutting stock: column generation and compact formulation

A shallow embedding of `cutting-stock/column-generation/src/main.cpp`,
`cutting-stock/compact/src/main.cpp` and `cutting-stock/common/instance.hpp`.

Conventions of the embedding.

* C++ `int` values are `Int`; the data of an instance is assumed to stay in the
  range where no `int` arithmetic of the program overflows, except for the one
  narrowing cast of the compact `main`, which is modelled with its wrap-around.
* C++ `double` values are modelled by the rational numbers they denote, and the
  arithmetic on them is exact rational arithmetic.  The literal `1e-6` is the
  binary64 value it denotes.  For the one comparison of the program,
  `red_cost > -EPS`, the exact difference `1 - pricing_obj` and any binary64
  rounding of it are shown to fall on the same side of `-EPS`.
* The solver library (`gurobi_c++.h`) is not part of the sources.  A model under
  construction is a plain record of its variables and constraints, and
  `optimize` is a parameter of the embedding (an `Oracle`).
* The loop of `solve_column_generation` has no bound in the source; the embedding
  takes a fuel argument and returns `none` when it runs out.
-/

namespace CuttingStock

/-! ## Instance (`common/instance.hpp`) -/

/-- The record `Instance`: name, number of item types, bar capacity, widths, demands.
The count `n` is an `int` in the source; it is a natural number here, since the vectors
`w` and `d` are sized with it. -/
structure Instance where
  name : String
  n : Nat
  W : Int
  w : List Int
  d : List Int

/-- The vectors `w` and `d` have `n` entries, as `read_instance` sizes them. -/
def Instance.WellFormed (inst : Instance) : Prop :=
  inst.w.length = inst.n ∧ inst.d.length = inst.n

/-- Every item fits in the bar: `0 < w_i ≤ W`. -/
def Instance.Fits (inst : Instance) : Prop :=
  ∀ i, i < inst.n → 0 < inst.w.getD i 0 ∧ inst.w.getD i 0 ≤ inst.W

/-- Demands are non-negative. -/
def Instance.NonnegDemand (inst : Instance) : Prop :=
  ∀ i, i < inst.n → 0 ≤ inst.d.getD i 0

instance (inst : Instance) : Decidable inst.WellFormed := by
  unfold Instance.WellFormed; infer_instance

instance (inst : Instance) : Decidable inst.Fits := by
  unfold Instance.Fits; infer_instance

instance (inst : Instance) : Decidable inst.NonnegDemand := by
  unfold Instance.NonnegDemand; infer_instance

/-! ## Solver models -/

/-- Variable kinds `GRB_CONTINUOUS`, `GRB_INTEGER`, `GRB_BINARY`. -/
inductive VType where
  | continuous
  | integer
  | binary
deriving DecidableEq, Repr

/-- Relation of a constraint: `<=` or `>=`. -/
inductive Sense where
  | le
  | ge
deriving DecidableEq, Repr

/-- Objective direction; a fresh model minimises. -/
inductive ObjSense where
  | minimize
  | maximize
deriving DecidableEq, Repr

/-- A `GRBColumn`: terms `(coefficient, constraint handle)`. -/
abbrev Column := List (ℚ × Nat)

/-- A `GRBLinExpr`: terms `(coefficient, variable handle)` and a constant. -/
structure LinExpr where
  terms : List (ℚ × Nat)
  const : ℚ
deriving DecidableEq, Repr

/-- Modelled from the spec: a variable of the solver model (the solver's classes are not
in the sources): lower bound, upper bound (`none` is `GRB_INFINITY`), objective
coefficient, kind, and the column it was created with. -/
structure Var where
  lb : ℚ
  ub : Option ℚ
  obj : ℚ
  vtype : VType
  col : Column
deriving DecidableEq, Repr

/-- Modelled from the spec: a constraint of the solver model, `lhs sense rhs`, as written
at `addConstr`. Coefficients that later columns attach to the row are kept with the
variables (`Var.col`). -/
structure Constr where
  lhs : LinExpr
  sense : Sense
  rhs : LinExpr
deriving DecidableEq, Repr

/-- Modelled from the spec: a solver model (`GRBModel`): its variables and constraints in
creation order (a handle is the position), and the objective direction. -/
structure Model where
  vars : List Var
  constrs : List Constr
  sense : ObjSense
deriving DecidableEq, Repr

/-- The model `GRBModel m(env)`: nothing in it, minimising. -/
def Model.empty : Model := ⟨[], [], ObjSense.minimize⟩

/-- Modelled from the spec: the solver call `addConstr`, which appends the constraint and
returns its handle. -/
def Model.addConstr (m : Model) (c : Constr) : Nat × Model :=
  (m.constrs.length, { m with constrs := m.constrs ++ [c] })

/-- Modelled from the spec: the solver call `addVar(lb, ub, obj, type, col)`, which appends
the variable and returns its handle. -/
def Model.addVar (m : Model) (lb : ℚ) (ub : Option ℚ) (obj : ℚ) (vtype : VType)
    (col : Column) : Nat × Model :=
  (m.vars.length, { m with vars := m.vars ++ [⟨lb, ub, obj, vtype, col⟩] })

/-- Coefficient of variable `j` in a linear expression (sum of its terms on `j`). -/
def LinExpr.coef (e : LinExpr) (j : Nat) : ℚ :=
  ((e.terms.filter (fun t => t.2 = j)).map (fun t => t.1)).sum

/-- Replaces the objective coefficients of variables `j ≥ k` of the list. -/
def setObjFrom (e : LinExpr) : Nat → List Var → List Var
  | _, [] => []
  | k, v :: vs => { v with obj := e.coef k } :: setObjFrom e (k + 1) vs

/-- Modelled from the spec: the solver call `setObjective(expr, sense)`, which replaces the
objective coefficients and the direction. -/
def Model.setObjective (m : Model) (e : LinExpr) (s : ObjSense) : Model :=
  { m with vars := setObjFrom e 0 m.vars, sense := s }

/-- The expression `e + c * x_j` (`e += c * x`). -/
def LinExpr.addTerm (e : LinExpr) (c : ℚ) (j : Nat) : LinExpr :=
  { e with terms := e.terms ++ [(c, j)] }

/-- The empty expression `GRBLinExpr()` / the constant expression. -/
def LinExpr.ofConst (c : ℚ) : LinExpr := ⟨[], c⟩

/-! ### Meaning of a model -/

/-- Value of a linear expression under an assignment of the variables. -/
def LinExpr.eval (e : LinExpr) (x : Nat → ℚ) : ℚ :=
  (e.terms.map (fun t => t.1 * x t.2)).sum + e.const

/-- Coefficient of a column in constraint `i`. -/
def colCoef (col : Column) (i : Nat) : ℚ :=
  ((col.filter (fun t => t.2 = i)).map (fun t => t.1)).sum

/-- Contribution to row `i` of the columns of the variables, numbered from `j`. -/
def colActivity (i : Nat) (x : Nat → ℚ) : Nat → List Var → ℚ
  | _, [] => 0
  | j, v :: vs => colCoef v.col i * x j + colActivity i x (j + 1) vs

/-- Objective value of an assignment, variables numbered from `j`. -/
def objFrom (x : Nat → ℚ) : Nat → List Var → ℚ
  | _, [] => 0
  | j, v :: vs => v.obj * x j + objFrom x (j + 1) vs

/-- Objective value of an assignment. -/
def Model.objective (m : Model) (x : Nat → ℚ) : ℚ := objFrom x 0 m.vars

/-- Coefficient of variable `j` in row `i` that comes from the variable's column. -/
def Model.coef (m : Model) (i j : Nat) : ℚ :=
  match m.vars[j]? with
  | some v => colCoef v.col i
  | none => 0

/-- A value is integral. -/
def IsInt (q : ℚ) : Prop := q.den = 1

instance (q : ℚ) : Decidable (IsInt q) := by unfold IsInt; infer_instance

/-- A variable accepts a value: bounds and kind. -/
def Var.Admits (v : Var) (q : ℚ) : Prop :=
  v.lb ≤ q ∧ (∀ u, v.ub = some u → q ≤ u) ∧
    (v.vtype = VType.integer → IsInt q) ∧
    (v.vtype = VType.binary → IsInt q ∧ 0 ≤ q ∧ q ≤ 1)

/-- Row `i` holds under an assignment. -/
def Constr.Holds (c : Constr) (i : Nat) (vars : List Var) (x : Nat → ℚ) : Prop :=
  match c.sense with
  | Sense.le => c.lhs.eval x + colActivity i x 0 vars ≤ c.rhs.eval x
  | Sense.ge => c.rhs.eval x ≤ c.lhs.eval x + colActivity i x 0 vars

/-- Modelled from the spec: what the solver takes a feasible assignment of a model to be.
Every variable admits its value and every row holds. -/
def Model.Feasible (m : Model) (x : Nat → ℚ) : Prop :=
  (∀ (j : Nat) (v : Var), m.vars[j]? = some v → v.Admits (x j)) ∧
    (∀ (i : Nat) (c : Constr), m.constrs[i]? = some c → c.Holds i m.vars x)

/-- Modelled from the spec: the optimal value of a model. The value `v` is attained by a
feasible assignment and not improved by any other. -/
def Model.IsOptVal (m : Model) (v : ℚ) : Prop :=
  (∃ x, m.Feasible x ∧ m.objective x = v) ∧
    ∀ x, m.Feasible x →
      (match m.sense with
       | ObjSense.minimize => v ≤ m.objective x
       | ObjSense.maximize => m.objective x ≤ v)

/-! ## Column generation (`column-generation/src/main.cpp`) -/

/-- A cutting pattern, `std::vector<int>`. -/
abbrev Pattern := List Int

/-- First pass of `build_master`: one row `0 >= d_i` per item; the handles are collected. -/
def build_master_rows (inst : Instance) (master : Model) : List Nat × Model :=
  (List.range inst.n).foldl
    (fun (acc : List Nat × Model) i =>
      let r := acc.2.addConstr
        ⟨LinExpr.ofConst 0, Sense.ge, LinExpr.ofConst ((inst.d.getD i 0 : Int) : ℚ)⟩
      (acc.1 ++ [r.1], r.2))
    ([], master)

/-- The quotient `inst.W / inst.w[i]` of two `int`s (truncating division). A width of
zero makes the division undefined in the source; the value 0 that the quotient takes here
in that case stands for no behaviour of the program, and every statement about the
quotient assumes `0 < w_i`. -/
def quot (inst : Instance) (i : Nat) : Int := Int.tdiv inst.W (inst.w.getD i 0)

/-- One round of the second pass of `build_master`: `std::exit(1)` when the item does not
fit, one more variable otherwise. -/
def build_master_col (inst : Instance) (demand : List Nat) (master : Model) (i : Nat) :
    Except Nat Model :=
  if quot inst i = 0 then Except.error 1
  else
    let col : Column := [(((quot inst i : Int) : ℚ), demand.getD i 0)]
    Except.ok (master.addVar 0 none 1 VType.continuous col).2

/-- Second pass of `build_master`. -/
def build_master_cols (inst : Instance) (demand : List Nat) (master : Model) :
    Except Nat Model :=
  (List.range inst.n).foldlM (build_master_col inst demand) master

/-- The function `build_master`: the demand handles and the master with its trivial
patterns, or the exit code. -/
def build_master (inst : Instance) (master : Model) : Except Nat (List Nat × Model) :=
  let r := build_master_rows inst master
  match build_master_cols inst r.1 r.2 with
  | Except.error e => Except.error e
  | Except.ok m => Except.ok (r.1, m)

/-- The column that `add_column` builds: `col.addTerm(pattern[i], demand[i])` for each `i`. -/
def pattern_column (demand : List Nat) (pattern : Pattern) : Column :=
  (List.range pattern.length).foldl
    (fun (col : Column) i => col ++ [(((pattern.getD i 0 : Int) : ℚ), demand.getD i 0)]) []

/-- The function `add_column`. -/
def add_column (master : Model) (demand : List Nat) (pattern : Pattern) : Model :=
  (master.addVar 0 none 1 VType.continuous (pattern_column demand pattern)).2

/-- Modelled from the spec: what the solver call `optimize` leaves in a model, namely the
objective value (`ObjVal`), the values of the variables (`X`, by handle) and the dual values
of the constraints (`Pi`, by handle). -/
structure Solution where
  objVal : ℚ
  x : List ℚ
  pi : List ℚ
deriving DecidableEq, Repr

/-- Modelled from the spec: the solver, through the one operation the program uses,
`optimize`. It is a parameter of every function that solves a model. -/
structure Oracle where
  optimize : Model → Solution

/-- The function `std::round`: nearest integer, halves away from zero. -/
def cppRound (q : ℚ) : Int :=
  if 0 ≤ q then ⌊q + 1 / 2⌋ else -⌊-q + 1 / 2⌋

/-- First loop of `solve_pricing`: one integer variable `a_i` in `[0, W / w_i]` per item,
and the objective expression `sum_i pi_i * a_i`. -/
def pricing_vars (inst : Instance) (pi : List ℚ) (model : Model) :
    (List Nat × LinExpr) × Model :=
  (List.range inst.n).foldl
    (fun (acc : (List Nat × LinExpr) × Model) i =>
      let ub : Int := quot inst i
      let r := acc.2.addVar 0 (some (ub : ℚ)) 0 VType.integer []
      ((acc.1.1 ++ [r.1], acc.1.2.addTerm (pi.getD i 0) r.1), r.2))
    (([], LinExpr.ofConst 0), model)

/-- The expression `cap`: `sum_i w_i * a_i`. -/
def pricing_cap (inst : Instance) (a : List Nat) : LinExpr :=
  (List.range inst.n).foldl
    (fun (cap : LinExpr) i => cap.addTerm ((inst.w.getD i 0 : Int) : ℚ) (a.getD i 0))
    (LinExpr.ofConst 0)

/-- The model that `solve_pricing` builds before it calls `optimize`, with the handles
of its variables. -/
def pricing_model (inst : Instance) (pi : List ℚ) : List Nat × Model :=
  let r := pricing_vars inst pi Model.empty
  let model := r.2.setObjective r.1.2 ObjSense.maximize
  let cap := pricing_cap inst r.1.1
  (r.1.1, (model.addConstr ⟨cap, Sense.le, LinExpr.ofConst ((inst.W : Int) : ℚ)⟩).2)

/-- The function `solve_pricing`: the pattern read from the solution, rounded, and the
reduced cost `1.0 - pricing_obj`. -/
def solve_pricing (o : Oracle) (inst : Instance) (pi : List ℚ) : Pattern × ℚ :=
  let am := pricing_model inst pi
  let sol := o.optimize am.2
  let pricing_obj := sol.objVal
  let pat := (List.range inst.n).map (fun i => cppRound (sol.x.getD (am.1.getD i 0) 0))
  (pat, 1 - pricing_obj)

/-- The record `ColGenResult`, without its wall-clock field `time`. -/
structure ColGenResult where
  lp_obj : ℚ
  n_patterns : Nat
  n_iterations : Nat
deriving DecidableEq, Repr

/-- A finite binary64 value (a finite C++ `double`): `m * 2^e` with `|m| < 2^53` and
`-1074 ≤ e ≤ 971`, the exponent written as `a - b`. -/
def IsBinary64 (q : ℚ) : Prop :=
  ∃ (m : Int) (a b : Nat), |m| < 2 ^ 53 ∧ a ≤ 971 ∧ b ≤ 1074 ∧ q = (m : ℚ) * 2 ^ a / 2 ^ b

/-- The binary64 value `r` is a result of rounding `x` to nearest: no binary64 value is
closer to `x`. (Both candidates are allowed at a tie.) -/
def RoundsTo (x r : ℚ) : Prop :=
  IsBinary64 r ∧ ∀ d, IsBinary64 d → |x - r| ≤ |x - d|

/-- The constant `EPS = 1e-6`: the binary64 value that the literal denotes,
`4722366482869645 / 2^72`, the one nearest to `1/1000000`. -/
def EPS : ℚ := 4722366482869645 / 2 ^ 72

/-- The duals read after a master solve: `pi[i] = demand[i].get(Pi)`. -/
def read_duals (inst : Instance) (demand : List Nat) (sol : Solution) : List ℚ :=
  (List.range inst.n).map (fun i => sol.pi.getD (demand.getD i 0) 0)

/-- The loop of `solve_column_generation`, from iteration `iter` on. Besides the result it
returns the masters on which `optimize` was called, in order (a record of the run that the
control flow does not read). -/
def colgen_loop (o : Oracle) (inst : Instance) (demand : List Nat) :
    Nat → Model → Nat → Option (ColGenResult × List Model)
  | 0, _, _ => none
  | fuel + 1, master, iter =>
    let sol := o.optimize master
    let pi := read_duals inst demand sol
    let pr := solve_pricing o inst pi
    if pr.2 > -EPS then
      some (⟨sol.objVal, master.vars.length, iter⟩, [master])
    else
      (colgen_loop o inst demand fuel (add_column master demand pr.1) (iter + 1)).map
        (fun r => (r.1, master :: r.2))

/-- The function `solve_column_generation`: the exit code of `build_master`, or the outcome
of the loop started at `iter = 1`. -/
def solve_column_generation (o : Oracle) (inst : Instance) (fuel : Nat) :
    Except Nat (Option (ColGenResult × List Model)) :=
  match build_master inst Model.empty with
  | Except.error e => Except.error e
  | Except.ok dm => Except.ok (colgen_loop o inst dm.1 fuel dm.2 1)

/-! ## Compact formulation (`compact/src/main.cpp`) -/

/-- The kind of the variables: continuous when `relax`, else the given kind. -/
def relaxed (relax : Bool) (t : VType) : VType :=
  if relax then VType.continuous else t

/-- The variables `y[c]`, `c < C`. -/
def build_y (relax : Bool) (C : Nat) (model : Model) : List Nat × Model :=
  (List.range C).foldl
    (fun (acc : List Nat × Model) _ =>
      let r := acc.2.addVar 0 (some 1) 1 (relaxed relax VType.binary) []
      (acc.1 ++ [r.1], r.2))
    ([], model)

/-- The variables `x[i][c]`, `c < C`, of one item. -/
def build_x_row (relax : Bool) (C : Nat) (model : Model) : List Nat × Model :=
  (List.range C).foldl
    (fun (acc : List Nat × Model) _ =>
      let r := acc.2.addVar 0 none 0 (relaxed relax VType.integer) []
      (acc.1 ++ [r.1], r.2))
    ([], model)

/-- The variables `x[i][c]`, `i < n`, `c < C`. -/
def build_x (inst : Instance) (relax : Bool) (C : Nat) (model : Model) :
    List (List Nat) × Model :=
  (List.range inst.n).foldl
    (fun (acc : List (List Nat) × Model) _ =>
      let r := build_x_row relax C acc.2
      (acc.1 ++ [r.1], r.2))
    ([], model)

/-- The handle `x[i][c]`. -/
def xh (x : List (List Nat)) (i c : Nat) : Nat := (x.getD i []).getD c 0

/-- The capacity rows: `sum_i w_i x[i][c] <= W y[c]` for each bar `c`. -/
def build_capacity (inst : Instance) (C : Nat) (y : List Nat) (x : List (List Nat))
    (model : Model) : Model :=
  (List.range C).foldl
    (fun (m : Model) c =>
      let lhs := (List.range inst.n).foldl
        (fun (e : LinExpr) i => e.addTerm ((inst.w.getD i 0 : Int) : ℚ) (xh x i c))
        (LinExpr.ofConst 0)
      (m.addConstr ⟨lhs, Sense.le, ⟨[(((inst.W : Int) : ℚ), y.getD c 0)], 0⟩⟩).2)
    model

/-- The demand rows: `sum_c x[i][c] >= d_i` for each item `i`. -/
def build_demand (inst : Instance) (C : Nat) (x : List (List Nat)) (model : Model) : Model :=
  (List.range inst.n).foldl
    (fun (m : Model) i =>
      let lhs := (List.range C).foldl
        (fun (e : LinExpr) c => e.addTerm 1 (xh x i c))
        (LinExpr.ofConst 0)
      (m.addConstr ⟨lhs, Sense.ge, LinExpr.ofConst ((inst.d.getD i 0 : Int) : ℚ)⟩).2)
    model

/-- The symmetry rows of the integer model: `y[c] >= y[c+1]` for `c + 1 < C`. -/
def build_symmetry (C : Nat) (y : List Nat) (model : Model) : Model :=
  (List.range (C - 1)).foldl
    (fun (m : Model) c =>
      (m.addConstr ⟨⟨[(1, y.getD c 0)], 0⟩, Sense.ge, ⟨[(1, y.getD (c + 1) 0)], 0⟩⟩).2)
    model

/-- The function `build_model(inst, env, relax, C)`. -/
def build_model (inst : Instance) (relax : Bool) (C : Nat) : Model :=
  let ym := build_y relax C Model.empty
  let xm := build_x inst relax C ym.2
  let m1 := build_capacity inst C ym.1 xm.1 xm.2
  let m2 := build_demand inst C xm.1 m1
  if relax then m2 else build_symmetry C ym.1 m2

/-- The sum `total_size` of the compact `main`: `sum_i w_i * d_i`. -/
def total_size (inst : Instance) : Int :=
  (List.range inst.n).foldl (fun (t : Int) i => t + inst.w.getD i 0 * inst.d.getD i 0) 0

/-- The cast `static_cast<int>` of a `long long`: reduction to 32 bits, two's complement. -/
def toInt32 (z : Int) : Int := (z + 2 ^ 31) % 2 ^ 32 - 2 ^ 31

/-- The bar count `C` of the compact `main`: `(total_size + W - 1) / W`, cast to `int`. -/
def bar_count (inst : Instance) : Int :=
  toInt32 (Int.tdiv (total_size inst + inst.W - 1) inst.W)

/-! ## Exact solves -/

/-- The assignment of the variables that a solution reports (`X`). -/
def Solution.assign (sol : Solution) : Nat → ℚ := fun j => sol.x.getD j 0

/-- The dual prices that a solution reports (`Pi`). -/
def Solution.price (sol : Solution) : Nat → ℚ := fun i => sol.pi.getD i 0

/-- Value of a column at given row prices: `sum_i a_i * pi_i` over the rows of the model. -/
def pricedValue (m : Model) (pi : Nat → ℚ) (col : Column) : ℚ :=
  ((List.range m.constrs.length).map (fun i => colCoef col i * pi i)).sum

/-- Dual objective of rows with constant sides, numbered from `i`: `sum_i rhs_i * pi_i`. -/
def dualFrom (pi : Nat → ℚ) : Nat → List Constr → ℚ
  | _, [] => 0
  | i, c :: cs => (c.rhs.const - c.lhs.const) * pi i + dualFrom pi (i + 1) cs

/-- Modelled from the spec: an exact answer of the solver. The solution is feasible, its
reported objective value is the objective of its assignment, and no feasible assignment is
better. -/
def Model.IsOptimal (m : Model) (sol : Solution) : Prop :=
  m.Feasible sol.assign ∧ sol.objVal = m.objective sol.assign ∧
    ∀ x, m.Feasible x →
      (match m.sense with
       | ObjSense.minimize => sol.objVal ≤ m.objective x
       | ObjSense.maximize => m.objective x ≤ sol.objVal)

/-- Modelled from the spec: exact dual prices of a master (minimise, rows `>=`, variables
`>= 0`). The reported prices are non-negative, no column is worth more than its cost, and
the dual objective equals the reported objective value. -/
def Model.DualOptimal (m : Model) (sol : Solution) : Prop :=
  (∀ i, i < m.constrs.length → 0 ≤ sol.price i) ∧
    (∀ (j : Nat) (v : Var), m.vars[j]? = some v → pricedValue m sol.price v.col ≤ v.obj) ∧
    sol.objVal = dualFrom sol.price 0 m.constrs

/-- The solver is exact on a master: optimal solution and optimal dual prices. -/
def Oracle.ExactMaster (o : Oracle) (m : Model) : Prop :=
  m.IsOptimal (o.optimize m) ∧ m.DualOptimal (o.optimize m)

/-- The solver is exact on the pricing problem of the given prices: it returns an optimal
solution of the bounded knapsack. -/
def Oracle.ExactPricing (o : Oracle) (inst : Instance) (pi : List ℚ) : Prop :=
  (pricing_model inst pi).2.IsOptimal (o.optimize (pricing_model inst pi).2)

/-! ## Closed forms used by the proofs -/

/-- The demand row of item `i`: `0 >= d_i`. -/
def demand_row (inst : Instance) (i : Nat) : Constr :=
  ⟨LinExpr.ofConst 0, Sense.ge, LinExpr.ofConst ((inst.d.getD i 0 : Int) : ℚ)⟩

/-- The master variable of the pattern with `a` copies of item `i` only. -/
def trivial_var (inst : Instance) (i : Nat) : Var :=
  ⟨0, none, 1, VType.continuous, [(((quot inst i : Int) : ℚ), i)]⟩

/-- The master after `build_master`: the demand rows and the trivial patterns. -/
def initial_master (inst : Instance) : Model :=
  ⟨(List.range inst.n).map (trivial_var inst), (List.range inst.n).map (demand_row inst),
    ObjSense.minimize⟩

/-- Variable `a_i` of the pricing model. -/
def pricing_var (inst : Instance) (pi : List ℚ) (i : Nat) : Var :=
  ⟨0, some ((quot inst i : Int) : ℚ), pi.getD i 0, VType.integer, []⟩

/-- The capacity row of the pricing model. -/
def pricing_row (inst : Instance) : Constr :=
  ⟨⟨(List.range inst.n).map (fun i => (((inst.w.getD i 0 : Int) : ℚ), i)), 0⟩, Sense.le,
    LinExpr.ofConst ((inst.W : Int) : ℚ)⟩

/-- The master variable that `add_column` creates for a pattern. -/
def pattern_var (demand : List Nat) (p : Pattern) : Var :=
  ⟨0, none, 1, VType.continuous, pattern_column demand p⟩

/-- Width used by a pattern: `sum_i w_i * a_i`. -/
def used_width (inst : Instance) (p : Pattern) : Int :=
  ((List.range inst.n).map (fun i => inst.w.getD i 0 * p.getD i 0)).sum

/-- A feasible cutting pattern: `n` multiplicities, each between 0 and `W / w_i`, of
total width at most `W`. -/
def Instance.IsPattern (inst : Instance) (p : Pattern) : Prop :=
  p.length = inst.n ∧ (∀ i, i < inst.n → 0 ≤ p.getD i 0 ∧ p.getD i 0 ≤ quot inst i) ∧
    used_width inst p ≤ inst.W

instance (inst : Instance) (p : Pattern) : Decidable (inst.IsPattern p) := by
  unfold Instance.IsPattern; infer_instance

/-- The master after `build_master` and one `add_column` per pattern of the list. -/
def master_of (inst : Instance) (pats : List Pattern) : Model :=
  ⟨(List.range inst.n).map (trivial_var inst) ++ pats.map (pattern_var (List.range inst.n)),
    (List.range inst.n).map (demand_row inst), ObjSense.minimize⟩

/-- The coefficients of a variable's column in the `n` demand rows. -/
def dense (n : Nat) (v : Var) : List ℚ := (List.range n).map (fun i => colCoef v.col i)

/-- Two consecutive masters of a run, the second with one new column whose coefficient
vector differs from that of every column of the first. -/
def ExtendsNew (n : Nat) (m m' : Model) : Prop :=
  ∃ v : Var, m'.vars = m.vars ++ [v] ∧ ∀ u, u ∈ m.vars → dense n u ≠ dense n v

/-- The number of multiplicity vectors `a` with `0 ≤ a_i ≤ W / w_i`:
`prod_i (W / w_i + 1)`. -/
def pattern_count (inst : Instance) : Nat :=
  ∏ i : Fin inst.n, ((quot inst i).toNat + 1)

/-- The solver is exact on every solve of a run on the instance: on every master made of
the trivial patterns and feasible patterns, and on every pricing problem. -/
def Oracle.Exact (o : Oracle) (inst : Instance) : Prop :=
  (∀ pats : List Pattern, (∀ p, p ∈ pats → inst.IsPattern p) →
      o.ExactMaster (master_of inst pats)) ∧
    ∀ pi : List ℚ, pi.length = inst.n → o.ExactPricing inst pi

/-- The multiplicity vector of a choice of one count `0 .. W / w_i` per item. -/
def boxVec (inst : Instance) (f : (i : Fin inst.n) → Fin ((quot inst i).toNat + 1)) :
    List ℚ :=
  List.ofFn (fun i => (((f i : Fin _) : Nat) : ℚ))

/-- The number of multiplicity vectors that are not the coefficient vector of any of the
given columns. -/
def missing (inst : Instance) (vs : List Var) : Nat :=
  (Finset.univ.filter
    (fun f : (i : Fin inst.n) → Fin ((quot inst i).toNat + 1) =>
      boxVec inst f ∉ vs.map (dense inst.n))).card

/-- The variable `y[c]` of the compact model. -/
def y_var (relax : Bool) : Var := ⟨0, some 1, 1, relaxed relax VType.binary, []⟩

/-- The variable `x[i][c]` of the compact model. -/
def x_var (relax : Bool) : Var := ⟨0, none, 0, relaxed relax VType.integer, []⟩

/-- The handles `x[i][c]` of the compact model built on an empty model: the `C` variables
`y` come first, then the rows of `x`. -/
def x_handles (n C : Nat) : List (List Nat) :=
  (List.range n).map (fun i => (List.range C).map (fun c => C + i * C + c))

/-- The capacity row of bar `c`. -/
def capacity_row (inst : Instance) (C c : Nat) : Constr :=
  ⟨⟨(List.range inst.n).map
      (fun i => (((inst.w.getD i 0 : Int) : ℚ), xh (x_handles inst.n C) i c)), 0⟩,
    Sense.le, ⟨[(((inst.W : Int) : ℚ), c)], 0⟩⟩

/-- The demand row of item `i` in the compact model. -/
def compact_demand_row (inst : Instance) (C i : Nat) : Constr :=
  ⟨⟨(List.range C).map (fun c => ((1 : ℚ), xh (x_handles inst.n C) i c)), 0⟩,
    Sense.ge, LinExpr.ofConst ((inst.d.getD i 0 : Int) : ℚ)⟩

/-- The symmetry row `y[c] >= y[c+1]`. -/
def symmetry_row (c : Nat) : Constr :=
  ⟨⟨[(1, c)], 0⟩, Sense.ge, ⟨[(1, c + 1)], 0⟩⟩

/-- The positive part of the demand of item `i`. -/
def dplus (inst : Instance) (i : Nat) : ℚ := max ((inst.d.getD i 0 : Int) : ℚ) 0

/-- The total width demanded: `sum_i w_i * max(d_i, 0)`. -/
def total_plus (inst : Instance) : ℚ :=
  ((List.range inst.n).map (fun i => ((inst.w.getD i 0 : Int) : ℚ) * dplus inst i)).sum

/-- The assignment of the compact model that spreads every demand evenly over the `C`
bars: `x[i][c] = max(d_i, 0) / C`, `y[c] = sum_i w_i max(d_i, 0) / (W C)`. -/
def uniform_assign (inst : Instance) (C : Nat) : Nat → ℚ :=
  fun j =>
    if j < C then total_plus inst / (((inst.W : Int) : ℚ) * (C : ℚ))
    else dplus inst ((j - C) / C) / (C : ℚ)

/-! ## Instances of the scenarios -/

/-- The single-item instance: `W = 100`, one item of width 30 and demand 10. -/
def inst_single : Instance := ⟨"single", 1, 100, [30], [10]⟩

/-- The two-item instance: `W = 10`, items `(w = 3, d = 5)` and `(w = 4, d = 4)`. -/
def inst_two : Instance := ⟨"two", 2, 10, [3, 4], [5, 4]⟩

/-- An instance with three items of width 6 to cut from bars of length 10. -/
def inst_three : Instance := ⟨"three", 1, 10, [6], [3]⟩

/-- An instance whose second item is wider than the bar. -/
def inst_wide : Instance := ⟨"wide", 2, 10, [3, 11], [5, 4]⟩

/-- A solver that answers every pricing problem with the binary64 value nearest to
`1.000001`, which is `4503604130970123 / 2^52`, and every master with `10/3`. -/
def oracle_near : Oracle :=
  ⟨fun m =>
    match m.sense with
    | ObjSense.minimize => ⟨10 / 3, [10 / 3], [1 / 3]⟩
    | ObjSense.maximize => ⟨4503604130970123 / 2 ^ 52, [3], []⟩⟩

/-- The relation between two consecutive masters of a run: one column appended, the rows
and the earlier columns untouched. -/
def Extends (m m' : Model) : Prop :=
  ∃ v : Var, m'.vars = m.vars ++ [v] ∧ m'.constrs = m.constrs ∧ m'.sense = m.sense ∧
    v.lb = 0 ∧ v.ub = none ∧ v.obj = 1 ∧ v.vtype = VType.continuous

/-- A solver for the single-item instance: every master has optimal value `10/3`, reached
by `10/3` bars of the first (trivial) pattern, with dual price `1/3`; a pricing problem
with price `p` takes three copies when `p > 0` and none otherwise. -/
def oracle_single : Oracle :=
  ⟨fun m =>
    match m.sense with
    | ObjSense.minimize => ⟨10 / 3, [10 / 3], [1 / 3]⟩
    | ObjSense.maximize =>
      match m.vars with
      | v :: _ => if 0 < v.obj then ⟨3 * v.obj, [3], []⟩ else ⟨0, [0], []⟩
      | [] => ⟨0, [], []⟩⟩

/-- A solver for the two-item instance: the master with the two trivial patterns has
value `11/3` and prices `(1/3, 1/2)`, the master with a third column has value `13/4` and
prices `(1/4, 1/2)`, and every pricing problem is answered with the pattern `[2, 1]` of
value `7/6`. -/
def oracle_two : Oracle :=
  ⟨fun m =>
    match m.sense with
    | ObjSense.minimize =>
      if m.vars.length = 2 then ⟨11 / 3, [5 / 3, 2], [1 / 3, 1 / 2]⟩
      else ⟨13 / 4, [0, 3 / 4, 5 / 2], [1 / 4, 1 / 2]⟩
    | ObjSense.maximize => ⟨7 / 6, [2, 1], []⟩⟩

/-! ## Lemmas on the building loops -/

theorem getD_range (n i : Nat) (h : i < n) : (List.range n).getD i 0 = i := by
  simp [List.getD_eq_getElem?_getD, List.getElem?_range h]

theorem getElem?_getD_range (n i : Nat) (h : i < n) : (List.range n)[i]?.getD 0 = i := by
  simp [List.getElem?_range h]

theorem build_master_rows_fold (inst : Instance) (m : Model) (k : Nat) :
    (List.range k).foldl
      (fun (acc : List Nat × Model) i =>
        let r := acc.2.addConstr
          ⟨LinExpr.ofConst 0, Sense.ge, LinExpr.ofConst ((inst.d.getD i 0 : Int) : ℚ)⟩
        (acc.1 ++ [r.1], r.2))
      ([], m)
    = ((List.range k).map (fun i => m.constrs.length + i),
        { m with constrs := m.constrs ++ (List.range k).map (demand_row inst) }) := by
  induction k with
  | zero => simp
  | succ k ih =>
    rw [List.range_succ, List.foldl_append, ih]
    simp [Model.addConstr, demand_row, List.map_append]

theorem build_master_rows_eq (inst : Instance) :
    build_master_rows inst Model.empty
      = (List.range inst.n,
          ⟨[], (List.range inst.n).map (demand_row inst), ObjSense.minimize⟩) := by
  unfold build_master_rows
  rw [build_master_rows_fold]
  simp [Model.empty]

theorem build_master_cols_ok (inst : Instance) (m : Model) (k : Nat) (hk : k ≤ inst.n)
    (h : ∀ i, i < k → quot inst i ≠ 0) :
    (List.range k).foldlM (build_master_col inst (List.range inst.n)) m
      = Except.ok { m with vars := m.vars ++ (List.range k).map (trivial_var inst) } := by
  induction k with
  | zero => simp [pure, Except.pure]
  | succ k ih =>
    have hlt : k < inst.n := hk
    rw [List.range_succ, List.foldlM_append,
      ih (Nat.le_of_lt hlt) (fun i hi => h i (Nat.lt_succ_of_lt hi))]
    simp [build_master_col, h k (Nat.lt_succ_self k), Model.addVar, trivial_var,
      getElem?_getD_range _ _ hlt, bind, Except.bind, pure, Except.pure, List.map_append]

theorem build_master_cols_error (inst : Instance) (m : Model) (k : Nat) (hk : k ≤ inst.n)
    (h : ∃ i, i < k ∧ quot inst i = 0) :
    (List.range k).foldlM (build_master_col inst (List.range inst.n)) m
      = Except.error 1 := by
  induction k with
  | zero => obtain ⟨i, hi, _⟩ := h; omega
  | succ k ih =>
    have hlt : k < inst.n := hk
    rw [List.range_succ, List.foldlM_append]
    by_cases hex : ∃ i, i < k ∧ quot inst i = 0
    · rw [ih (Nat.le_of_lt hlt) hex]
      simp [bind, Except.bind]
    · have hall : ∀ i, i < k → quot inst i ≠ 0 := fun i hi h0 => hex ⟨i, hi, h0⟩
      have hk0 : quot inst k = 0 := by
        obtain ⟨i, hi, h0⟩ := h
        rcases Nat.lt_succ_iff_lt_or_eq.mp hi with h1 | h1
        · exact absurd h0 (hall i h1)
        · rw [← h1]; exact h0
      rw [build_master_cols_ok inst m k (Nat.le_of_lt hlt) hall]
      simp [build_master_col, hk0, bind, Except.bind]

theorem build_master_ok (inst : Instance) (h : ∀ i, i < inst.n → quot inst i ≠ 0) :
    build_master inst Model.empty = Except.ok (List.range inst.n, initial_master inst) := by
  unfold build_master
  simp only [build_master_rows_eq, build_master_cols]
  rw [build_master_cols_ok inst _ inst.n (Nat.le_refl _) h]
  simp [initial_master]

theorem build_master_error (inst : Instance) (h : ∃ i, i < inst.n ∧ quot inst i = 0) :
    build_master inst Model.empty = Except.error 1 := by
  unfold build_master
  simp only [build_master_rows_eq, build_master_cols]
  rw [build_master_cols_error inst _ inst.n (Nat.le_refl _) h]

/-- For `0 < w ≤ W` the truncating quotient is the floor quotient, at least one, and the
largest multiple count that fits. -/
theorem quot_spec (W w : Int) (hw : 0 < w) (hW : w ≤ W) :
    1 ≤ Int.tdiv W w ∧ w * Int.tdiv W w ≤ W ∧ W < w * (Int.tdiv W w + 1) := by
  have h0 : 0 ≤ W := le_trans (le_of_lt hw) hW
  rw [Int.tdiv_eq_ediv h0 (le_of_lt hw)]
  refine ⟨?_, ?_, ?_⟩
  · exact Int.le_ediv_of_mul_le hw (by simpa using hW)
  · have := Int.ediv_mul_le W (ne_of_gt hw)
    linarith [mul_comm w (W / w)]
  · have := Int.lt_ediv_add_one_mul_self W hw
    linarith [mul_comm w (W / w + 1)]

theorem quot_eq_zero_iff (W w : Int) (hw : 0 < w) (hW : 0 < W) :
    Int.tdiv W w = 0 ↔ W < w := by
  rw [Int.tdiv_eq_ediv (le_of_lt hW) (le_of_lt hw)]
  constructor
  · intro h
    by_contra hn
    have : 1 ≤ W / w := Int.le_ediv_of_mul_le hw (by simpa using not_lt.mp hn)
    omega
  · intro h
    exact Int.ediv_eq_zero_of_lt (le_of_lt hW) h

/-- Rounding an integral value gives that integer. -/
theorem cppRound_int (z : Int) : cppRound (z : ℚ) = z := by
  unfold cppRound
  have h : ⌊(1 / 2 : ℚ)⌋ = 0 := by
    rw [Int.floor_eq_iff]; norm_num
  split
  · rw [Int.floor_int_add, h]; simp
  · have : (-(z : ℚ) + 1 / 2) = (((-z : Int) : ℚ) + 1 / 2) := by push_cast; ring
    rw [this, Int.floor_int_add, h]; simp


theorem pricing_vars_fold (inst : Instance) (pi : List ℚ) (k : Nat) :
    (List.range k).foldl
      (fun (acc : (List Nat × LinExpr) × Model) i =>
        let ub : Int := quot inst i
        let r := acc.2.addVar 0 (some (ub : ℚ)) 0 VType.integer []
        ((acc.1.1 ++ [r.1], acc.1.2.addTerm (pi.getD i 0) r.1), r.2))
      (([], LinExpr.ofConst 0), Model.empty)
    = ((List.range k, ⟨(List.range k).map (fun i => (pi.getD i 0, i)), 0⟩),
        ⟨(List.range k).map (fun i => ⟨0, some ((quot inst i : Int) : ℚ), 0, VType.integer, []⟩),
          [], ObjSense.minimize⟩) := by
  induction k with
  | zero => simp [Model.empty, LinExpr.ofConst]
  | succ k ih =>
    rw [List.range_succ, List.foldl_append, ih]
    simp [Model.addVar, LinExpr.addTerm, List.map_append]

theorem pricing_cap_fold (inst : Instance) (k : Nat) (hk : k ≤ inst.n) :
    (List.range k).foldl
      (fun (cap : LinExpr) i =>
        cap.addTerm ((inst.w.getD i 0 : Int) : ℚ) ((List.range inst.n).getD i 0))
      (LinExpr.ofConst 0)
    = ⟨(List.range k).map (fun i => (((inst.w.getD i 0 : Int) : ℚ), i)), 0⟩ := by
  induction k with
  | zero => simp [LinExpr.ofConst]
  | succ k ih =>
    have hlt : k < inst.n := hk
    rw [List.range_succ, List.foldl_append, ih (Nat.le_of_lt hlt)]
    simp [LinExpr.addTerm, List.map_append, getElem?_getD_range _ _ hlt]

theorem coef_range (c : Nat → ℚ) (n j : Nat) :
    LinExpr.coef ⟨(List.range n).map (fun i => (c i, i)), 0⟩ j = if j < n then c j else 0 := by
  unfold LinExpr.coef
  induction n with
  | zero => simp
  | succ n ih =>
    simp only [List.range_succ, List.map_append, List.filter_append, List.sum_append] at ih ⊢
    rw [ih]
    by_cases h1 : j < n
    · have h2 : j < n + 1 := Nat.lt_succ_of_lt h1
      have h3 : ¬ n = j := by omega
      simp [h1, h2, h3]
    · by_cases h4 : n = j
      · subst h4; simp
      · have h5 : ¬ j < n + 1 := by omega
        simp [h1, h4, h5]

theorem setObjFrom_getElem? (e : LinExpr) (vs : List Var) (k j : Nat) :
    (setObjFrom e k vs)[j]? = vs[j]?.map (fun v => { v with obj := e.coef (k + j) }) := by
  induction vs generalizing k j with
  | nil => simp [setObjFrom]
  | cons v vs ih =>
    cases j with
    | zero => simp [setObjFrom]
    | succ j =>
      simp only [setObjFrom, List.getElem?_cons_succ]
      rw [ih]
      have : k + 1 + j = k + (j + 1) := by omega
      rw [this]

theorem pricing_model_eq (inst : Instance) (pi : List ℚ) :
    pricing_model inst pi
      = (List.range inst.n,
          ⟨(List.range inst.n).map (pricing_var inst pi), [pricing_row inst],
            ObjSense.maximize⟩) := by
  unfold pricing_model pricing_vars pricing_cap
  rw [pricing_vars_fold]
  simp only [pricing_cap_fold inst inst.n (Nat.le_refl _)]
  simp only [Model.setObjective, Model.addConstr, pricing_row, List.nil_append]
  congr 2
  apply List.ext_getElem?
  intro j
  rw [setObjFrom_getElem?, coef_range]
  by_cases hj : j < inst.n
  · simp [List.getElem?_map, List.getElem?_range hj, pricing_var, hj]
  · have : (List.range inst.n)[j]? = none := by
      apply List.getElem?_eq_none; simp; omega
    simp [List.getElem?_map, this]

/-! ## Lemmas on the loop -/

theorem colgen_loop_succ (o : Oracle) (inst : Instance) (demand : List Nat) (fuel : Nat)
    (master : Model) (iter : Nat) :
    colgen_loop o inst demand (fuel + 1) master iter =
      if (solve_pricing o inst (read_duals inst demand (o.optimize master))).2 > -EPS then
        some (⟨(o.optimize master).objVal, master.vars.length, iter⟩, [master])
      else
        (colgen_loop o inst demand fuel
          (add_column master demand
            (solve_pricing o inst (read_duals inst demand (o.optimize master))).1)
          (iter + 1)).map (fun r => (r.1, master :: r.2)) := by
  rfl

theorem add_column_extends (master : Model) (demand : List Nat) (p : Pattern) :
    Extends master (add_column master demand p) :=
  ⟨_, rfl, rfl, rfl, rfl, rfl, rfl, rfl⟩

/-- What a finished run looks like: the record starts at the master given, each later
master extends the one before it, and the counters of the result count the record. -/
theorem colgen_loop_shape (o : Oracle) (inst : Instance) (demand : List Nat) :
    ∀ (fuel : Nat) (master : Model) (iter : Nat) (res : ColGenResult) (tr : List Model),
      colgen_loop o inst demand fuel master iter = some (res, tr) →
      tr.head? = some master ∧ tr.Chain' Extends ∧
        res.n_iterations + 1 = iter + tr.length ∧
        res.n_patterns + 1 = master.vars.length + tr.length ∧
        (∀ m, m ∈ tr → m.constrs = master.constrs ∧ m.sense = master.sense) ∧
        (∃ m, tr.getLast? = some m ∧ res.n_patterns = m.vars.length ∧
          res.lp_obj = (o.optimize m).objVal) := by
  intro fuel
  induction fuel with
  | zero => intro master iter res tr h; simp [colgen_loop] at h
  | succ fuel ih =>
    intro master iter res tr h
    rw [colgen_loop_succ] at h
    split at h
    · simp only [Option.some.injEq, Prod.mk.injEq] at h
      obtain ⟨h1, h2⟩ := h
      subst h1 h2
      simp
    · rename_i hr
      cases hrec : colgen_loop o inst demand fuel
          (add_column master demand
            (solve_pricing o inst (read_duals inst demand (o.optimize master))).1)
          (iter + 1) with
      | none => rw [hrec] at h; simp at h
      | some r =>
        rw [hrec] at h
        simp only [Option.map_some', Option.some.injEq, Prod.mk.injEq] at h
        obtain ⟨h1, h2⟩ := h
        obtain ⟨r1, r2⟩ := r
        simp only at h1 h2
        subst h1 h2
        obtain ⟨a1, a2, a3, a4, a5, a6⟩ := ih _ _ _ _ hrec
        have hext := add_column_extends master demand
          (solve_pricing o inst (read_duals inst demand (o.optimize master))).1
        refine ⟨by simp, ?_, ?_, ?_, ?_, ?_⟩
        · cases r2 with
          | nil => simp
          | cons m2 rest =>
            simp only [List.head?_cons, Option.some.injEq] at a1
            subst a1
            exact List.Chain'.cons hext a2
        · simp only [List.length_cons]; omega
        · obtain ⟨v, hv, _⟩ := hext
          rw [hv] at a4
          simp only [List.length_append, List.length_singleton, List.length_cons,
            List.length_nil] at a4 ⊢
          omega
        · intro m hm
          rcases List.mem_cons.mp hm with hm | hm
          · rw [hm]; exact ⟨rfl, rfl⟩
          · obtain ⟨v, _, hc, hs, _⟩ := hext
            rw [(a5 m hm).1, (a5 m hm).2]; exact ⟨hc, hs⟩
        · obtain ⟨m, hm1, hm2, hm3⟩ := a6
          refine ⟨m, ?_, hm2, hm3⟩
          cases r2 with
          | nil => simp at hm1
          | cons m2 rest => simpa [List.getLast?_cons_cons] using hm1

/-- More fuel does not change a finished run. -/
theorem colgen_loop_mono (o : Oracle) (inst : Instance) (demand : List Nat) :
    ∀ (fuel : Nat) (master : Model) (iter : Nat) (r : ColGenResult × List Model),
      colgen_loop o inst demand fuel master iter = some r →
      ∀ fuel', fuel ≤ fuel' → colgen_loop o inst demand fuel' master iter = some r := by
  intro fuel
  induction fuel with
  | zero => intro master iter r h; simp [colgen_loop] at h
  | succ fuel ih =>
    intro master iter r h fuel' hle
    obtain ⟨f, rfl⟩ : ∃ f, fuel' = f + 1 := ⟨fuel' - 1, by omega⟩
    rw [colgen_loop_succ] at h ⊢
    split
    · rename_i hr; rw [if_pos hr] at h; exact h
    · rename_i hr
      rw [if_neg hr] at h
      cases hrec : colgen_loop o inst demand fuel
          (add_column master demand
            (solve_pricing o inst (read_duals inst demand (o.optimize master))).1)
          (iter + 1) with
      | none => rw [hrec] at h; simp at h
      | some r' =>
        rw [hrec] at h
        rw [ih _ _ _ hrec f (by omega)]
        exact h

theorem build_master_cases (inst : Instance) :
    build_master inst Model.empty = Except.error 1 ∨
      build_master inst Model.empty = Except.ok (List.range inst.n, initial_master inst) := by
  by_cases h : ∃ i, i < inst.n ∧ quot inst i = 0
  · exact Or.inl (build_master_error inst h)
  · exact Or.inr (build_master_ok inst (fun i hi h0 => h ⟨i, hi, h0⟩))

/-! ## The scenario instances, evaluated -/

theorem initial_master_single :
    initial_master inst_single
      = ⟨[⟨0, none, 1, VType.continuous, [(3, 0)]⟩],
          [⟨⟨[], 0⟩, Sense.ge, ⟨[], 10⟩⟩], ObjSense.minimize⟩ := by
  simp [initial_master, inst_single, trivial_var, demand_row, quot, LinExpr.ofConst,
    show List.range 1 = [0] from rfl]
  decide

theorem pricing_model_single (p : ℚ) :
    (pricing_model inst_single [p]).2
      = ⟨[⟨0, some 3, p, VType.integer, []⟩],
          [⟨⟨[(30, 0)], 0⟩, Sense.le, ⟨[], 100⟩⟩], ObjSense.maximize⟩ := by
  rw [pricing_model_eq]
  simp [inst_single, pricing_var, pricing_row, quot, LinExpr.ofConst,
    show List.range 1 = [0] from rfl]
  decide

theorem forall_getElem?_nil {α : Type} (P : Nat → α → Prop) :
    (∀ (j : Nat) (v : α), ([] : List α)[j]? = some v → P j v) ↔ True := by
  simp

theorem forall_getElem?_cons {α : Type} (P : Nat → α → Prop) (a : α) (l : List α) :
    (∀ (j : Nat) (v : α), (a :: l)[j]? = some v → P j v) ↔
      P 0 a ∧ ∀ (j : Nat) (v : α), l[j]? = some v → P (j + 1) v := by
  constructor
  · intro h
    exact ⟨h 0 a (by simp), fun j v hj => h (j + 1) v (by simpa using hj)⟩
  · rintro ⟨h0, hs⟩ j v hj
    cases j with
    | zero => simp at hj; subst hj; exact h0
    | succ j => exact hs j v (by simpa using hj)

/-- An exact solve of the first master of the single-item instance: value `10/3`, price
`1/3`. -/
theorem master_single_exact (sol : Solution)
    (h1 : (initial_master inst_single).IsOptimal sol)
    (h2 : (initial_master inst_single).DualOptimal sol) :
    sol.objVal = 10 / 3 ∧ sol.price 0 = 1 / 3 := by
  obtain ⟨hfeas, hobj, -⟩ := h1
  obtain ⟨-, hd1, hd2⟩ := h2
  rw [initial_master_single] at hfeas hobj hd1 hd2
  simp only [Model.Feasible, forall_getElem?_cons, forall_getElem?_nil, Var.Admits,
    Constr.Holds, LinExpr.eval, colActivity, colCoef, Model.objective, objFrom] at hfeas hobj
  simp only [pricedValue, dualFrom, forall_getElem?_cons, forall_getElem?_nil, colCoef,
    List.length_singleton, show List.range 1 = [0] from rfl] at hd1 hd2
  norm_num at hfeas hobj hd1 hd2
  constructor <;> linarith [hfeas.1, hfeas.2]

/-- An exact solve of the pricing problem of the single-item instance at price `1/3`:
value `1`. -/
theorem pricing_single_exact (sol : Solution)
    (h : (pricing_model inst_single [1 / 3]).2.IsOptimal sol) : sol.objVal = 1 := by
  obtain ⟨hpf, hpo, hpbest⟩ := h
  rw [pricing_model_single] at hpf hpo hpbest
  simp only [Model.Feasible, forall_getElem?_cons, forall_getElem?_nil, Var.Admits,
    Constr.Holds, LinExpr.eval, colActivity, colCoef, Model.objective, objFrom] at hpf hpo
  have hbest := hpbest (fun _ => 3) (by
    simp only [Model.Feasible, forall_getElem?_cons, forall_getElem?_nil, Var.Admits,
      Constr.Holds, LinExpr.eval, colActivity, colCoef, Model.objective, objFrom]
    norm_num [IsInt]
    decide)
  simp only [Model.objective, objFrom] at hbest
  norm_num at hpf hpo hbest
  linarith [hpf.1.2.1]

/-! ## Sums over the variables of a model -/

theorem colActivity_append (i : Nat) (x : Nat → ℚ) (vs ws : List Var) (k : Nat) :
    colActivity i x k (vs ++ ws)
      = colActivity i x k vs + colActivity i x (k + vs.length) ws := by
  induction vs generalizing k with
  | nil => simp [colActivity]
  | cons v vs ih =>
    have hk : k + 1 + vs.length = k + (vs.length + 1) := by omega
    rw [List.cons_append]
    simp only [colActivity, List.length_cons]
    rw [ih, hk]; ring

theorem objFrom_append (x : Nat → ℚ) (vs ws : List Var) (k : Nat) :
    objFrom x k (vs ++ ws) = objFrom x k vs + objFrom x (k + vs.length) ws := by
  induction vs generalizing k with
  | nil => simp [objFrom]
  | cons v vs ih =>
    have hk : k + 1 + vs.length = k + (vs.length + 1) := by omega
    rw [List.cons_append]
    simp only [objFrom, List.length_cons]
    rw [ih, hk]; ring

theorem objFrom_map_range (x : Nat → ℚ) (g : Nat → Var) (n : Nat) :
    objFrom x 0 ((List.range n).map g) = ((List.range n).map (fun i => (g i).obj * x i)).sum := by
  induction n with
  | zero => simp [objFrom]
  | succ n ih =>
    rw [List.range_succ, List.map_append, objFrom_append, ih]
    simp [objFrom]

theorem colActivity_map_range (r : Nat) (x : Nat → ℚ) (g : Nat → Var) (n : Nat) :
    colActivity r x 0 ((List.range n).map g)
      = ((List.range n).map (fun i => colCoef (g i).col r * x i)).sum := by
  induction n with
  | zero => simp [colActivity]
  | succ n ih =>
    rw [List.range_succ, List.map_append, colActivity_append, ih]
    simp [colActivity]

theorem dualFrom_append (pi : Nat → ℚ) (cs ds : List Constr) (k : Nat) :
    dualFrom pi k (cs ++ ds) = dualFrom pi k cs + dualFrom pi (k + cs.length) ds := by
  induction cs generalizing k with
  | nil => simp [dualFrom]
  | cons c cs ih =>
    have hk : k + 1 + cs.length = k + (cs.length + 1) := by omega
    rw [List.cons_append]
    simp only [dualFrom, List.length_cons]
    rw [ih, hk]; ring

theorem dualFrom_map_range (pi : Nat → ℚ) (g : Nat → Constr) (n : Nat) :
    dualFrom pi 0 ((List.range n).map g)
      = ((List.range n).map (fun i => ((g i).rhs.const - (g i).lhs.const) * pi i)).sum := by
  induction n with
  | zero => simp [dualFrom]
  | succ n ih =>
    rw [List.range_succ, List.map_append, dualFrom_append, ih]
    simp [dualFrom]

theorem colCoef_range (c : Nat → ℚ) (n j : Nat) :
    colCoef ((List.range n).map (fun i => (c i, i))) j = if j < n then c j else 0 :=
  coef_range c n j

theorem pattern_column_fold (demand : List Nat) (p : Pattern) (k : Nat) :
    (List.range k).foldl
      (fun (col : Column) i => col ++ [(((p.getD i 0 : Int) : ℚ), demand.getD i 0)]) []
      = (List.range k).map (fun i => (((p.getD i 0 : Int) : ℚ), demand.getD i 0)) := by
  induction k with
  | zero => simp
  | succ k ih => rw [List.range_succ, List.foldl_append, ih]; simp

theorem pattern_column_range (n : Nat) (p : Pattern) (hp : p.length = n) :
    pattern_column (List.range n) p
      = (List.range n).map (fun i => (((p.getD i 0 : Int) : ℚ), i)) := by
  unfold pattern_column
  rw [pattern_column_fold, hp]
  apply List.map_congr_left
  intro i hi
  rw [getD_range n i (List.mem_range.mp hi)]

theorem colCoef_pattern_column (n : Nat) (p : Pattern) (hp : p.length = n) (j : Nat) :
    colCoef (pattern_column (List.range n) p) j
      = if j < n then ((p.getD j 0 : Int) : ℚ) else 0 := by
  rw [pattern_column_range n p hp]
  exact colCoef_range (fun i => ((p.getD i 0 : Int) : ℚ)) n j

theorem colCoef_trivial (inst : Instance) (i j : Nat) :
    colCoef (trivial_var inst i).col j = if j = i then ((quot inst i : Int) : ℚ) else 0 := by
  by_cases h : j = i
  · subst h; simp [trivial_var, colCoef]
  · have h2 : ¬ i = j := fun e => h e.symm
    simp [trivial_var, colCoef, h, h2]

theorem sum_map_cast (l : List Nat) (f : Nat → Int) :
    (((l.map f).sum : Int) : ℚ) = (l.map (fun i => ((f i : Int) : ℚ))).sum := by
  induction l with
  | nil => simp
  | cons a l ih => simp [ih]

theorem sum_map_le (l : List Nat) (f g : Nat → ℚ) (h : ∀ i, i ∈ l → f i ≤ g i) :
    (l.map f).sum ≤ (l.map g).sum := by
  induction l with
  | nil => simp
  | cons a l ih =>
    simp only [List.map_cons, List.sum_cons]
    have h1 := h a (List.mem_cons_self a l)
    have h2 := ih (fun i hi => h i (List.mem_cons_of_mem a hi))
    linarith

theorem sum_map_congr (l : List Nat) (f g : Nat → ℚ) (h : ∀ i, i ∈ l → f i = g i) :
    (l.map f).sum = (l.map g).sum := by
  rw [List.map_congr_left h]

/-! ## Meaning of the pricing model and of the masters of a run -/

theorem IsInt_iff (q : ℚ) : IsInt q ↔ ∃ z : Int, q = (z : ℚ) := by
  unfold IsInt
  constructor
  · intro h
    exact ⟨q.num, ((Rat.den_eq_one_iff q).mp h).symm⟩
  · rintro ⟨z, rfl⟩
    exact Rat.den_intCast z

theorem pricing_objective (inst : Instance) (pi : List ℚ) (x : Nat → ℚ) :
    (pricing_model inst pi).2.objective x
      = ((List.range inst.n).map (fun i => pi.getD i 0 * x i)).sum := by
  rw [pricing_model_eq]
  simp only [Model.objective]
  rw [objFrom_map_range]
  rfl

theorem pricing_feasible_iff (inst : Instance) (pi : List ℚ) (x : Nat → ℚ) :
    (pricing_model inst pi).2.Feasible x ↔
      (∀ i, i < inst.n → 0 ≤ x i ∧ x i ≤ ((quot inst i : Int) : ℚ) ∧ IsInt (x i)) ∧
        ((List.range inst.n).map (fun i => ((inst.w.getD i 0 : Int) : ℚ) * x i)).sum
          ≤ ((inst.W : Int) : ℚ) := by
  rw [pricing_model_eq]
  simp only [Model.Feasible, forall_getElem?_cons, forall_getElem?_nil, and_true]
  have hact : colActivity 0 x 0 ((List.range inst.n).map (pricing_var inst pi)) = 0 := by
    rw [colActivity_map_range]
    simp [pricing_var, colCoef]
  have hrow : (pricing_row inst).Holds 0 ((List.range inst.n).map (pricing_var inst pi)) x ↔
      ((List.range inst.n).map (fun i => ((inst.w.getD i 0 : Int) : ℚ) * x i)).sum
          ≤ ((inst.W : Int) : ℚ) := by
    simp only [Constr.Holds, pricing_row, hact, LinExpr.eval, LinExpr.ofConst, List.map_map,
      List.map_nil, List.sum_nil, add_zero, zero_add]
    rfl
  rw [hrow]
  apply and_congr_left
  intro _
  constructor
  · intro h i hi
    have := h i (pricing_var inst pi i) (by simp [List.getElem?_map, List.getElem?_range hi])
    simp only [Var.Admits, pricing_var] at this
    exact ⟨this.1, this.2.1 _ rfl, this.2.2.1 trivial⟩
  · intro h j v hv
    have hj : j < inst.n := by
      by_contra hn
      have : (List.map (pricing_var inst pi) (List.range inst.n))[j]? = none := by
        apply List.getElem?_eq_none; simp; omega
      rw [this] at hv; cases hv
    simp only [List.getElem?_map, List.getElem?_range hj, Option.map_some',
      Option.some.injEq] at hv
    subst hv
    obtain ⟨h1, h2, h3⟩ := h j hj
    refine ⟨h1, ?_, fun _ => h3, ?_⟩
    · intro u hu
      simp only [pricing_var, Option.some.injEq] at hu
      rw [← hu]; exact h2
    · intro hb
      simp [pricing_var] at hb

theorem master_of_obj (inst : Instance) (pats : List Pattern) (u : Var)
    (hu : u ∈ (master_of inst pats).vars) : u.obj = 1 := by
  simp only [master_of, List.mem_append, List.mem_map] at hu
  rcases hu with ⟨i, _, rfl⟩ | ⟨p, _, rfl⟩ <;> rfl

theorem add_column_master_of (inst : Instance) (pats : List Pattern) (p : Pattern) :
    add_column (master_of inst pats) (List.range inst.n) p = master_of inst (pats ++ [p]) := by
  simp [add_column, Model.addVar, master_of, pattern_var]

theorem master_of_nil (inst : Instance) : master_of inst [] = initial_master inst := by
  simp [master_of, initial_master]

theorem read_duals_getD (inst : Instance) (sol : Solution) (i : Nat) (hi : i < inst.n) :
    (read_duals inst (List.range inst.n) sol).getD i 0 = sol.price i := by
  simp [read_duals, List.getD_eq_getElem?_getD, List.getElem?_map, List.getElem?_range hi,
    Solution.price]

theorem read_duals_length (inst : Instance) (demand : List Nat) (sol : Solution) :
    (read_duals inst demand sol).length = inst.n := by
  simp [read_duals]

/-- What an exact pricing solve returns to the loop: a feasible pattern, equal to the
reported values, and the reduced cost of that pattern. -/
theorem solve_pricing_exact (o : Oracle) (inst : Instance) (pi : List ℚ)
    (h : o.ExactPricing inst pi) :
    inst.IsPattern (solve_pricing o inst pi).1 ∧
    (∀ i, i < inst.n →
      (((solve_pricing o inst pi).1.getD i 0 : Int) : ℚ)
        = (o.optimize (pricing_model inst pi).2).assign i) ∧
    (solve_pricing o inst pi).2
      = 1 - ((List.range inst.n).map
          (fun i => pi.getD i 0 * (((solve_pricing o inst pi).1.getD i 0 : Int) : ℚ))).sum ∧
    ∀ p, inst.IsPattern p →
      ((List.range inst.n).map (fun i => pi.getD i 0 * ((p.getD i 0 : Int) : ℚ))).sum
        ≤ 1 - (solve_pricing o inst pi).2 := by
  obtain ⟨hf, ho, hbest⟩ := h
  have hf' := (pricing_feasible_iff inst pi _).mp hf
  rw [pricing_objective] at ho
  have hpat : ∀ i, i < inst.n →
      (((solve_pricing o inst pi).1.getD i 0 : Int) : ℚ)
        = (o.optimize (pricing_model inst pi).2).assign i := by
    intro i hi
    obtain ⟨z, hz⟩ := (IsInt_iff _).mp (hf'.1 i hi).2.2
    have hget : (solve_pricing o inst pi).1.getD i 0
        = cppRound ((o.optimize (pricing_model inst pi).2).assign i) := by
      simp only [solve_pricing, pricing_model_eq, List.getD_eq_getElem?_getD,
        List.getElem?_map, List.getElem?_range hi, Option.map_some', Option.getD_some,
        Solution.assign]
    rw [hget, hz, cppRound_int]
  have hlen : (solve_pricing o inst pi).1.length = inst.n := by simp [solve_pricing]
  refine ⟨⟨hlen, ?_, ?_⟩, hpat, ?_, ?_⟩
  · intro i hi
    have h1 := (hf'.1 i hi).1
    have h2 := (hf'.1 i hi).2.1
    rw [← hpat i hi] at h1 h2
    exact ⟨by exact_mod_cast h1, by exact_mod_cast h2⟩
  · have h3 := hf'.2
    have : ((used_width inst (solve_pricing o inst pi).1 : Int) : ℚ) ≤ ((inst.W : Int) : ℚ) := by
      unfold used_width
      rw [sum_map_cast]
      refine le_trans (le_of_eq ?_) h3
      apply sum_map_congr
      intro i hi
      rw [← hpat i (List.mem_range.mp hi)]
      push_cast
      rfl
    exact_mod_cast this
  · have : (solve_pricing o inst pi).2 = 1 - (o.optimize (pricing_model inst pi).2).objVal := by
      simp [solve_pricing]
    rw [this, ho]
    congr 1
    apply sum_map_congr
    intro i hi
    rw [hpat i (List.mem_range.mp hi)]
  · intro p hp
    have hx : (pricing_model inst pi).2.Feasible (fun i => ((p.getD i 0 : Int) : ℚ)) := by
      rw [pricing_feasible_iff]
      refine ⟨fun i hi => ⟨?_, ?_, ?_⟩, ?_⟩
      · exact_mod_cast (hp.2.1 i hi).1
      · exact_mod_cast (hp.2.1 i hi).2
      · exact (IsInt_iff _).mpr ⟨_, rfl⟩
      · have := hp.2.2
        unfold used_width at this
        have h4 : (((((List.range inst.n).map
            (fun i => inst.w.getD i 0 * p.getD i 0)).sum : Int)) : ℚ) ≤ ((inst.W : Int) : ℚ) := by
          exact_mod_cast this
        rw [sum_map_cast] at h4
        refine le_trans (le_of_eq ?_) h4
        apply sum_map_congr
        intro i _
        push_cast
        rfl
    have hb := hbest _ hx
    have hs : (pricing_model inst pi).2.sense = ObjSense.maximize := by
      rw [pricing_model_eq]
    rw [hs] at hb
    simp only at hb
    rw [pricing_objective] at hb
    have : (solve_pricing o inst pi).2 = 1 - (o.optimize (pricing_model inst pi).2).objVal := by
      simp [solve_pricing]
    rw [this]
    linarith

/-! ## Termination of the loop under an exact solver -/

theorem missing_le (inst : Instance) (vs : List Var) : missing inst vs ≤ pattern_count inst := by
  unfold missing pattern_count
  refine le_trans (Finset.card_filter_le _ _) ?_
  rw [Finset.card_univ, Fintype.card_pi]
  simp

theorem dense_pattern_var (inst : Instance) (p : Pattern) (hp : inst.IsPattern p) :
    ∃ f, boxVec inst f = dense inst.n (pattern_var (List.range inst.n) p) := by
  refine ⟨fun i => ⟨(p.getD i 0).toNat, ?_⟩, ?_⟩
  · have h := hp.2.1 i i.isLt
    have := Int.toNat_le_toNat h.2
    omega
  · unfold boxVec dense
    apply List.ext_getElem
    · simp
    · intro i h1 h2
      have hi : i < inst.n := by simpa using h1
      simp only [List.getElem_ofFn, List.getElem_map, List.getElem_range, pattern_var,
        colCoef_pattern_column inst.n p hp.1, hi, if_true]
      have h := (hp.2.1 i hi).1
      have : (((p.getD i 0).toNat : Int)) = p.getD i 0 := Int.toNat_of_nonneg h
      exact_mod_cast this

theorem missing_lt (inst : Instance) (vs : List Var) (p : Pattern) (hp : inst.IsPattern p)
    (hnew : ∀ u, u ∈ vs → dense inst.n u ≠ dense inst.n (pattern_var (List.range inst.n) p)) :
    missing inst (vs ++ [pattern_var (List.range inst.n) p]) < missing inst vs := by
  obtain ⟨f0, hf0⟩ := dense_pattern_var inst p hp
  unfold missing
  apply Finset.card_lt_card
  rw [Finset.ssubset_iff_of_subset]
  · refine ⟨f0, ?_, ?_⟩
    · simp only [Finset.mem_filter, Finset.mem_univ, true_and, List.mem_map, not_exists,
        not_and]
      intro u hu heq
      exact hnew u hu (by rw [heq, hf0])
    · simp only [Finset.mem_filter, Finset.mem_univ, true_and, not_not, hf0]
      simp
  · intro f hf
    simp only [Finset.mem_filter, Finset.mem_univ, true_and, List.map_append,
      List.mem_append, not_or] at hf ⊢
    exact hf.1

/-- A pattern that the loop adds (reduced cost at most `-EPS`) has a coefficient vector
different from that of every column of the master, when the solves are exact. -/
theorem priced_out_is_new (o : Oracle) (inst : Instance) (hex : o.Exact inst)
    (pats : List Pattern) (hpats : ∀ p, p ∈ pats → inst.IsPattern p)
    (hr : ¬ (solve_pricing o inst
        (read_duals inst (List.range inst.n) (o.optimize (master_of inst pats)))).2 > -EPS)
    (u : Var) (hu : u ∈ (master_of inst pats).vars) :
    dense inst.n u ≠ dense inst.n (pattern_var (List.range inst.n)
      (solve_pricing o inst
        (read_duals inst (List.range inst.n) (o.optimize (master_of inst pats)))).1) := by
  intro heq
  obtain ⟨-, -, hdual, -⟩ := hex.1 pats hpats
  have hpr := solve_pricing_exact o inst _
    (hex.2 (read_duals inst (List.range inst.n) (o.optimize (master_of inst pats)))
      (read_duals_length _ _ _))
  obtain ⟨hpat, -, hred, -⟩ := hpr
  obtain ⟨j, hj⟩ := List.mem_iff_getElem?.mp hu
  have h1 := hdual j u hj
  rw [master_of_obj inst pats u hu] at h1
  have hlen : (master_of inst pats).constrs.length = inst.n := by simp [master_of]
  unfold pricedValue at h1
  rw [hlen] at h1
  unfold dense at heq
  rw [List.map_inj_left] at heq
  have hsum : ((List.range inst.n).map
      (fun i => colCoef u.col i * (o.optimize (master_of inst pats)).price i)).sum
      = ((List.range inst.n).map
          (fun i => (read_duals inst (List.range inst.n)
              (o.optimize (master_of inst pats))).getD i 0 *
            (((solve_pricing o inst (read_duals inst (List.range inst.n)
              (o.optimize (master_of inst pats)))).1.getD i 0 : Int) : ℚ))).sum := by
    apply sum_map_congr
    intro i hi
    have hi' := List.mem_range.mp hi
    rw [heq i hi, read_duals_getD inst _ i hi']
    simp only [pattern_var, colCoef_pattern_column inst.n _ hpat.1, hi', if_true]
    ring
  rw [hsum] at h1
  have hlt : (solve_pricing o inst
      (read_duals inst (List.range inst.n) (o.optimize (master_of inst pats)))).2 ≤ -EPS :=
    not_lt.mp hr
  have heps : (0 : ℚ) < EPS := by unfold EPS; norm_num
  linarith

theorem colgen_terminates_aux (o : Oracle) (inst : Instance) (hex : o.Exact inst) :
    ∀ (k : Nat) (pats : List Pattern) (iter : Nat),
      (∀ p, p ∈ pats → inst.IsPattern p) →
      missing inst (master_of inst pats).vars ≤ k →
      ∃ res tr, colgen_loop o inst (List.range inst.n) (k + 1) (master_of inst pats) iter
          = some (res, tr) ∧
        res.n_iterations ≤ iter + k ∧ tr.Chain' (ExtendsNew inst.n) := by
  intro k
  induction k with
  | zero =>
    intro pats iter hpats hk
    rw [colgen_loop_succ]
    by_cases hr : (solve_pricing o inst
        (read_duals inst (List.range inst.n) (o.optimize (master_of inst pats)))).2 > -EPS
    · rw [if_pos hr]
      exact ⟨_, _, rfl, by simp, by simp⟩
    · exfalso
      have hp := (solve_pricing_exact o inst _
        (hex.2 (read_duals inst (List.range inst.n) (o.optimize (master_of inst pats)))
          (read_duals_length _ _ _))).1
      have := missing_lt inst _ _ hp (priced_out_is_new o inst hex pats hpats hr)
      omega
  | succ k ih =>
    intro pats iter hpats hk
    rw [colgen_loop_succ]
    by_cases hr : (solve_pricing o inst
        (read_duals inst (List.range inst.n) (o.optimize (master_of inst pats)))).2 > -EPS
    · rw [if_pos hr]
      exact ⟨_, _, rfl, by simp, by simp⟩
    · rw [if_neg hr]
      have hp := (solve_pricing_exact o inst _
        (hex.2 (read_duals inst (List.range inst.n) (o.optimize (master_of inst pats)))
          (read_duals_length _ _ _))).1
      have hnew := priced_out_is_new o inst hex pats hpats hr
      have hlt := missing_lt inst _ _ hp hnew
      have hvars : (master_of inst (pats ++ [(solve_pricing o inst
          (read_duals inst (List.range inst.n) (o.optimize (master_of inst pats)))).1])).vars
          = (master_of inst pats).vars ++ [pattern_var (List.range inst.n) (solve_pricing o inst
          (read_duals inst (List.range inst.n) (o.optimize (master_of inst pats)))).1] := by
        simp [master_of]
      rw [add_column_master_of]
      obtain ⟨res, tr, h1, h2, h3⟩ := ih
        (pats ++ [(solve_pricing o inst
          (read_duals inst (List.range inst.n) (o.optimize (master_of inst pats)))).1])
        (iter + 1)
        (by
          intro p hp'
          rcases List.mem_append.mp hp' with h | h
          · exact hpats p h
          · rw [List.mem_singleton.mp h]; exact hp)
        (by rw [hvars]; omega)
      rw [h1]
      refine ⟨res, master_of inst pats :: tr, rfl, by omega, ?_⟩
      have hhead := (colgen_loop_shape o inst _ _ _ _ _ _ h1).1
      cases tr with
      | nil => simp at hhead
      | cons m2 rest =>
        simp only [List.head?_cons, Option.some.injEq] at hhead
        subst hhead
        exact List.Chain'.cons ⟨_, hvars, hnew⟩ h3

/-! ## Weak duality for a master -/

theorem sum_map_add (l : List Nat) (f g : Nat → ℚ) :
    (l.map (fun i => f i + g i)).sum = (l.map f).sum + (l.map g).sum := by
  induction l with
  | nil => simp
  | cons a l ih => simp only [List.map_cons, List.sum_cons, ih]; ring

theorem sum_map_mul_left (l : List Nat) (c : ℚ) (f : Nat → ℚ) :
    (l.map (fun i => c * f i)).sum = c * (l.map f).sum := by
  induction l with
  | nil => simp
  | cons a l ih => simp only [List.map_cons, List.sum_cons, ih]; ring

/-- The rows' activities, weighted by the prices, are the columns' priced values, weighted
by the assignment; with columns not worth more than their cost this is at most the
objective. -/
theorem priced_activity_le (n : Nat) (pi x : Nat → ℚ) :
    ∀ (vs : List Var) (k : Nat),
      (∀ v, v ∈ vs → ((List.range n).map (fun i => colCoef v.col i * pi i)).sum ≤ v.obj) →
      (∀ (j : Nat) (v : Var), vs[j]? = some v → 0 ≤ x (k + j)) →
      ((List.range n).map (fun i => colActivity i x k vs * pi i)).sum ≤ objFrom x k vs := by
  intro vs
  induction vs with
  | nil => intro k _ _; simp [colActivity, objFrom]
  | cons v vs ih =>
    intro k hcol hx
    have h1 : ((List.range n).map (fun i => colActivity i x k (v :: vs) * pi i)).sum
        = x k * ((List.range n).map (fun i => colCoef v.col i * pi i)).sum
          + ((List.range n).map (fun i => colActivity i x (k + 1) vs * pi i)).sum := by
      rw [← sum_map_mul_left, ← sum_map_add]
      apply sum_map_congr
      intro i _
      simp only [colActivity]
      ring
    rw [h1]
    simp only [objFrom]
    have h2 := ih (k + 1) (fun u hu => hcol u (List.mem_cons_of_mem v hu))
      (fun j u hj => by
        have := hx (j + 1) u (by simpa using hj)
        have e : k + (j + 1) = k + 1 + j := by omega
        rw [e] at this
        exact this)
    have h3 := hcol v (List.mem_cons_self v vs)
    have h4 : 0 ≤ x k := by
      have := hx 0 v (by simp)
      simpa using this
    have h5 := mul_le_mul_of_nonneg_left h3 h4
    linarith

/-- Weak duality: for a model whose rows are the demand rows, whose variables have
non-negative lower bounds and for non-negative prices at which no column is worth more
than its cost, the dual objective is at most the objective of any feasible assignment. -/
theorem weak_duality (inst : Instance) (m : Model)
    (hc : m.constrs = (List.range inst.n).map (demand_row inst)) (pi x : Nat → ℚ)
    (hpi : ∀ i, i < inst.n → 0 ≤ pi i)
    (hcol : ∀ v, v ∈ m.vars →
      ((List.range inst.n).map (fun i => colCoef v.col i * pi i)).sum ≤ v.obj)
    (hlb : ∀ v, v ∈ m.vars → 0 ≤ v.lb)
    (hx : m.Feasible x) :
    ((List.range inst.n).map (fun i => ((inst.d.getD i 0 : Int) : ℚ) * pi i)).sum
      ≤ m.objective x := by
  have hrow : ∀ i, i < inst.n →
      ((inst.d.getD i 0 : Int) : ℚ) ≤ colActivity i x 0 m.vars := by
    intro i hi
    have := hx.2 i (demand_row inst i) (by
      rw [hc]; simp [List.getElem?_map, List.getElem?_range hi])
    simpa [Constr.Holds, demand_row, LinExpr.eval, LinExpr.ofConst] using this
  have h1 : ((List.range inst.n).map (fun i => ((inst.d.getD i 0 : Int) : ℚ) * pi i)).sum
      ≤ ((List.range inst.n).map (fun i => colActivity i x 0 m.vars * pi i)).sum := by
    apply sum_map_le
    intro i hi
    have hi' := List.mem_range.mp hi
    exact mul_le_mul_of_nonneg_right (hrow i hi') (hpi i hi')
  refine le_trans h1 ?_
  apply priced_activity_le inst.n pi x m.vars 0 hcol
  intro j v hj
  have h2 := (hx.1 j v hj).1
  have h3 := hlb v (List.mem_iff_getElem?.mpr ⟨j, hj⟩)
  simpa using le_trans h3 h2

/-! ## The solver of the single-item instance is exact -/

theorem master_of_var_shape (inst : Instance) (pats : List Pattern) (v : Var)
    (hv : v ∈ (master_of inst pats).vars) :
    v.lb = 0 ∧ v.ub = none ∧ v.obj = 1 ∧ v.vtype = VType.continuous := by
  simp only [master_of, List.mem_append, List.mem_map] at hv
  rcases hv with ⟨i, _, rfl⟩ | ⟨p, _, rfl⟩ <;> exact ⟨rfl, rfl, rfl, rfl⟩

theorem colActivity_zero (i : Nat) (x : Nat → ℚ) (vs : List Var) (k : Nat)
    (hx : ∀ j, k ≤ j → x j = 0) : colActivity i x k vs = 0 := by
  induction vs generalizing k with
  | nil => rfl
  | cons v vs ih =>
    simp only [colActivity]
    rw [hx k (Nat.le_refl k), ih (k + 1) (fun j hj => hx j (by omega))]
    ring

theorem objFrom_zero (x : Nat → ℚ) (vs : List Var) (k : Nat)
    (hx : ∀ j, k ≤ j → x j = 0) : objFrom x k vs = 0 := by
  induction vs generalizing k with
  | nil => rfl
  | cons v vs ih =>
    simp only [objFrom]
    rw [hx k (Nat.le_refl k), ih (k + 1) (fun j hj => hx j (by omega))]
    ring

theorem master_of_single (pats : List Pattern) :
    master_of inst_single pats
      = ⟨⟨0, none, 1, VType.continuous, [(3, 0)]⟩ :: pats.map (pattern_var [0]),
          [⟨⟨[], 0⟩, Sense.ge, ⟨[], 10⟩⟩], ObjSense.minimize⟩ := by
  simp [master_of, inst_single, trivial_var, demand_row, quot, LinExpr.ofConst,
    show List.range 1 = [0] from rfl]
  decide

theorem single_col_le (pats : List Pattern)
    (hpats : ∀ p, p ∈ pats → inst_single.IsPattern p) (v : Var)
    (hv : v ∈ (master_of inst_single pats).vars) :
    ((List.range inst_single.n).map (fun i => colCoef v.col i * (1 / 3 : ℚ))).sum ≤ v.obj := by
  rw [(master_of_var_shape inst_single pats v hv).2.2.1]
  simp only [master_of, List.mem_append, List.mem_map] at hv
  rcases hv with ⟨i, hi, rfl⟩ | ⟨p, hp, rfl⟩
  · have hi' : i = 0 := by
      have := List.mem_range.mp hi
      have : i < 1 := this
      omega
    subst hi'
    simp only [show inst_single.n = 1 from rfl, show List.range 1 = [0] from rfl,
      List.map_cons, List.map_nil, List.sum_cons, List.sum_nil, colCoef_trivial]
    have : quot inst_single 0 = 3 := by decide
    rw [this]; norm_num
  · have hp' := hpats p hp
    simp only [show inst_single.n = 1 from rfl, show List.range 1 = [0] from rfl,
      List.map_cons, List.map_nil, List.sum_cons, List.sum_nil, pattern_var]
    have hc := colCoef_pattern_column inst_single.n p hp'.1 0
    rw [show inst_single.n = 1 from rfl, show List.range 1 = [0] from rfl] at hc
    rw [hc, if_pos (by norm_num)]
    have h3 := (hp'.2.1 0 (by decide)).2
    have : quot inst_single 0 = 3 := by decide
    rw [this] at h3
    have h4 : ((p.getD 0 0 : Int) : ℚ) ≤ 3 := by exact_mod_cast h3
    linarith

theorem oracle_single_master (pats : List Pattern)
    (hpats : ∀ p, p ∈ pats → inst_single.IsPattern p) :
    oracle_single.ExactMaster (master_of inst_single pats) := by
  have hsol : oracle_single.optimize (master_of inst_single pats)
      = ⟨10 / 3, [10 / 3], [1 / 3]⟩ := rfl
  have hx0 : ∀ j, 1 ≤ j → (⟨10 / 3, [10 / 3], [1 / 3]⟩ : Solution).assign j = 0 := by
    intro j hj
    obtain ⟨j', rfl⟩ : ∃ j', j = j' + 1 := ⟨j - 1, by omega⟩
    simp [Solution.assign]
  have hxn : ∀ j, 0 ≤ (⟨10 / 3, [10 / 3], [1 / 3]⟩ : Solution).assign j := by
    intro j
    cases j with
    | zero => simp [Solution.assign]; norm_num
    | succ j => rw [hx0 _ (by omega)]
  have hfeas : (master_of inst_single pats).Feasible
      (⟨10 / 3, [10 / 3], [1 / 3]⟩ : Solution).assign := by
    constructor
    · intro j v hv
      obtain ⟨h1, h2, -, h4⟩ := master_of_var_shape inst_single pats v
        (List.mem_iff_getElem?.mpr ⟨j, hv⟩)
      refine ⟨by rw [h1]; exact hxn j, ?_, ?_, ?_⟩
      · intro u hu; rw [h2] at hu; cases hu
      · intro h; rw [h4] at h; cases h
      · intro h; rw [h4] at h; cases h
    · rw [master_of_single]
      simp only [forall_getElem?_cons, forall_getElem?_nil, and_true, Constr.Holds,
        LinExpr.eval, colActivity, colCoef]
      rw [colActivity_zero _ _ _ _ (fun j hj => hx0 j (by omega))]
      simp [Solution.assign]
      norm_num
  have hpricenn : ∀ i, 0 ≤ (⟨10 / 3, [10 / 3], [1 / 3]⟩ : Solution).price i := by
    intro i
    cases i with
    | zero => simp [Solution.price]
    | succ i => simp [Solution.price]
  have hprice : ∀ v, v ∈ (master_of inst_single pats).vars →
      ((List.range inst_single.n).map
        (fun i => colCoef v.col i * (⟨10 / 3, [10 / 3], [1 / 3]⟩ : Solution).price i)).sum
        ≤ v.obj := by
    intro v hv
    refine le_trans (le_of_eq ?_) (single_col_le pats hpats v hv)
    apply sum_map_congr
    intro i hi
    have : i = 0 := by
      have := List.mem_range.mp hi
      have : i < 1 := this
      omega
    subst this
    simp [Solution.price]
  rw [Oracle.ExactMaster, hsol]
  refine ⟨⟨hfeas, ?_, ?_⟩, ⟨fun i _ => hpricenn i, ?_, ?_⟩⟩
  · rw [master_of_single]
    simp only [Model.objective, objFrom]
    rw [objFrom_zero _ _ _ (fun j hj => hx0 j (by omega))]
    simp [Solution.assign]
  · intro x hx
    have hw := weak_duality inst_single (master_of inst_single pats) rfl
      (⟨10 / 3, [10 / 3], [1 / 3]⟩ : Solution).price x (fun i _ => hpricenn i) hprice
      (fun v hv => le_of_eq (master_of_var_shape inst_single pats v hv).1.symm) hx
    have hs : (master_of inst_single pats).sense = ObjSense.minimize := rfl
    rw [hs]
    simp only
    refine le_trans (le_of_eq ?_) hw
    simp [inst_single, Solution.price, show List.range 1 = [0] from rfl]
    norm_num
  · intro j v hv
    have := hprice v (List.mem_iff_getElem?.mpr ⟨j, hv⟩)
    unfold pricedValue
    have hl : (master_of inst_single pats).constrs.length = inst_single.n := by
      simp [master_of]
    rw [hl]
    exact this
  · rw [master_of_single]
    simp [dualFrom, Solution.price]
    norm_num

theorem oracle_single_pricing (pi : List ℚ) (hpi : pi.length = inst_single.n) :
    oracle_single.ExactPricing inst_single pi := by
  obtain ⟨p, rfl⟩ : ∃ p, pi = [p] := by
    match pi, hpi with
    | [p], _ => exact ⟨p, rfl⟩
  unfold Oracle.ExactPricing
  rw [pricing_model_single]
  by_cases hp : 0 < p
  · have hsol : oracle_single.optimize
        ⟨[⟨0, some 3, p, VType.integer, []⟩],
          [⟨⟨[(30, 0)], 0⟩, Sense.le, ⟨[], 100⟩⟩], ObjSense.maximize⟩
        = ⟨3 * p, [3], []⟩ := by
      simp [oracle_single, hp]
    rw [hsol]
    refine ⟨?_, ?_, ?_⟩
    · simp only [Model.Feasible, forall_getElem?_cons, forall_getElem?_nil, Var.Admits,
        Constr.Holds, LinExpr.eval, colActivity, colCoef, Solution.assign]
      norm_num [IsInt]
      decide
    · simp [Model.objective, objFrom, Solution.assign]; ring
    · intro x hx
      simp only [Model.Feasible, forall_getElem?_cons, forall_getElem?_nil, Var.Admits,
        Constr.Holds, LinExpr.eval, colActivity, colCoef] at hx
      simp only [Model.objective, objFrom]
      have h3 : x 0 ≤ 3 := hx.1.1.2.1 3 rfl
      nlinarith
  · have hsol : oracle_single.optimize
        ⟨[⟨0, some 3, p, VType.integer, []⟩],
          [⟨⟨[(30, 0)], 0⟩, Sense.le, ⟨[], 100⟩⟩], ObjSense.maximize⟩
        = ⟨0, [0], []⟩ := by
      simp [oracle_single, hp]
    rw [hsol]
    refine ⟨?_, ?_, ?_⟩
    · simp only [Model.Feasible, forall_getElem?_cons, forall_getElem?_nil, Var.Admits,
        Constr.Holds, LinExpr.eval, colActivity, colCoef, Solution.assign]
      norm_num [IsInt]
    · simp [Model.objective, objFrom, Solution.assign]
    · intro x hx
      simp only [Model.Feasible, forall_getElem?_cons, forall_getElem?_nil, Var.Admits,
        Constr.Holds, LinExpr.eval, colActivity, colCoef] at hx
      simp only [Model.objective, objFrom]
      have h0 : 0 ≤ x 0 := hx.1.1.1
      have hp' : p ≤ 0 := not_lt.mp hp
      nlinarith

theorem oracle_single_exact : oracle_single.Exact inst_single :=
  ⟨oracle_single_master, oracle_single_pricing⟩

/-! ## Adding a column keeps every feasible assignment -/

theorem colActivity_congr (i : Nat) (x y : Nat → ℚ) (vs : List Var) (k : Nat)
    (h : ∀ j, j < vs.length → x (k + j) = y (k + j)) :
    colActivity i x k vs = colActivity i y k vs := by
  induction vs generalizing k with
  | nil => rfl
  | cons v vs ih =>
    simp only [colActivity]
    have h0 := h 0 (by simp)
    simp only [Nat.add_zero] at h0
    rw [h0, ih (k + 1) (fun j hj => by
      have := h (j + 1) (by simpa using hj)
      have e : k + (j + 1) = k + 1 + j := by omega
      rw [e] at this; exact this)]

theorem objFrom_congr (x y : Nat → ℚ) (vs : List Var) (k : Nat)
    (h : ∀ j, j < vs.length → x (k + j) = y (k + j)) :
    objFrom x k vs = objFrom y k vs := by
  induction vs generalizing k with
  | nil => rfl
  | cons v vs ih =>
    simp only [objFrom]
    have h0 := h 0 (by simp)
    simp only [Nat.add_zero] at h0
    rw [h0, ih (k + 1) (fun j hj => by
      have := h (j + 1) (by simpa using hj)
      have e : k + (j + 1) = k + 1 + j := by omega
      rw [e] at this; exact this)]

/-- A feasible assignment of a master stays feasible, with the same objective, when a
column is appended and its variable is set to zero. -/
theorem extends_feasible (m m' : Model) (hext : Extends m m')
    (hrows : ∀ c, c ∈ m.constrs → c.lhs.terms = [] ∧ c.rhs.terms = [])
    (x : Nat → ℚ) (hx : m.Feasible x) :
    ∃ x', m'.Feasible x' ∧ m'.objective x' = m.objective x := by
  obtain ⟨v, hv, hc, -, hlb, hub, -, hty⟩ := hext
  refine ⟨fun j => if j < m.vars.length then x j else 0, ⟨?_, ?_⟩, ?_⟩
  · intro j u hu
    rw [hv] at hu
    by_cases hj : j < m.vars.length
    · rw [List.getElem?_append_left hj] at hu
      simp only [hj, if_true]
      exact hx.1 j u hu
    · rw [List.getElem?_append_right (not_lt.mp hj)] at hu
      have hju : u = v := by
        cases hk : j - m.vars.length with
        | zero => rw [hk] at hu; simpa using hu.symm
        | succ k => rw [hk] at hu; simp at hu
      subst hju
      simp only [hj, if_false]
      refine ⟨by rw [hlb], ?_, ?_, ?_⟩
      · intro w hw; rw [hub] at hw; cases hw
      · intro h; rw [hty] at h; cases h
      · intro h; rw [hty] at h; cases h
  · intro i c hci
    rw [hc] at hci
    have hold := hx.2 i c hci
    obtain ⟨hl, hr⟩ := hrows c (List.mem_iff_getElem?.mpr ⟨i, hci⟩)
    have hact : colActivity i (fun j => if j < m.vars.length then x j else 0) 0 m'.vars
        = colActivity i x 0 m.vars := by
      rw [hv, colActivity_append]
      simp only [colActivity, Nat.zero_add, lt_irrefl, if_false, mul_zero, add_zero]
      apply colActivity_congr
      intro j hj
      simp [hj]
    unfold Constr.Holds at hold ⊢
    simp only [LinExpr.eval, hl, hr, List.map_nil, List.sum_nil, hact] at hold ⊢
    exact hold
  · simp only [Model.objective]
    rw [hv, objFrom_append]
    simp only [objFrom, Nat.zero_add, lt_irrefl, if_false, mul_zero, add_zero]
    apply objFrom_congr
    intro j hj
    simp [hj]

theorem master_of_rows (inst : Instance) (c : Constr)
    (hc : c ∈ (List.range inst.n).map (demand_row inst)) :
    c.lhs.terms = [] ∧ c.rhs.terms = [] := by
  simp only [List.mem_map] at hc
  obtain ⟨i, _, rfl⟩ := hc
  exact ⟨rfl, rfl⟩

theorem isOptimal_isOptVal (m : Model) (sol : Solution) (h : m.IsOptimal sol) :
    m.IsOptVal sol.objVal :=
  ⟨⟨sol.assign, h.1, h.2.1.symm⟩, h.2.2⟩

/-! ## The two-item instance, evaluated -/

theorem quot_two : ∀ i, i < inst_two.n → quot inst_two i ≠ 0 := by decide

theorem initial_master_two :
    initial_master inst_two
      = ⟨[⟨0, none, 1, VType.continuous, [(3, 0)]⟩, ⟨0, none, 1, VType.continuous, [(2, 1)]⟩],
          [⟨⟨[], 0⟩, Sense.ge, ⟨[], 5⟩⟩, ⟨⟨[], 0⟩, Sense.ge, ⟨[], 4⟩⟩], ObjSense.minimize⟩ := by
  simp [initial_master, inst_two, trivial_var, demand_row, quot, LinExpr.ofConst,
    show List.range 2 = [0, 1] from rfl]
  decide

theorem extended_master_two :
    add_column (initial_master inst_two) [0, 1] [2, 1]
      = ⟨[⟨0, none, 1, VType.continuous, [(3, 0)]⟩, ⟨0, none, 1, VType.continuous, [(2, 1)]⟩,
            ⟨0, none, 1, VType.continuous, [(2, 0), (1, 1)]⟩],
          [⟨⟨[], 0⟩, Sense.ge, ⟨[], 5⟩⟩, ⟨⟨[], 0⟩, Sense.ge, ⟨[], 4⟩⟩], ObjSense.minimize⟩ := by
  rw [initial_master_two]
  simp [add_column, Model.addVar, pattern_column, show List.range 2 = [0, 1] from rfl]

theorem initial_two_feasible (x : Nat → ℚ) :
    (initial_master inst_two).Feasible x ↔
      0 ≤ x 0 ∧ 0 ≤ x 1 ∧ 5 ≤ 3 * x 0 ∧ 4 ≤ 2 * x 1 := by
  rw [initial_master_two]
  simp only [Model.Feasible, forall_getElem?_cons, forall_getElem?_nil, Var.Admits,
    Constr.Holds, LinExpr.eval, colActivity, colCoef]
  norm_num
  tauto

theorem initial_two_objective (x : Nat → ℚ) :
    (initial_master inst_two).objective x = x 0 + x 1 := by
  rw [initial_master_two]
  simp [Model.objective, objFrom]

theorem extended_two_feasible (x : Nat → ℚ) :
    (add_column (initial_master inst_two) [0, 1] [2, 1]).Feasible x ↔
      0 ≤ x 0 ∧ 0 ≤ x 1 ∧ 0 ≤ x 2 ∧ 5 ≤ 3 * x 0 + 2 * x 2 ∧ 4 ≤ 2 * x 1 + x 2 := by
  rw [extended_master_two]
  simp only [Model.Feasible, forall_getElem?_cons, forall_getElem?_nil, Var.Admits,
    Constr.Holds, LinExpr.eval, colActivity, colCoef]
  norm_num
  tauto

theorem extended_two_objective (x : Nat → ℚ) :
    (add_column (initial_master inst_two) [0, 1] [2, 1]).objective x = x 0 + x 1 + x 2 := by
  rw [extended_master_two]
  simp [Model.objective, objFrom]
  ring

theorem pricing_two_feasible (pi : List ℚ) (x : Nat → ℚ) :
    (pricing_model inst_two pi).2.Feasible x ↔
      (0 ≤ x 0 ∧ x 0 ≤ 3 ∧ IsInt (x 0)) ∧ (0 ≤ x 1 ∧ x 1 ≤ 2 ∧ IsInt (x 1)) ∧
        3 * x 0 + 4 * x 1 ≤ 10 := by
  rw [pricing_feasible_iff]
  have q0 : quot inst_two 0 = 3 := by decide
  have q1 : quot inst_two 1 = 2 := by decide
  constructor
  · rintro ⟨h1, h2⟩
    have a := h1 0 (by decide)
    have b := h1 1 (by decide)
    rw [q0] at a
    rw [q1] at b
    refine ⟨by simpa using a, by simpa using b, ?_⟩
    simpa [inst_two, show List.range 2 = [0, 1] from rfl] using h2
  · rintro ⟨a, b, h2⟩
    refine ⟨?_, ?_⟩
    · intro i hi
      have hi' : i < 2 := hi
      interval_cases i
      · rw [q0]; simpa using a
      · rw [q1]; simpa using b
    · simpa [inst_two, show List.range 2 = [0, 1] from rfl] using h2

theorem pricing_two_objective (p q : ℚ) (x : Nat → ℚ) :
    (pricing_model inst_two [p, q]).2.objective x = p * x 0 + q * x 1 := by
  rw [pricing_objective]
  simp [inst_two, show List.range 2 = [0, 1] from rfl]

/-- The bounded knapsack of the two-item instance at prices `(1/3, 1/2)`: no feasible
pattern is worth more than `7/6`, and only `(2, 1)` is worth `7/6`. -/
theorem knapsack_two (x0 x1 : ℚ) (h0 : 0 ≤ x0 ∧ x0 ≤ 3 ∧ IsInt x0)
    (h1 : 0 ≤ x1 ∧ x1 ≤ 2 ∧ IsInt x1) (hc : 3 * x0 + 4 * x1 ≤ 10) :
    1 / 3 * x0 + 1 / 2 * x1 ≤ 7 / 6 ∧
      (7 / 6 ≤ 1 / 3 * x0 + 1 / 2 * x1 → x0 = 2 ∧ x1 = 1) := by
  obtain ⟨z0, rfl⟩ := (IsInt_iff x0).mp h0.2.2
  obtain ⟨z1, rfl⟩ := (IsInt_iff x1).mp h1.2.2
  have a0 : 0 ≤ z0 := by exact_mod_cast h0.1
  have a1 : 0 ≤ z1 := by exact_mod_cast h1.1
  have b0 : z0 ≤ 3 := by exact_mod_cast h0.2.1
  have b1 : z1 ≤ 2 := by exact_mod_cast h1.2.1
  have c : 3 * z0 + 4 * z1 ≤ 10 := by exact_mod_cast hc
  constructor
  · have hz : 2 * z0 + 3 * z1 ≤ 7 := by omega
    have : (2 * (z0 : ℚ) + 3 * z1) ≤ 7 := by exact_mod_cast hz
    linarith
  · intro h
    have hq : (7 : ℚ) ≤ 2 * (z0 : ℚ) + 3 * z1 := by linarith
    have hz : 7 ≤ 2 * z0 + 3 * z1 := by exact_mod_cast hq
    have e : z0 = 2 ∧ z1 = 1 := by
      interval_cases z1 <;> omega
    obtain ⟨e0, e1⟩ := e
    subst e0 e1
    constructor <;> norm_num

/-- An exact solve of the first master of the two-item instance: value `11/3`, prices
`(1/3, 1/2)`. -/
theorem master_two_exact (sol : Solution)
    (h1 : (initial_master inst_two).IsOptimal sol)
    (h2 : (initial_master inst_two).DualOptimal sol) :
    sol.objVal = 11 / 3 ∧ sol.price 0 = 1 / 3 ∧ sol.price 1 = 1 / 2 := by
  obtain ⟨hfeas, hobj, -⟩ := h1
  obtain ⟨-, hd1, hd2⟩ := h2
  rw [initial_two_feasible] at hfeas
  rw [initial_two_objective] at hobj
  rw [initial_master_two] at hd1 hd2
  simp only [pricedValue, dualFrom, forall_getElem?_cons, forall_getElem?_nil, colCoef,
    List.length_cons, List.length_nil, show List.range (0 + 1 + 1) = [0, 1] from rfl] at hd1 hd2
  norm_num at hd1 hd2
  obtain ⟨f0, f1, f2, f3⟩ := hfeas
  obtain ⟨d0, d1⟩ := hd1
  refine ⟨?_, ?_, ?_⟩ <;> linarith

/-- An exact solve of the first pricing problem of the two-item instance: the values are
`(2, 1)` and the objective is `7/6`. -/
theorem pricing_two_exact (sol : Solution)
    (h : (pricing_model inst_two [1 / 3, 1 / 2]).2.IsOptimal sol) :
    sol.objVal = 7 / 6 ∧ sol.assign 0 = 2 ∧ sol.assign 1 = 1 := by
  obtain ⟨hf, ho, hbest⟩ := h
  rw [pricing_two_feasible] at hf
  rw [pricing_two_objective] at ho
  have hb := hbest (fun j => if j = 0 then 2 else 1) (by
    rw [pricing_two_feasible]
    norm_num [IsInt])
  have hs : (pricing_model inst_two [1 / 3, 1 / 2]).2.sense = ObjSense.maximize := by
    rw [pricing_model_eq]
  rw [hs] at hb
  simp only at hb
  rw [pricing_two_objective] at hb
  norm_num at hb
  obtain ⟨k1, k2⟩ := knapsack_two _ _ hf.1 hf.2.1 hf.2.2
  have hx := k2 (by rw [← ho]; linarith)
  refine ⟨?_, hx.1, hx.2⟩
  rw [ho, hx.1, hx.2]; norm_num

/-- An exact solve of the master of the two-item instance with the pattern `[2, 1]`
added: value `13/4`. -/
theorem extended_two_exact (sol : Solution)
    (h1 : (add_column (initial_master inst_two) [0, 1] [2, 1]).IsOptimal sol)
    (h2 : (add_column (initial_master inst_two) [0, 1] [2, 1]).DualOptimal sol) :
    sol.objVal = 13 / 4 := by
  obtain ⟨hfeas, hobj, -⟩ := h1
  obtain ⟨hd0, hd1, hd2⟩ := h2
  rw [extended_two_feasible] at hfeas
  rw [extended_two_objective] at hobj
  rw [extended_master_two] at hd0 hd1 hd2
  have p1 := hd0 1 (by simp)
  simp only [pricedValue, dualFrom, forall_getElem?_cons, forall_getElem?_nil, colCoef,
    List.length_cons, List.length_nil, show List.range (0 + 1 + 1) = [0, 1] from rfl] at hd1 hd2
  norm_num at hd1 hd2
  obtain ⟨f0, f1, f2, f3, f4⟩ := hfeas
  obtain ⟨d0, d1, d2⟩ := hd1
  apply le_antisymm <;> linarith

/-! ## The compact model in closed form -/

theorem build_y_eq (relax : Bool) (C : Nat) (m : Model) :
    build_y relax C m
      = ((List.range C).map (fun c => m.vars.length + c),
          { m with vars := m.vars ++ List.replicate C (y_var relax) }) := by
  unfold build_y
  induction C with
  | zero => simp
  | succ C ih =>
    rw [List.range_succ, List.foldl_append, ih]
    simp [Model.addVar, List.replicate_succ', y_var, List.map_append]

theorem build_x_row_eq (relax : Bool) (C : Nat) (m : Model) :
    build_x_row relax C m
      = ((List.range C).map (fun c => m.vars.length + c),
          { m with vars := m.vars ++ List.replicate C (x_var relax) }) := by
  unfold build_x_row
  induction C with
  | zero => simp
  | succ C ih =>
    rw [List.range_succ, List.foldl_append, ih]
    simp [Model.addVar, List.replicate_succ', x_var, List.map_append]

theorem build_x_fold (relax : Bool) (C : Nat) (m : Model) (k : Nat) :
    (List.range k).foldl
      (fun (acc : List (List Nat) × Model) _ =>
        let r := build_x_row relax C acc.2
        (acc.1 ++ [r.1], r.2))
      ([], m)
    = ((List.range k).map (fun i => (List.range C).map (fun c => m.vars.length + i * C + c)),
        { m with vars := m.vars ++ List.replicate (k * C) (x_var relax) }) := by
  induction k with
  | zero => simp
  | succ k ih =>
    rw [List.range_succ, List.foldl_append, ih]
    simp only [List.foldl_cons, List.foldl_nil, build_x_row_eq, List.map_append,
      List.map_cons, List.map_nil, List.length_append, List.length_replicate,
      List.append_assoc]
    have h1 : List.replicate (k * C) (x_var relax) ++ List.replicate C (x_var relax)
        = List.replicate ((k + 1) * C) (x_var relax) := by
      rw [← List.replicate_add]; congr 1; ring
    rw [h1]

theorem fold_addTerm (a : Nat → ℚ) (h : Nat → Nat) (k : Nat) :
    (List.range k).foldl (fun (e : LinExpr) i => e.addTerm (a i) (h i)) (LinExpr.ofConst 0)
      = ⟨(List.range k).map (fun i => (a i, h i)), 0⟩ := by
  induction k with
  | zero => simp [LinExpr.ofConst]
  | succ k ih =>
    rw [List.range_succ, List.foldl_append, ih]
    simp [LinExpr.addTerm, List.map_append]

theorem fold_addConstr (g : Nat → Constr) (m : Model) (k : Nat) :
    (List.range k).foldl (fun (m : Model) c => (m.addConstr (g c)).2) m
      = { m with constrs := m.constrs ++ (List.range k).map g } := by
  induction k with
  | zero => simp
  | succ k ih =>
    rw [List.range_succ, List.foldl_append, ih]
    simp [Model.addConstr, List.map_append]

theorem build_y_empty (relax : Bool) (C : Nat) :
    build_y relax C Model.empty
      = (List.range C, ⟨List.replicate C (y_var relax), [], ObjSense.minimize⟩) := by
  rw [build_y_eq]
  simp [Model.empty]

theorem build_x_eq (inst : Instance) (relax : Bool) (C : Nat) :
    build_x inst relax C ⟨List.replicate C (y_var relax), [], ObjSense.minimize⟩
      = (x_handles inst.n C,
          ⟨List.replicate C (y_var relax) ++ List.replicate (inst.n * C) (x_var relax), [],
            ObjSense.minimize⟩) := by
  unfold build_x
  rw [build_x_fold]
  simp [x_handles]

theorem build_capacity_eq (inst : Instance) (C : Nat) (m : Model) :
    build_capacity inst C (List.range C) (x_handles inst.n C) m
      = { m with constrs := m.constrs ++ (List.range C).map (capacity_row inst C) } := by
  unfold build_capacity
  simp only [fold_addTerm]
  rw [fold_addConstr]
  congr 2
  apply List.map_congr_left
  intro c hc
  simp [capacity_row, getElem?_getD_range _ _ (List.mem_range.mp hc)]

theorem build_demand_eq (inst : Instance) (C : Nat) (m : Model) :
    build_demand inst C (x_handles inst.n C) m
      = { m with constrs := m.constrs ++ (List.range inst.n).map (compact_demand_row inst C) } := by
  unfold build_demand
  simp only [fold_addTerm]
  rw [fold_addConstr]
  rfl

theorem build_symmetry_eq (C : Nat) (m : Model) :
    build_symmetry C (List.range C) m
      = { m with constrs := m.constrs ++ (List.range (C - 1)).map symmetry_row } := by
  unfold build_symmetry
  rw [fold_addConstr]
  congr 2
  apply List.map_congr_left
  intro c hc
  have h1 : c < C - 1 := List.mem_range.mp hc
  have h2 : c < C := by omega
  have h3 : c + 1 < C := by omega
  simp [symmetry_row, getElem?_getD_range _ _ h2, getElem?_getD_range _ _ h3]

theorem build_model_eq (inst : Instance) (relax : Bool) (C : Nat) :
    build_model inst relax C
      = ⟨List.replicate C (y_var relax) ++ List.replicate (inst.n * C) (x_var relax),
          (List.range C).map (capacity_row inst C)
            ++ (List.range inst.n).map (compact_demand_row inst C)
            ++ (if relax then [] else (List.range (C - 1)).map symmetry_row),
          ObjSense.minimize⟩ := by
  unfold build_model
  simp only [build_y_empty, build_x_eq, build_capacity_eq, build_demand_eq,
    build_symmetry_eq]
  cases relax <;> simp

theorem forall_getElem?_append {α : Type} (P : Nat → α → Prop) (l1 l2 : List α) :
    (∀ (i : Nat) (c : α), (l1 ++ l2)[i]? = some c → P i c) ↔
      (∀ (i : Nat) (c : α), l1[i]? = some c → P i c) ∧
        (∀ (i : Nat) (c : α), l2[i]? = some c → P (l1.length + i) c) := by
  constructor
  · intro h
    constructor
    · intro i c hc
      have hi : i < l1.length := (List.getElem?_eq_some.mp hc).1
      exact h i c (by rw [List.getElem?_append_left hi]; exact hc)
    · intro i c hc
      exact h (l1.length + i) c (by
        rw [List.getElem?_append_right (by omega)]
        simpa using hc)
  · rintro ⟨h1, h2⟩ i c hc
    by_cases hi : i < l1.length
    · rw [List.getElem?_append_left hi] at hc
      exact h1 i c hc
    · rw [List.getElem?_append_right (by omega)] at hc
      have := h2 (i - l1.length) c hc
      have e : l1.length + (i - l1.length) = i := by omega
      rw [e] at this
      exact this

theorem forall_getElem?_map_range {α : Type} (P : Nat → α → Prop) (g : Nat → α) (k : Nat) :
    (∀ (i : Nat) (c : α), ((List.range k).map g)[i]? = some c → P i c) ↔
      ∀ i, i < k → P i (g i) := by
  constructor
  · intro h i hi
    exact h i (g i) (by simp [List.getElem?_map, List.getElem?_range hi])
  · intro h i c hc
    have hi : i < k := by
      have := (List.getElem?_eq_some.mp hc).1
      simpa using this
    simp only [List.getElem?_map, List.getElem?_range hi, Option.map_some',
      Option.some.injEq] at hc
    rw [← hc]
    exact h i hi

theorem forall_getElem?_replicate {α : Type} (P : Nat → α → Prop) (a : α) (k : Nat) :
    (∀ (i : Nat) (c : α), (List.replicate k a)[i]? = some c → P i c) ↔
      ∀ i, i < k → P i a := by
  constructor
  · intro h i hi
    exact h i a (by simp [List.getElem?_replicate, hi])
  · intro h i c hc
    rw [List.getElem?_replicate] at hc
    by_cases hi : i < k
    · rw [if_pos hi] at hc
      simp only [Option.some.injEq] at hc
      rw [← hc]
      exact h i hi
    · rw [if_neg hi] at hc; cases hc

theorem colActivity_nil_cols (i : Nat) (x : Nat → ℚ) (vs : List Var) (k : Nat)
    (h : ∀ v, v ∈ vs → v.col = []) : colActivity i x k vs = 0 := by
  induction vs generalizing k with
  | nil => rfl
  | cons v vs ih =>
    simp only [colActivity]
    rw [h v (List.mem_cons_self v vs), ih (k + 1) (fun u hu => h u (List.mem_cons_of_mem v hu))]
    simp [colCoef]

theorem compact_cols (relax : Bool) (C N : Nat) (v : Var)
    (hv : v ∈ List.replicate C (y_var relax) ++ List.replicate N (x_var relax)) :
    v.col = [] := by
  rcases List.mem_append.mp hv with h | h
  · rw [(List.mem_replicate.mp h).2]; rfl
  · rw [(List.mem_replicate.mp h).2]; rfl

theorem xh_handles (n C i c : Nat) (hi : i < n) (hc : c < C) :
    xh (x_handles n C) i c = C + i * C + c := by
  simp [xh, x_handles, List.getD_eq_getElem?_getD, List.getElem?_map,
    List.getElem?_range hi, List.getElem?_range hc]

theorem eval_map_range (a : Nat → ℚ) (h : Nat → Nat) (k : Nat) (x : Nat → ℚ) :
    LinExpr.eval ⟨(List.range k).map (fun i => (a i, h i)), 0⟩ x
      = ((List.range k).map (fun i => a i * x (h i))).sum := by
  simp [LinExpr.eval, List.map_map, Function.comp_def]

/-- What feasibility means for the compact model. -/
theorem compact_feasible_iff (inst : Instance) (relax : Bool) (C : Nat) (x : Nat → ℚ) :
    (build_model inst relax C).Feasible x ↔
      (∀ c, c < C → 0 ≤ x c ∧ x c ≤ 1 ∧ (relax = false → IsInt (x c))) ∧
      (∀ j, j < inst.n * C → 0 ≤ x (C + j) ∧ (relax = false → IsInt (x (C + j)))) ∧
      (∀ c, c < C →
        ((List.range inst.n).map
          (fun i => ((inst.w.getD i 0 : Int) : ℚ) * x (C + i * C + c))).sum
          ≤ ((inst.W : Int) : ℚ) * x c) ∧
      (∀ i, i < inst.n →
        ((inst.d.getD i 0 : Int) : ℚ)
          ≤ ((List.range C).map (fun c => x (C + i * C + c))).sum) ∧
      (relax = false → ∀ c, c < C - 1 → x (c + 1) ≤ x c) := by
  rw [build_model_eq]
  have hact : ∀ i, colActivity i x 0
      (List.replicate C (y_var relax) ++ List.replicate (inst.n * C) (x_var relax)) = 0 :=
    fun i => colActivity_nil_cols i x _ 0 (fun v hv => compact_cols relax C _ v hv)
  simp only [Model.Feasible, forall_getElem?_append, forall_getElem?_replicate,
    forall_getElem?_map_range, List.length_replicate, List.length_map, List.length_range,
    List.length_append, Constr.Holds, hact, add_zero]
  have hy : ∀ c, (y_var relax).Admits (x c) ↔
      (0 ≤ x c ∧ x c ≤ 1 ∧ (relax = false → IsInt (x c))) := by
    intro c
    cases relax
    · simp only [Var.Admits, y_var, relaxed]
      simp
      tauto
    · simp only [Var.Admits, y_var, relaxed]
      simp
  have hxv : ∀ j, (x_var relax).Admits (x j) ↔ (0 ≤ x j ∧ (relax = false → IsInt (x j))) := by
    intro j
    cases relax
    · simp only [Var.Admits, x_var, relaxed]
      simp
    · simp only [Var.Admits, x_var, relaxed]
      simp
  have hcap : ∀ c, c < C →
      ((match (capacity_row inst C c).sense with
        | Sense.le => (capacity_row inst C c).lhs.eval x ≤ (capacity_row inst C c).rhs.eval x
        | Sense.ge => (capacity_row inst C c).rhs.eval x ≤ (capacity_row inst C c).lhs.eval x)
      ↔ ((List.range inst.n).map
          (fun i => ((inst.w.getD i 0 : Int) : ℚ) * x (C + i * C + c))).sum
          ≤ ((inst.W : Int) : ℚ) * x c) := by
    intro c hc
    simp only [capacity_row, eval_map_range]
    have e1 : ((List.range inst.n).map
        (fun i => ((inst.w.getD i 0 : Int) : ℚ) * x (xh (x_handles inst.n C) i c))).sum
        = ((List.range inst.n).map
          (fun i => ((inst.w.getD i 0 : Int) : ℚ) * x (C + i * C + c))).sum := by
      apply sum_map_congr
      intro i hi
      rw [xh_handles _ _ _ _ (List.mem_range.mp hi) hc]
    rw [e1]
    simp [LinExpr.eval]
  have hdem : ∀ i, i < inst.n →
      ((match (compact_demand_row inst C i).sense with
        | Sense.le => (compact_demand_row inst C i).lhs.eval x
            ≤ (compact_demand_row inst C i).rhs.eval x
        | Sense.ge => (compact_demand_row inst C i).rhs.eval x
            ≤ (compact_demand_row inst C i).lhs.eval x)
      ↔ ((inst.d.getD i 0 : Int) : ℚ)
          ≤ ((List.range C).map (fun c => x (C + i * C + c))).sum) := by
    intro i hi
    simp only [compact_demand_row, eval_map_range]
    have e1 : ((List.range C).map
        (fun c => (1 : ℚ) * x (xh (x_handles inst.n C) i c))).sum
        = ((List.range C).map (fun c => x (C + i * C + c))).sum := by
      apply sum_map_congr
      intro c hc
      rw [xh_handles _ _ _ _ hi (List.mem_range.mp hc), one_mul]
    rw [e1]
    simp [LinExpr.eval, LinExpr.ofConst]
  constructor
  · rintro ⟨⟨h1, h2⟩, ⟨h3, h4⟩, h5⟩
    refine ⟨fun c hc => (hy c).mp (h1 c hc), fun j hj => (hxv _).mp (h2 j hj),
      fun c hc => (hcap c hc).mp (h3 c hc), fun i hi => (hdem i hi).mp (h4 i hi), ?_⟩
    intro hr c hc
    rw [hr] at h5
    simp only [Bool.false_eq_true, if_false, forall_getElem?_map_range] at h5
    have := h5 c hc
    simpa [symmetry_row, LinExpr.eval] using this
  · rintro ⟨h1, h2, h3, h4, h5⟩
    refine ⟨⟨fun c hc => (hy c).mpr (h1 c hc), fun j hj => (hxv _).mpr (h2 j hj)⟩,
      ⟨fun c hc => (hcap c hc).mpr (h3 c hc), fun i hi => (hdem i hi).mpr (h4 i hi)⟩, ?_⟩
    cases relax
    · simp only [Bool.false_eq_true, if_false, forall_getElem?_map_range]
      intro c hc
      have := h5 rfl c hc
      simpa [symmetry_row, LinExpr.eval] using this
    · simp

theorem objFrom_replicate (x : Nat → ℚ) (v : Var) (N k : Nat) :
    objFrom x k (List.replicate N v) = v.obj * ((List.range N).map (fun j => x (k + j))).sum := by
  induction N generalizing k with
  | zero => simp [objFrom]
  | succ N ih =>
    rw [List.replicate_succ, objFrom, ih, List.range_succ_eq_map]
    simp only [List.map_cons, List.map_map, List.sum_cons, Nat.add_zero, Function.comp_def]
    have : (fun j => x (k + 1 + j)) = (fun j => x (k + Nat.succ j)) := by
      funext j; congr 1; omega
    rw [this]; ring

/-- The objective of the compact model is the sum of the `y[c]`. -/
theorem compact_objective (inst : Instance) (relax : Bool) (C : Nat) (x : Nat → ℚ) :
    (build_model inst relax C).objective x = ((List.range C).map x).sum := by
  rw [build_model_eq]
  simp only [Model.objective]
  rw [objFrom_append, objFrom_replicate, objFrom_replicate]
  simp [y_var, x_var]

/-! ## The master bound and the compact bound -/

theorem total_size_fold (inst : Instance) (k : Nat) :
    (List.range k).foldl (fun (t : Int) i => t + inst.w.getD i 0 * inst.d.getD i 0) 0
      = ((List.range k).map (fun i => inst.w.getD i 0 * inst.d.getD i 0)).sum := by
  induction k with
  | zero => simp
  | succ k ih =>
    rw [List.range_succ, List.foldl_append, ih]
    simp

theorem total_size_eq (inst : Instance) :
    ((total_size inst : Int) : ℚ)
      = ((List.range inst.n).map
          (fun i => ((inst.w.getD i 0 : Int) : ℚ) * ((inst.d.getD i 0 : Int) : ℚ))).sum := by
  unfold total_size
  rw [total_size_fold, sum_map_cast]
  apply sum_map_congr
  intro i _
  push_cast
  rfl

theorem sum_map_nonneg (l : List Nat) (f : Nat → ℚ) (h : ∀ i, i ∈ l → 0 ≤ f i) :
    0 ≤ (l.map f).sum := by
  have := sum_map_le l (fun _ => 0) f h
  simpa using this

theorem sum_map_div (l : List Nat) (f : Nat → ℚ) (c : ℚ) :
    (l.map (fun i => f i / c)).sum = (l.map f).sum / c := by
  induction l with
  | nil => simp
  | cons a l ih => simp only [List.map_cons, List.sum_cons, ih]; ring

theorem sum_map_const (k : Nat) (a : ℚ) :
    ((List.range k).map (fun _ => a)).sum = (k : ℚ) * a := by
  induction k with
  | zero => simp
  | succ k ih =>
    rw [List.range_succ, List.map_append, List.sum_append, ih]
    simp; ring

theorem sum_map_single (n k : Nat) (hk : k < n) (a : ℚ) (f : Nat → ℚ) :
    ((List.range n).map (fun i => (if i = k then a else 0) * f i)).sum = a * f k := by
  induction n with
  | zero => omega
  | succ n ih =>
    rw [List.range_succ, List.map_append, List.sum_append]
    by_cases h : k < n
    · rw [ih h]
      have : ¬ n = k := by omega
      simp [this]
    · have hkn : k = n := by omega
      subst hkn
      have h0 : ((List.range k).map (fun i => (if i = k then a else 0) * f i)).sum = 0 := by
        have : ((List.range k).map (fun i => (if i = k then a else 0) * f i)).sum
            = ((List.range k).map (fun _ => (0 : ℚ))).sum := by
          apply sum_map_congr
          intro i hi
          have : ¬ i = k := by
            have := List.mem_range.mp hi
            omega
          simp [this]
        rw [this, sum_map_const]; ring
      rw [h0]
      simp

/-- Exchange of the two sums of a rectangular array. -/
theorem sum_swap (f : Nat → Nat → ℚ) (n C : Nat) :
    ((List.range C).map (fun c => ((List.range n).map (fun i => f i c)).sum)).sum
      = ((List.range n).map (fun i => ((List.range C).map (fun c => f i c)).sum)).sum := by
  induction n with
  | zero => simp
  | succ n ih =>
    rw [List.range_succ, List.map_append, List.sum_append, ← ih]
    simp only [List.map_cons, List.map_nil, List.sum_cons, List.sum_nil, add_zero]
    rw [← sum_map_add]
    apply sum_map_congr
    intro c _
    rw [List.map_append, List.sum_append]
    simp

theorem dplus_nonneg (inst : Instance) (i : Nat) : 0 ≤ dplus inst i := le_max_right _ _

theorem dplus_ge (inst : Instance) (i : Nat) : ((inst.d.getD i 0 : Int) : ℚ) ≤ dplus inst i :=
  le_max_left _ _

theorem total_plus_nonneg (inst : Instance) (hfit : inst.Fits) : 0 ≤ total_plus inst := by
  unfold total_plus
  apply sum_map_nonneg
  intro i hi
  have h1 : (0 : ℚ) ≤ ((inst.w.getD i 0 : Int) : ℚ) := by
    exact_mod_cast le_of_lt (hfit i (List.mem_range.mp hi)).1
  exact mul_nonneg h1 (dplus_nonneg inst i)

/-- The column of a master variable has non-negative coefficients and uses at most the
width of the bar. -/
theorem master_col_width (inst : Instance) (hW : 0 < inst.W) (hfit : inst.Fits)
    (pats : List Pattern) (hpats : ∀ p, p ∈ pats → inst.IsPattern p) (v : Var)
    (hv : v ∈ (master_of inst pats).vars) :
    (∀ i, i < inst.n → 0 ≤ colCoef v.col i) ∧
    ((List.range inst.n).map (fun i => colCoef v.col i *
        (((inst.w.getD i 0 : Int) : ℚ) / ((inst.W : Int) : ℚ)))).sum ≤ 1 := by
  have hWq : (0 : ℚ) < ((inst.W : Int) : ℚ) := by exact_mod_cast hW
  simp only [master_of, List.mem_append, List.mem_map] at hv
  rcases hv with ⟨k, hk, rfl⟩ | ⟨p, hp, rfl⟩
  · have hk' := List.mem_range.mp hk
    have hq := quot_spec inst.W _ (hfit k hk').1 (hfit k hk').2
    constructor
    · intro i _
      rw [colCoef_trivial]
      split
      · have : (0 : ℚ) ≤ ((quot inst k : Int) : ℚ) := by
          unfold quot
          exact_mod_cast le_trans (by norm_num) hq.1
        exact this
      · exact le_refl _
    · have e : ((List.range inst.n).map (fun i => colCoef (trivial_var inst k).col i *
          (((inst.w.getD i 0 : Int) : ℚ) / ((inst.W : Int) : ℚ)))).sum
          = ((quot inst k : Int) : ℚ) *
            (((inst.w.getD k 0 : Int) : ℚ) / ((inst.W : Int) : ℚ)) := by
        rw [← sum_map_single inst.n k hk' ((quot inst k : Int) : ℚ)
          (fun i => ((inst.w.getD i 0 : Int) : ℚ) / ((inst.W : Int) : ℚ))]
        apply sum_map_congr
        intro i _
        rw [colCoef_trivial]
      rw [e]
      have h3 : ((inst.w.getD k 0 : Int) : ℚ) * ((quot inst k : Int) : ℚ)
          ≤ ((inst.W : Int) : ℚ) := by
        unfold quot
        exact_mod_cast hq.2.1
      rw [mul_div_assoc', div_le_one hWq]
      linarith
  · have hp' := hpats p hp
    constructor
    · intro i hi
      simp only [pattern_var, colCoef_pattern_column inst.n p hp'.1, hi, if_true]
      exact_mod_cast (hp'.2.1 i hi).1
    · have e : ((List.range inst.n).map
          (fun i => colCoef (pattern_var (List.range inst.n) p).col i *
            (((inst.w.getD i 0 : Int) : ℚ) / ((inst.W : Int) : ℚ)))).sum
          = ((used_width inst p : Int) : ℚ) / ((inst.W : Int) : ℚ) := by
        unfold used_width
        rw [sum_map_cast, ← sum_map_div]
        apply sum_map_congr
        intro i hi
        have hi' := List.mem_range.mp hi
        simp only [pattern_var, colCoef_pattern_column inst.n p hp'.1, hi', if_true]
        push_cast
        ring
      rw [e, div_le_one hWq]
      exact_mod_cast hp'.2.2

/-- Every feasible assignment of a master made of feasible patterns uses at least
`sum_i w_i max(d_i, 0) / W` bars. -/
theorem master_lower_bound (inst : Instance) (hW : 0 < inst.W) (hfit : inst.Fits)
    (pats : List Pattern) (hpats : ∀ p, p ∈ pats → inst.IsPattern p) (x : Nat → ℚ)
    (hx : (master_of inst pats).Feasible x) :
    total_plus inst / ((inst.W : Int) : ℚ) ≤ (master_of inst pats).objective x := by
  have hWq : (0 : ℚ) < ((inst.W : Int) : ℚ) := by exact_mod_cast hW
  have hwnn : ∀ i, i < inst.n → (0 : ℚ) ≤ ((inst.w.getD i 0 : Int) : ℚ) / ((inst.W : Int) : ℚ) := by
    intro i hi
    have h1 : (0 : ℚ) ≤ ((inst.w.getD i 0 : Int) : ℚ) := by
      exact_mod_cast le_of_lt (hfit i hi).1
    exact div_nonneg h1 (le_of_lt hWq)
  have hw := weak_duality inst (master_of inst pats) rfl
    (fun i => if 0 < inst.d.getD i 0
      then ((inst.w.getD i 0 : Int) : ℚ) / ((inst.W : Int) : ℚ) else 0) x
    (fun i hi => by
      dsimp only
      split
      · exact hwnn i hi
      · exact le_refl _)
    (fun v hv => by
      rw [(master_of_var_shape inst pats v hv).2.2.1]
      obtain ⟨hnn, hle⟩ := master_col_width inst hW hfit pats hpats v hv
      refine le_trans ?_ hle
      apply sum_map_le
      intro i hi
      have hi' := List.mem_range.mp hi
      apply mul_le_mul_of_nonneg_left _ (hnn i hi')
      dsimp only
      split
      · exact le_refl _
      · exact hwnn i hi')
    (fun v hv => le_of_eq (master_of_var_shape inst pats v hv).1.symm) hx
  refine le_trans (le_of_eq ?_) hw
  unfold total_plus
  rw [← sum_map_div]
  apply sum_map_congr
  intro i _
  unfold dplus
  dsimp only
  by_cases hd : 0 < inst.d.getD i 0
  · have : (0 : ℚ) < ((inst.d.getD i 0 : Int) : ℚ) := by exact_mod_cast hd
    rw [if_pos hd, max_eq_left (le_of_lt this)]
    ring
  · have : ((inst.d.getD i 0 : Int) : ℚ) ≤ 0 := by exact_mod_cast not_lt.mp hd
    rw [if_neg hd, max_eq_right this]
    ring

/-- A feasible assignment of the relaxed compact model needs `C` bars wide enough for the
total width demanded. -/
theorem compact_needs (inst : Instance) (hW : 0 < inst.W) (hfit : inst.Fits) (C : Nat)
    (x : Nat → ℚ) (hx : (build_model inst true C).Feasible x) :
    total_plus inst ≤ ((inst.W : Int) : ℚ) * (C : ℚ) := by
  have hWq : (0 : ℚ) < ((inst.W : Int) : ℚ) := by exact_mod_cast hW
  rw [compact_feasible_iff] at hx
  obtain ⟨hy, hxv, hcap, hdem, -⟩ := hx
  have h1 : ((List.range C).map (fun c => ((List.range inst.n).map
      (fun i => ((inst.w.getD i 0 : Int) : ℚ) * x (C + i * C + c))).sum)).sum
      ≤ ((List.range C).map (fun _ => ((inst.W : Int) : ℚ))).sum := by
    apply sum_map_le
    intro c hc
    have hc' := List.mem_range.mp hc
    refine le_trans (hcap c hc') ?_
    have := (hy c hc').2.1
    nlinarith
  rw [sum_map_const, sum_swap (fun i c => ((inst.w.getD i 0 : Int) : ℚ) * x (C + i * C + c))] at h1
  have h2 : total_plus inst ≤ ((List.range inst.n).map (fun i => ((List.range C).map
      (fun c => ((inst.w.getD i 0 : Int) : ℚ) * x (C + i * C + c))).sum)).sum := by
    unfold total_plus
    apply sum_map_le
    intro i hi
    have hi' := List.mem_range.mp hi
    rw [sum_map_mul_left]
    have hw0 : (0 : ℚ) ≤ ((inst.w.getD i 0 : Int) : ℚ) := by
      exact_mod_cast le_of_lt (hfit i hi').1
    apply mul_le_mul_of_nonneg_left _ hw0
    unfold dplus
    apply max_le (hdem i hi')
    apply sum_map_nonneg
    intro c hc
    have hc' := List.mem_range.mp hc
    have hj : i * C + c < inst.n * C := by
      have : (i + 1) * C ≤ inst.n * C := Nat.mul_le_mul_right C hi'
      rw [Nat.add_mul] at this
      omega
    have := (hxv (i * C + c) hj).1
    rw [← Nat.add_assoc] at this
    exact this
  linarith

theorem uniform_x (inst : Instance) (C i c : Nat) (hc : c < C) :
    uniform_assign inst C (C + i * C + c) = dplus inst i / (C : ℚ) := by
  unfold uniform_assign
  have h1 : ¬ (C + i * C + c < C) := by omega
  have h2 : (C + i * C + c - C) / C = i := by
    have : C + i * C + c - C = c + C * i := by
      rw [Nat.mul_comm i C]; omega
    rw [this, Nat.add_mul_div_left _ _ (by omega : 0 < C), Nat.div_eq_of_lt hc]
    simp
  rw [if_neg h1, h2]

theorem uniform_y (inst : Instance) (C c : Nat) (hc : c < C) :
    uniform_assign inst C c = total_plus inst / (((inst.W : Int) : ℚ) * (C : ℚ)) := by
  unfold uniform_assign
  rw [if_pos hc]

/-- With enough bars for the total width, the relaxed compact model has a feasible
assignment of objective `sum_i w_i max(d_i, 0) / W`. -/
theorem compact_uniform (inst : Instance) (hW : 0 < inst.W) (hfit : inst.Fits)
    (C : Nat) (hC : total_plus inst ≤ ((inst.W : Int) : ℚ) * (C : ℚ)) :
    ∃ x, (build_model inst true C).Feasible x ∧
      (build_model inst true C).objective x = total_plus inst / ((inst.W : Int) : ℚ) := by
  have hWq : (0 : ℚ) < ((inst.W : Int) : ℚ) := by exact_mod_cast hW
  have hT0 := total_plus_nonneg inst hfit
  rcases Nat.eq_zero_or_pos C with h0 | hpos
  · subst h0
    have hT : total_plus inst = 0 := by
      have : total_plus inst ≤ 0 := by simpa using hC
      linarith
    refine ⟨fun _ => 0, ?_, ?_⟩
    · rw [compact_feasible_iff]
      refine ⟨fun c hc => by omega, fun j hj => by omega, fun c hc => by omega, ?_,
        fun h => by cases h⟩
      intro i hi
      simp only [List.range_zero, List.map_nil, List.sum_nil]
      have hterm : ((inst.w.getD i 0 : Int) : ℚ) * dplus inst i ≤ 0 := by
        rw [← hT]
        unfold total_plus
        apply List.single_le_sum
        · intro q hq
          obtain ⟨k, hk, rfl⟩ := List.mem_map.mp hq
          have hk' := List.mem_range.mp hk
          have h1 : (0 : ℚ) ≤ ((inst.w.getD k 0 : Int) : ℚ) := by
            exact_mod_cast le_of_lt (hfit k hk').1
          exact mul_nonneg h1 (dplus_nonneg inst k)
        · exact List.mem_map.mpr ⟨i, List.mem_range.mpr hi, rfl⟩
      have hwpos : (0 : ℚ) < ((inst.w.getD i 0 : Int) : ℚ) := by
        exact_mod_cast (hfit i hi).1
      have hdp : dplus inst i ≤ 0 := by
        by_contra hcon
        have := mul_pos hwpos (not_le.mp hcon)
        linarith
      exact le_trans (dplus_ge inst i) hdp
    · rw [compact_objective, hT]
      simp
  · have hCpos : (0 : ℚ) < (C : ℚ) := by exact_mod_cast hpos
    refine ⟨uniform_assign inst C, ?_, ?_⟩
    · rw [compact_feasible_iff]
      refine ⟨?_, ?_, ?_, ?_, fun h => by cases h⟩
      · intro c hc
        rw [uniform_y inst C c hc]
        refine ⟨div_nonneg hT0 (le_of_lt (mul_pos hWq hCpos)), ?_, fun h => by cases h⟩
        rw [div_le_one (mul_pos hWq hCpos)]
        exact hC
      · intro j _
        refine ⟨?_, fun h => by cases h⟩
        unfold uniform_assign
        have h1 : ¬ (C + j < C) := by omega
        rw [if_neg h1]
        exact div_nonneg (dplus_nonneg inst _) (le_of_lt hCpos)
      · intro c hc
        rw [uniform_y inst C c hc]
        have e : ((List.range inst.n).map
            (fun i => ((inst.w.getD i 0 : Int) : ℚ) * uniform_assign inst C (C + i * C + c))).sum
            = total_plus inst / (C : ℚ) := by
          unfold total_plus
          rw [← sum_map_div]
          apply sum_map_congr
          intro i _
          rw [uniform_x inst C i c hc]
          ring
        rw [e]
        apply le_of_eq
        field_simp
        ring
      · intro i _
        have e : ((List.range C).map (fun c => uniform_assign inst C (C + i * C + c))).sum
            = ((List.range C).map (fun _ => dplus inst i / (C : ℚ))).sum := by
          apply sum_map_congr
          intro c hc
          rw [uniform_x inst C i c (List.mem_range.mp hc)]
        rw [e, sum_map_const]
        refine le_trans (dplus_ge inst i) (le_of_eq ?_)
        field_simp
    · rw [compact_objective]
      have e : ((List.range C).map (uniform_assign inst C)).sum
          = ((List.range C).map
              (fun _ => total_plus inst / (((inst.W : Int) : ℚ) * (C : ℚ)))).sum := by
        apply sum_map_congr
        intro c hc
        rw [uniform_y inst C c (List.mem_range.mp hc)]
      rw [e, sum_map_const]
      field_simp
      ring

/-- The compact bound is below the master bound: whatever the number of bars, an optimal
value of the relaxed compact model is at most the objective of any feasible assignment of
a master made of feasible patterns. -/
theorem compact_le_master (inst : Instance) (hfit : inst.Fits) (C : Nat) (vc : ℚ)
    (hv : (build_model inst true C).IsOptVal vc)
    (pats : List Pattern) (hpats : ∀ p, p ∈ pats → inst.IsPattern p) (x : Nat → ℚ)
    (hx : (master_of inst pats).Feasible x) :
    vc ≤ (master_of inst pats).objective x := by
  have hs : (build_model inst true C).sense = ObjSense.minimize := by
    rw [build_model_eq]
  obtain ⟨⟨xc, hxc, -⟩, hbest⟩ := hv
  rw [hs] at hbest
  simp only at hbest
  rcases Nat.eq_zero_or_pos inst.n with hn | hn
  · have hz : (build_model inst true C).Feasible (fun _ => 0) := by
      rw [compact_feasible_iff]
      refine ⟨fun c _ => ⟨le_refl _, by norm_num, fun h => by cases h⟩,
        fun j _ => ⟨le_refl _, fun h => by cases h⟩, ?_, ?_, fun h => by cases h⟩
      · intro c _
        rw [hn]
        simp
      · intro i hi
        omega
    have h1 := hbest _ hz
    rw [compact_objective] at h1
    have h2 : ((List.range C).map (fun _ => (0 : ℚ))).sum = 0 := by
      rw [sum_map_const]; ring
    rw [h2] at h1
    have h3 := weak_duality inst (master_of inst pats) rfl (fun _ => 0) x
      (fun i _ => le_refl _)
      (fun v hv' => by
        rw [(master_of_var_shape inst pats v hv').2.2.1, hn]
        simp)
      (fun v hv' => le_of_eq (master_of_var_shape inst pats v hv').1.symm) hx
    rw [hn] at h3
    simp only [List.range_zero, List.map_nil, List.sum_nil] at h3
    linarith
  · have hW : 0 < inst.W := lt_of_lt_of_le (hfit 0 hn).1 (hfit 0 hn).2
    obtain ⟨xu, hxu, hou⟩ := compact_uniform inst hW hfit C (compact_needs inst hW hfit C xc hxc)
    have h1 := hbest xu hxu
    rw [hou] at h1
    exact le_trans h1 (master_lower_bound inst hW hfit pats hpats x hx)

/-- The bar count of the compact `main`, when the quotient fits an `int`: it is
`ceil(sum_i w_i d_i / W)`. -/
theorem bar_count_spec (inst : Instance) (hW : 0 < inst.W) (hT : 0 ≤ total_size inst)
    (hrange : Int.tdiv (total_size inst + inst.W - 1) inst.W < 2 ^ 31) :
    bar_count inst = (total_size inst + inst.W - 1) / inst.W ∧
    0 ≤ bar_count inst ∧
    total_size inst ≤ inst.W * bar_count inst ∧
    inst.W * (bar_count inst - 1) < total_size inst := by
  have hq : Int.tdiv (total_size inst + inst.W - 1) inst.W
      = (total_size inst + inst.W - 1) / inst.W :=
    Int.tdiv_eq_ediv (by omega) (le_of_lt hW)
  rw [hq] at hrange
  have hq0 : 0 ≤ (total_size inst + inst.W - 1) / inst.W :=
    Int.ediv_nonneg (by omega) (le_of_lt hW)
  have hb : bar_count inst = (total_size inst + inst.W - 1) / inst.W := by
    unfold bar_count toInt32
    rw [hq]
    omega
  have h1 := Int.lt_ediv_add_one_mul_self (total_size inst + inst.W - 1) hW
  have h2 := Int.ediv_mul_le (total_size inst + inst.W - 1) (ne_of_gt hW)
  rw [hb]
  refine ⟨rfl, hq0, ?_, ?_⟩
  · nlinarith
  · nlinarith

/-- Every master that a run solves is made of the trivial patterns and feasible patterns,
when the pricing solves are exact. -/
theorem colgen_loop_masters (o : Oracle) (inst : Instance)
    (hP : ∀ pi : List ℚ, pi.length = inst.n → o.ExactPricing inst pi) :
    ∀ (fuel : Nat) (pats : List Pattern) (iter : Nat) (res : ColGenResult) (tr : List Model),
      (∀ p, p ∈ pats → inst.IsPattern p) →
      colgen_loop o inst (List.range inst.n) fuel (master_of inst pats) iter = some (res, tr) →
      ∀ m, m ∈ tr → ∃ pats', (∀ p, p ∈ pats' → inst.IsPattern p) ∧ m = master_of inst pats' := by
  intro fuel
  induction fuel with
  | zero => intro pats iter res tr _ h; simp [colgen_loop] at h
  | succ fuel ih =>
    intro pats iter res tr hpats h m hm
    rw [colgen_loop_succ] at h
    split at h
    · simp only [Option.some.injEq, Prod.mk.injEq] at h
      rw [← h.2] at hm
      rw [List.mem_singleton] at hm
      exact ⟨pats, hpats, hm⟩
    · rw [add_column_master_of] at h
      cases hrec : colgen_loop o inst (List.range inst.n) fuel
          (master_of inst (pats ++ [(solve_pricing o inst
            (read_duals inst (List.range inst.n) (o.optimize (master_of inst pats)))).1]))
          (iter + 1) with
      | none => rw [hrec] at h; simp at h
      | some r =>
        rw [hrec] at h
        obtain ⟨r1, r2⟩ := r
        simp only [Option.map_some', Option.some.injEq, Prod.mk.injEq] at h
        rw [← h.2] at hm
        rcases List.mem_cons.mp hm with hm | hm
        · exact ⟨pats, hpats, hm⟩
        · have hp := (solve_pricing_exact o inst _
            (hP (read_duals inst (List.range inst.n) (o.optimize (master_of inst pats)))
              (read_duals_length _ _ _))).1
          exact ih _ _ _ _ (by
            intro p hp'
            rcases List.mem_append.mp hp' with h1 | h1
            · exact hpats p h1
            · rw [List.mem_singleton.mp h1]; exact hp) hrec m hm

/-! ## The convergence test on binary64 values -/

theorem isBinary64_int (m : Int) (b : Nat) (hm : |m| < 2 ^ 53) (hb : b ≤ 1074) :
    IsBinary64 ((m : ℚ) / 2 ^ b) :=
  ⟨m, 0, b, hm, by norm_num, hb, by simp⟩

theorem isBinary64_zero : IsBinary64 0 := by
  have := isBinary64_int 0 0 (by norm_num) (by norm_num)
  simpa using this

theorem isBinary64_one : IsBinary64 1 := by
  have := isBinary64_int 1 0 (by norm_num) (by norm_num)
  simpa using this

theorem isBinary64_neg_one : IsBinary64 (-1) := by
  have := isBinary64_int (-1) 0 (by norm_num) (by norm_num)
  simpa using this

theorem isBinary64_EPS : IsBinary64 EPS := by
  have := isBinary64_int 4722366482869645 72 (by norm_num) (by norm_num)
  simpa [EPS] using this

theorem EPS_pos : 0 < EPS := by unfold EPS; norm_num

theorem EPS_lt_one : EPS < 1 := by unfold EPS; norm_num

/-- A binary64 value of size at least `2^-s` is a multiple of `2^-(52+s)`. -/
theorem binary64_grid (q : ℚ) (s : Nat) (hq : IsBinary64 q) (h1 : 1 ≤ q * 2 ^ s) :
    ∃ k : Int, q = (k : ℚ) / 2 ^ (52 + s) := by
  obtain ⟨m, a, b, hm, -, -, rfl⟩ := hq
  have hb0 : (0 : ℚ) < 2 ^ b := by positivity
  have hm53 : (m : ℚ) < 2 ^ 53 := by
    have : m < 2 ^ 53 := lt_of_le_of_lt (le_abs_self m) hm
    exact_mod_cast this
  have h2 : (2 : ℚ) ^ b ≤ (m : ℚ) * 2 ^ a * 2 ^ s := by
    have : (m : ℚ) * 2 ^ a / 2 ^ b * 2 ^ s = (m : ℚ) * 2 ^ a * 2 ^ s / 2 ^ b := by ring
    rw [this, le_div_iff₀ hb0] at h1
    linarith
  have h3 : (m : ℚ) * 2 ^ a * 2 ^ s < 2 ^ (53 + a + s) := by
    have hpos : (0 : ℚ) < 2 ^ a * 2 ^ s := by positivity
    have : (m : ℚ) * (2 ^ a * 2 ^ s) < 2 ^ 53 * (2 ^ a * 2 ^ s) :=
      mul_lt_mul_of_pos_right hm53 hpos
    calc (m : ℚ) * 2 ^ a * 2 ^ s = (m : ℚ) * (2 ^ a * 2 ^ s) := by ring
      _ < 2 ^ 53 * (2 ^ a * 2 ^ s) := this
      _ = 2 ^ (53 + a + s) := by rw [pow_add, pow_add]; ring
  have h4 : (2 : ℚ) ^ b < 2 ^ (53 + a + s) := lt_of_le_of_lt h2 h3
  have h5 : b < 53 + a + s := (pow_lt_pow_iff_right₀ (by norm_num : (1 : ℚ) < 2)).mp h4
  refine ⟨m * 2 ^ (a + s + 52 - b), ?_⟩
  have h6 : (2 : ℚ) ^ (52 + s) * 2 ^ a = 2 ^ (a + s + 52 - b) * 2 ^ b := by
    rw [← pow_add, ← pow_add]
    congr 1
    omega
  have hs0 : (0 : ℚ) < 2 ^ (52 + s) := by positivity
  rw [div_eq_div_iff (ne_of_gt hb0) (ne_of_gt hs0)]
  push_cast
  calc (m : ℚ) * 2 ^ a * 2 ^ (52 + s) = (m : ℚ) * (2 ^ (52 + s) * 2 ^ a) := by ring
    _ = (m : ℚ) * (2 ^ (a + s + 52 - b) * 2 ^ b) := by rw [h6]
    _ = (m : ℚ) * 2 ^ (a + s + 52 - b) * 2 ^ b := by ring

/-- No multiple of `2^-52` is at distance `EPS` below 1: the numerator of `EPS` over
`2^72` is odd. -/
theorem grid_ne_EPS (k : Int) : 1 - (k : ℚ) / 2 ^ 52 ≠ -EPS := by
  intro h
  unfold EPS at h
  have h1 : ((2 : ℚ) ^ 52 - k) * 2 ^ 20 = -4722366482869645 := by
    have e : ((2 : ℚ) ^ 52 - k) * 2 ^ 20 = (1 - (k : ℚ) / 2 ^ 52) * 2 ^ 72 := by
      field_simp
      ring
    rw [e, h]
    norm_num
  have h2 : ((2 : Int) ^ 52 - k) * 2 ^ 20 = -4722366482869645 := by exact_mod_cast h1
  norm_num at h2
  omega

/-- The exact difference `1 - obj` is never `-EPS` when `obj` is a binary64 value. -/
theorem exact_ne_EPS (obj : ℚ) (hobj : IsBinary64 obj) : 1 - obj ≠ -EPS := by
  intro h
  have hge : 1 ≤ obj * 2 ^ 0 := by
    have := EPS_pos
    simp only [pow_zero, mul_one]
    linarith
  obtain ⟨k, hk⟩ := binary64_grid obj 0 hobj hge
  rw [hk] at h
  exact grid_ne_EPS k h

/-- A binary64 value between 1 and 2 has an exact binary64 difference with 1. -/
theorem sub_exact (obj : ℚ) (hobj : IsBinary64 obj) (h1 : 1 ≤ obj) (h2 : obj ≤ 2) :
    IsBinary64 (1 - obj) := by
  obtain ⟨k, hk⟩ := binary64_grid obj 0 hobj (by simpa using h1)
  simp only [Nat.add_zero] at hk
  have hk1 : (2 : ℚ) ^ 52 ≤ k := by
    rw [hk, le_div_iff₀ (by positivity)] at h1
    linarith
  have hk2 : (k : ℚ) ≤ 2 ^ 53 := by
    rw [hk, div_le_iff₀ (by positivity)] at h2
    have : (2 : ℚ) * 2 ^ 52 = 2 ^ 53 := by norm_num
    linarith
  have hk1' : (2 : Int) ^ 52 ≤ k := by exact_mod_cast hk1
  have hk2' : k ≤ (2 : Int) ^ 53 := by exact_mod_cast hk2
  have := isBinary64_int (2 ^ 52 - k) 52 (by
    rw [abs_lt]
    constructor
    · norm_num at hk1' hk2' ⊢; omega
    · norm_num at hk1' hk2' ⊢; omega) (by norm_num)
  have e : 1 - obj = (((2 ^ 52 - k : Int)) : ℚ) / 2 ^ 52 := by
    rw [hk]
    push_cast
    field_simp
    norm_num
  rw [e]
  exact this

/-- The binary64 subtraction `1.0 - obj`, rounded to nearest, falls on the same side of
`-EPS` as the exact difference, and neither of them is `-EPS`. -/
theorem rounded_test (obj r : ℚ) (hobj : IsBinary64 obj) (hr : RoundsTo (1 - obj) r) :
    (r > -EPS ↔ 1 - obj > -EPS) ∧ r ≠ -EPS ∧ 1 - obj ≠ -EPS := by
  have hx := exact_ne_EPS obj hobj
  have he0 := EPS_pos
  have he1 := EPS_lt_one
  obtain ⟨-, hnear⟩ := hr
  by_cases h1 : obj < 1
  · have hpos : r > -EPS := by
      by_contra hcon
      have hle : r ≤ -EPS := not_lt.mp hcon
      have h0 := hnear 0 isBinary64_zero
      rw [abs_of_pos (by linarith : (0 : ℚ) < 1 - obj - r),
        abs_of_pos (by linarith : (0 : ℚ) < 1 - obj - 0)] at h0
      linarith
    exact ⟨⟨fun _ => by linarith, fun _ => hpos⟩, ne_of_gt hpos, hx⟩
  · by_cases h2 : obj ≤ 2
    · have hex := sub_exact obj hobj (not_lt.mp h1) h2
      have h0 := hnear (1 - obj) hex
      rw [sub_self, abs_zero] at h0
      have hre : r = 1 - obj := by
        have := abs_nonpos_iff.mp h0
        linarith
      rw [hre]
      exact ⟨Iff.rfl, hx, hx⟩
    · have hgt : 2 < obj := not_le.mp h2
      have hneg : r < -EPS := by
        by_contra hcon
        have hge : -EPS ≤ r := not_lt.mp hcon
        have h0 := hnear (-1) isBinary64_neg_one
        rw [abs_of_neg (by linarith : 1 - obj - r < 0),
          abs_of_neg (by linarith : 1 - obj - -1 < 0)] at h0
        linarith
      exact ⟨⟨fun h => by linarith, fun h => by linarith⟩, ne_of_lt hneg, hx⟩

/-- The constant `EPS` is the binary64 value nearest to `1/1000000`. -/
theorem EPS_rounds : RoundsTo (1 / 1000000) EPS := by
  refine ⟨isBinary64_EPS, ?_⟩
  intro d hd
  have hdist : |(1 / 1000000 : ℚ) - EPS| = 213696 / (1000000 * 2 ^ 72) := by
    unfold EPS
    norm_num [abs_of_pos]
  rw [hdist]
  by_cases hsmall : d * 2 ^ 20 < 1
  · have hd' : d < 1 / 2 ^ 20 := by
      rw [lt_div_iff₀ (by positivity)]
      exact hsmall
    have : (0 : ℚ) < 1 / 1000000 - d := by
      have : (1 : ℚ) / 2 ^ 20 < 1 / 1000000 := by norm_num
      linarith
    rw [abs_of_pos this]
    have : (1 : ℚ) / 1000000 - 1 / 2 ^ 20 ≥ 213696 / (1000000 * 2 ^ 72) := by norm_num
    linarith
  · obtain ⟨k, hk⟩ := binary64_grid d 20 hd (not_lt.mp hsmall)
    have e : (1 / 1000000 : ℚ) - d = (((2 ^ 72 - 1000000 * k : Int)) : ℚ) / (1000000 * 2 ^ 72) := by
      rw [hk]
      push_cast
      field_simp
      ring
    rw [e, abs_div, abs_of_pos (by positivity : (0 : ℚ) < 1000000 * 2 ^ 72)]
    apply div_le_div_of_nonneg_right _ (by positivity)
    have hz : (213696 : Int) ≤ |2 ^ 72 - 1000000 * k| := by
      norm_num
      rw [le_abs]
      omega
    have : ((213696 : Int) : ℚ) ≤ ((|2 ^ 72 - 1000000 * k| : Int) : ℚ) := by exact_mod_cast hz
    rw [Int.cast_abs] at this
    simpa using this

/-! ## The claims -/

/-- C7. For every instance in which every item fits (`0 < w_i ≤ W`), `build_master`
succeeds and the coefficient it gives to the trivial pattern of item `i` in its own demand
row is the integer quotient `W / w_i` (truncating in the source, equal to the floor
quotient here); this quotient is at least one, `w_i` times it is at
most `W`, `w_i` times its successor exceeds `W`, and it is the upper bound that
`solve_pricing` puts on the variable `a_i`. -/
theorem trivial_pattern_fill (inst : Instance) (hfit : inst.Fits) (pi : List ℚ) (i : Nat)
    (hi : i < inst.n) :
    ∃ dm f, build_master inst Model.empty = Except.ok dm ∧
      f = Int.tdiv inst.W (inst.w.getD i 0) ∧ f = inst.W / inst.w.getD i 0 ∧
      dm.2.coef (dm.1.getD i 0) i = (f : ℚ) ∧
      1 ≤ f ∧ inst.w.getD i 0 * f ≤ inst.W ∧ inst.W < inst.w.getD i 0 * (f + 1) ∧
      ((pricing_model inst pi).2.vars[(pricing_model inst pi).1.getD i 0]?).map Var.ub
        = some (some (f : ℚ)) := by
  have hq : ∀ j, j < inst.n → quot inst j ≠ 0 := by
    intro j hj h0
    have := (quot_spec inst.W _ (hfit j hj).1 (hfit j hj).2).1
    unfold quot at h0
    omega
  refine ⟨(List.range inst.n, initial_master inst), Int.tdiv inst.W (inst.w.getD i 0),
    build_master_ok inst hq, rfl,
    Int.tdiv_eq_ediv (le_trans (le_of_lt (hfit i hi).1) (hfit i hi).2) (le_of_lt (hfit i hi).1),
    ?_, ?_⟩
  · simp [Model.coef, initial_master, getElem?_getD_range _ _ hi, List.getElem?_map,
      List.getElem?_range hi, trivial_var, colCoef, quot]
  · obtain ⟨h1, h2, h3⟩ := quot_spec inst.W _ (hfit i hi).1 (hfit i hi).2
    refine ⟨h1, h2, h3, ?_⟩
    rw [pricing_model_eq]
    simp [getElem?_getD_range _ _ hi, List.getElem?_map, List.getElem?_range hi, pricing_var,
      quot]

/-- Witness of C7 on the two-item instance, item 0. -/
theorem trivial_pattern_fill_witness :
    inst_two.Fits ∧ 0 < inst_two.n ∧
    ∃ dm f, build_master inst_two Model.empty = Except.ok dm ∧
      f = Int.tdiv inst_two.W (inst_two.w.getD 0 0) ∧ f = inst_two.W / inst_two.w.getD 0 0 ∧
      dm.2.coef (dm.1.getD 0 0) 0 = (f : ℚ) ∧
      1 ≤ f ∧ inst_two.w.getD 0 0 * f ≤ inst_two.W ∧
      inst_two.W < inst_two.w.getD 0 0 * (f + 1) ∧
      ((pricing_model inst_two [1 / 3, 1 / 2]).2.vars[
          (pricing_model inst_two [1 / 3, 1 / 2]).1.getD 0 0]?).map Var.ub
        = some (some (f : ℚ)) :=
  ⟨by decide, by decide, trivial_pattern_fill inst_two (by decide) [1 / 3, 1 / 2] 0 (by decide)⟩

/-- C2. For every instance with positive capacity and positive widths, `build_master`
exits with code 1 exactly when some item is wider than the bar, which is exactly when some
floor quotient `W / w_i` is zero; otherwise it returns `n` demand handles, `n` rows (row `i` is
`0 >= d_i`, to which the columns attach), and `n` variables, where variable `i` has
objective coefficient 1, lower bound 0, no upper bound, and a column with coefficient
`W / w_i` in demand row `i` and 0 in every other row. -/
theorem build_master_contract (inst : Instance) (hW : 0 < inst.W)
    (hw : ∀ i, i < inst.n → 0 < inst.w.getD i 0) :
    (build_master inst Model.empty = Except.error 1 ↔
        ∃ i, i < inst.n ∧ inst.W < inst.w.getD i 0) ∧
    ((∃ i, i < inst.n ∧ inst.W < inst.w.getD i 0) ↔
        ∃ i, i < inst.n ∧ inst.W / inst.w.getD i 0 = 0) ∧
    ((¬ ∃ i, i < inst.n ∧ inst.W < inst.w.getD i 0) →
      ∃ demand m, build_master inst Model.empty = Except.ok (demand, m) ∧
        demand.length = inst.n ∧ m.constrs.length = inst.n ∧ m.vars.length = inst.n ∧
        ∀ i, i < inst.n →
          m.constrs[demand.getD i 0]? = some
            ⟨LinExpr.ofConst 0, Sense.ge, LinExpr.ofConst ((inst.d.getD i 0 : Int) : ℚ)⟩ ∧
          ∃ v, m.vars[i]? = some v ∧ v.obj = 1 ∧ v.lb = 0 ∧ v.ub = none ∧
            v.vtype = VType.continuous ∧
            ∀ j, colCoef v.col j =
              if j = demand.getD i 0 then ((inst.W / inst.w.getD i 0 : Int) : ℚ)
              else 0) := by
  have hdiv : ∀ i, i < inst.n → quot inst i = inst.W / inst.w.getD i 0 :=
    fun i hi => Int.tdiv_eq_ediv (le_of_lt hW) (le_of_lt (hw i hi))
  have hiff : ∀ i, i < inst.n → (quot inst i = 0 ↔ inst.W < inst.w.getD i 0) :=
    fun i hi => quot_eq_zero_iff inst.W _ (hw i hi) hW
  have hex : (∃ i, i < inst.n ∧ inst.W < inst.w.getD i 0) ↔
      ∃ i, i < inst.n ∧ quot inst i = 0 := by
    constructor
    · rintro ⟨i, hi, h⟩; exact ⟨i, hi, (hiff i hi).mpr h⟩
    · rintro ⟨i, hi, h⟩; exact ⟨i, hi, (hiff i hi).mp h⟩
  have hex' : (∃ i, i < inst.n ∧ inst.W < inst.w.getD i 0) ↔
      ∃ i, i < inst.n ∧ inst.W / inst.w.getD i 0 = 0 := by
    rw [hex]
    constructor
    · rintro ⟨i, hi, h⟩; exact ⟨i, hi, by rw [← hdiv i hi]; exact h⟩
    · rintro ⟨i, hi, h⟩; exact ⟨i, hi, by rw [hdiv i hi]; exact h⟩
  have hok : (¬ ∃ i, i < inst.n ∧ inst.W < inst.w.getD i 0) →
      build_master inst Model.empty = Except.ok (List.range inst.n, initial_master inst) := by
    intro hno
    apply build_master_ok
    intro i hi h0
    exact hno ⟨i, hi, (hiff i hi).mp h0⟩
  refine ⟨⟨?_, ?_⟩, hex', ?_⟩
  · intro herr
    by_contra hno
    rw [hok hno] at herr
    cases herr
  · intro h
    exact build_master_error inst (hex.mp h)
  · intro hno
    refine ⟨List.range inst.n, initial_master inst, hok hno, by simp, by simp [initial_master],
      by simp [initial_master], ?_⟩
    intro i hi
    refine ⟨?_, trivial_var inst i, ?_, rfl, rfl, rfl, rfl, ?_⟩
    · simp [initial_master, getElem?_getD_range _ _ hi, List.getElem?_map,
        List.getElem?_range hi, demand_row]
    · simp [initial_master, List.getElem?_map, List.getElem?_range hi]
    · intro j
      rw [← hdiv i hi, List.getD_eq_getElem?_getD, getElem?_getD_range _ _ hi]
      exact colCoef_trivial inst i j

/-- Witness of C2 on an instance whose second item does not fit: `build_master` exits
with code 1. -/
theorem build_master_contract_witness :
    0 < inst_wide.W ∧ (∀ i, i < inst_wide.n → 0 < inst_wide.w.getD i 0) ∧
      build_master inst_wide Model.empty = Except.error 1 :=
  ⟨by decide, by decide,
    (build_master_contract inst_wide (by decide) (by decide)).1.mpr ⟨1, by decide, by decide⟩⟩

/-- An iteration whose reduced cost does not pass the test does not end the run with the
master it was given. -/
theorem colgen_loop_not_stopped (o : Oracle) (inst : Instance) (demand : List Nat)
    (fuel : Nat) (master : Model) (iter : Nat) (res : ColGenResult) :
    (colgen_loop o inst demand fuel
        (add_column master demand
          (solve_pricing o inst (read_duals inst demand (o.optimize master))).1)
        (iter + 1)).map (fun r => (r.1, master :: r.2)) ≠ some (res, [master]) := by
  intro h
  cases hrec : colgen_loop o inst demand fuel
      (add_column master demand
        (solve_pricing o inst (read_duals inst demand (o.optimize master))).1)
      (iter + 1) with
  | none => rw [hrec] at h; simp at h
  | some r =>
    rw [hrec] at h
    obtain ⟨r1, r2⟩ := r
    have hh := (colgen_loop_shape o inst demand _ _ _ _ _ hrec).1
    simp only [Option.map_some', Option.some.injEq, Prod.mk.injEq, List.cons.injEq,
      true_and] at h
    rw [h.2] at hh
    simp at hh

/-- C1. One iteration of the loop of `solve_column_generation`, with `EPS` the binary64
value of `1e-6`, for every solver whose pricing objective is a finite binary64 value, `r`
being the reduced cost `1 - pricing_obj` returned by `solve_pricing`: the loop stops at
this iteration (result `lp_obj` = master objective, `n_patterns` = number of master
variables, `n_iterations` = `iter`, no column added) if and only if `r ≥ -EPS`, and the
column is added and the loop goes on if and only if `r < -EPS`. The source writes the test
`r > -EPS`; the two agree because `r` is never `-EPS`, and the same holds for every
binary64 rounding `r'` of the difference, which falls on the same side of `-EPS` as `r`;
`EPS` itself is the binary64 value nearest to `1/1000000`. -/
theorem convergence_test (o : Oracle) (inst : Instance) (demand : List Nat) (fuel : Nat)
    (master : Model) (iter : Nat)
    (hobj : IsBinary64
      (o.optimize (pricing_model inst (read_duals inst demand (o.optimize master))).2).objVal) :
    ((∃ res, colgen_loop o inst demand (fuel + 1) master iter = some (res, [master])) ↔
      (solve_pricing o inst (read_duals inst demand (o.optimize master))).2 ≥ -EPS) ∧
    (colgen_loop o inst demand (fuel + 1) master iter
        = some (⟨(o.optimize master).objVal, master.vars.length, iter⟩, [master]) ↔
      (solve_pricing o inst (read_duals inst demand (o.optimize master))).2 ≥ -EPS) ∧
    (colgen_loop o inst demand (fuel + 1) master iter
        = (colgen_loop o inst demand fuel
            (add_column master demand
              (solve_pricing o inst (read_duals inst demand (o.optimize master))).1)
            (iter + 1)).map (fun r => (r.1, master :: r.2)) ↔
      (solve_pricing o inst (read_duals inst demand (o.optimize master))).2 < -EPS) ∧
    (solve_pricing o inst (read_duals inst demand (o.optimize master))).2 ≠ -EPS ∧
    (∀ r', RoundsTo
        (1 - (o.optimize
          (pricing_model inst (read_duals inst demand (o.optimize master))).2).objVal) r' →
      (r' > -EPS ↔
        (solve_pricing o inst (read_duals inst demand (o.optimize master))).2 > -EPS) ∧
      (r' ≥ -EPS ↔
        (solve_pricing o inst (read_duals inst demand (o.optimize master))).2 ≥ -EPS) ∧
      r' ≠ -EPS) ∧
    RoundsTo (1 / 1000000) EPS := by
  have hstop := fun res => colgen_loop_not_stopped o inst demand fuel master iter res
  have hdef : (solve_pricing o inst (read_duals inst demand (o.optimize master))).2
      = 1 - (o.optimize
          (pricing_model inst (read_duals inst demand (o.optimize master))).2).objVal := rfl
  have hne : (solve_pricing o inst (read_duals inst demand (o.optimize master))).2 ≠ -EPS := by
    rw [hdef]
    exact exact_ne_EPS _ hobj
  have hround : ∀ r', RoundsTo
        (1 - (o.optimize
          (pricing_model inst (read_duals inst demand (o.optimize master))).2).objVal) r' →
      (r' > -EPS ↔
        (solve_pricing o inst (read_duals inst demand (o.optimize master))).2 > -EPS) ∧
      (r' ≥ -EPS ↔
        (solve_pricing o inst (read_duals inst demand (o.optimize master))).2 ≥ -EPS) ∧
      r' ≠ -EPS := by
    intro r' hr'
    obtain ⟨h1, h2, h3⟩ := rounded_test _ r' hobj hr'
    rw [← hdef] at h1 h3
    refine ⟨h1, ⟨fun h => ?_, fun h => ?_⟩, h2⟩
    · exact le_of_lt (h1.mp (lt_of_le_of_ne h (Ne.symm h2)))
    · exact le_of_lt (h1.mpr (lt_of_le_of_ne h (Ne.symm h3)))
  by_cases hr : (solve_pricing o inst (read_duals inst demand (o.optimize master))).2 > -EPS
  · have hge : (solve_pricing o inst (read_duals inst demand (o.optimize master))).2 ≥ -EPS :=
      le_of_lt hr
    have hnlt : ¬ (solve_pricing o inst (read_duals inst demand (o.optimize master))).2 < -EPS :=
      not_lt.mpr hge
    have heq := colgen_loop_succ o inst demand fuel master iter
    rw [if_pos hr] at heq
    refine ⟨⟨fun _ => hge, fun _ => ⟨_, heq⟩⟩, ⟨fun _ => hge, fun _ => heq⟩,
      ⟨?_, fun h => absurd h hnlt⟩, hne, hround, EPS_rounds⟩
    intro h
    rw [heq] at h
    exact absurd h.symm (hstop _)
  · have hle : (solve_pricing o inst (read_duals inst demand (o.optimize master))).2 ≤ -EPS :=
      not_lt.mp hr
    have hlt : (solve_pricing o inst (read_duals inst demand (o.optimize master))).2 < -EPS :=
      lt_of_le_of_ne hle hne
    have hnge : ¬ (solve_pricing o inst (read_duals inst demand (o.optimize master))).2 ≥ -EPS :=
      not_le.mpr hlt
    have heq := colgen_loop_succ o inst demand fuel master iter
    rw [if_neg hr] at heq
    refine ⟨⟨?_, fun h => absurd h hnge⟩, ⟨?_, fun h => absurd h hnge⟩,
      ⟨fun _ => hlt, fun _ => heq⟩, hne, hround, EPS_rounds⟩
    · rintro ⟨res, h⟩
      rw [heq] at h
      exact absurd h (hstop _)
    · intro h
      rw [heq] at h
      exact absurd h (hstop _)

theorem pricing_obj_near :
    (oracle_near.optimize (pricing_model inst_single
      (read_duals inst_single [0] (oracle_near.optimize (initial_master inst_single)))).2).objVal
      = ((4503604130970123 : Int) : ℚ) / 2 ^ 52 := by
  rw [pricing_model_eq]
  simp [oracle_near]

theorem reduced_cost_near :
    (solve_pricing oracle_near inst_single
      (read_duals inst_single [0] (oracle_near.optimize (initial_master inst_single)))).2
      = -4503599627 / 2 ^ 52 := by
  have hdef : (solve_pricing oracle_near inst_single
      (read_duals inst_single [0] (oracle_near.optimize (initial_master inst_single)))).2
      = 1 - (oracle_near.optimize (pricing_model inst_single
          (read_duals inst_single [0]
            (oracle_near.optimize (initial_master inst_single)))).2).objVal := rfl
  rw [hdef, pricing_obj_near]
  norm_num

/-- Witness of C1: a solver that reports the binary64 value nearest to `1.000001` as
pricing objective. The reduced cost is `-4503599627 / 2^52`, which is above `-EPS`, and
the loop stops at the first iteration. -/
theorem convergence_test_witness :
    IsBinary64
      (oracle_near.optimize (pricing_model inst_single
        (read_duals inst_single [0]
          (oracle_near.optimize (initial_master inst_single)))).2).objVal ∧
    (solve_pricing oracle_near inst_single
      (read_duals inst_single [0] (oracle_near.optimize (initial_master inst_single)))).2
      = -4503599627 / 2 ^ 52 ∧
    colgen_loop oracle_near inst_single [0] (0 + 1) (initial_master inst_single) 1
      = some (⟨(oracle_near.optimize (initial_master inst_single)).objVal,
          (initial_master inst_single).vars.length, 1⟩, [initial_master inst_single]) :=
  ⟨pricing_obj_near ▸ isBinary64_int 4503604130970123 52 (by norm_num) (by norm_num),
    reduced_cost_near,
    (convergence_test oracle_near inst_single [0] 0 (initial_master inst_single) 1
      (pricing_obj_near ▸ isBinary64_int 4503604130970123 52 (by norm_num)
        (by norm_num))).2.1.mpr
      (by rw [reduced_cost_near]; unfold EPS; norm_num)⟩

theorem quot_single : ∀ i, i < inst_single.n → quot inst_single i ≠ 0 := by decide

/-- The run of the single-item instance with the solver `oracle_single`. -/
theorem run_single (fuel : Nat) :
    solve_column_generation oracle_single inst_single (fuel + 1)
      = Except.ok (some (⟨10 / 3, 1, 1⟩, [initial_master inst_single])) := by
  unfold solve_column_generation
  rw [build_master_ok inst_single quot_single]
  simp only
  rw [colgen_loop_succ]
  have hr : (solve_pricing oracle_single inst_single
      (read_duals inst_single (List.range inst_single.n)
        (oracle_single.optimize (initial_master inst_single)))).2 = 0 := by
    simp only [solve_pricing, pricing_model_eq, oracle_single, initial_master, read_duals,
      pricing_var, inst_single, show List.range 1 = [0] from rfl, List.map_cons, List.map_nil]
    norm_num
  rw [if_pos (by rw [hr]; unfold EPS; norm_num)]
  simp [oracle_single, initial_master, inst_single]

/-- C6. Whenever `solve_column_generation` returns a result, `n_iterations` is the number
of master solves executed (the length of the record of solved masters, the converging one
included), `n_patterns` is `n + (n_iterations - 1)`, every solved master has exactly the
`n` demand rows built at the start, each solved master is the previous one with exactly one
column appended (none removed or changed), the first is the master of `build_master`, and
`n_patterns` counts the columns of the last one. -/
theorem result_bookkeeping (o : Oracle) (inst : Instance) (fuel : Nat) (res : ColGenResult)
    (tr : List Model)
    (h : solve_column_generation o inst fuel = Except.ok (some (res, tr))) :
    res.n_iterations = tr.length ∧
    res.n_patterns = inst.n + (res.n_iterations - 1) ∧
    (∀ m, m ∈ tr → m.constrs = (List.range inst.n).map (demand_row inst) ∧
      m.constrs.length = inst.n) ∧
    tr.Chain' Extends ∧
    tr.head? = some (initial_master inst) ∧
    (∃ m, tr.getLast? = some m ∧ res.n_patterns = m.vars.length) := by
  unfold solve_column_generation at h
  rcases build_master_cases inst with hb | hb
  · rw [hb] at h; cases h
  · rw [hb] at h
    simp only [Except.ok.injEq] at h
    obtain ⟨a1, a2, a3, a4, a5, m, a6, a7, _⟩ :=
      colgen_loop_shape o inst (List.range inst.n) fuel (initial_master inst) 1 res tr h
    have hlen : (initial_master inst).vars.length = inst.n := by simp [initial_master]
    rw [hlen] at a4
    have hpos : 1 ≤ tr.length := by
      cases tr with
      | nil => simp at a1
      | cons _ _ => simp
    refine ⟨by omega, by omega, ?_, a2, a1, m, a6, a7⟩
    intro m' hm'
    rw [(a5 m' hm').1]
    simp [initial_master]

/-- Witness of C6: the run of the single-item instance returns after one master solve. -/
theorem result_bookkeeping_witness :
    solve_column_generation oracle_single inst_single 1
        = Except.ok (some (⟨10 / 3, 1, 1⟩, [initial_master inst_single])) ∧
    (1 = [initial_master inst_single].length ∧
    1 = inst_single.n + (1 - 1) ∧
    (∀ m, m ∈ [initial_master inst_single] →
      m.constrs = (List.range inst_single.n).map (demand_row inst_single) ∧
      m.constrs.length = inst_single.n) ∧
    [initial_master inst_single].Chain' Extends ∧
    [initial_master inst_single].head? = some (initial_master inst_single) ∧
    (∃ m, [initial_master inst_single].getLast? = some m ∧ 1 = m.vars.length)) :=
  ⟨run_single 0,
    result_bookkeeping oracle_single inst_single 1 ⟨10 / 3, 1, 1⟩ [initial_master inst_single]
      (run_single 0)⟩

/-- C8. On the instance `n = 1`, `W = 100`, `w = [30]`, `d = [10]`, with a solver that is
exact on the first master and on the first pricing problem: `build_master` creates the
single trivial pattern `[3]`, the first master solve has objective `10/3` and dual price
`1/3`, `solve_pricing` returns reduced cost `0` (which passes the convergence test), and
`solve_column_generation` returns `lp_obj = 10/3`, `n_iterations = 1`, `n_patterns = 1`
as soon as it has fuel for one iteration. -/
theorem single_item_scenario (o : Oracle)
    (hm : o.ExactMaster (initial_master inst_single))
    (hp : o.ExactPricing inst_single
      (read_duals inst_single [0] (o.optimize (initial_master inst_single)))) :
    build_master inst_single Model.empty = Except.ok ([0], initial_master inst_single) ∧
    (initial_master inst_single).vars.map Var.col = [[(3, 0)]] ∧
    (o.optimize (initial_master inst_single)).objVal = 10 / 3 ∧
    read_duals inst_single [0] (o.optimize (initial_master inst_single)) = [1 / 3] ∧
    (solve_pricing o inst_single [1 / 3]).2 = 0 ∧
    (0 : ℚ) > -EPS ∧
    ∀ fuel, solve_column_generation o inst_single (fuel + 1)
      = Except.ok (some (⟨10 / 3, 1, 1⟩, [initial_master inst_single])) := by
  have hb : build_master inst_single Model.empty
      = Except.ok ([0], initial_master inst_single) := build_master_ok inst_single quot_single
  obtain ⟨hval, hpi⟩ := master_single_exact _ hm.1 hm.2
  have hduals : read_duals inst_single [0] (o.optimize (initial_master inst_single))
      = [1 / 3] := by
    show [(o.optimize (initial_master inst_single)).price 0] = [1 / 3]
    rw [hpi]
  rw [hduals] at hp
  have hred : (solve_pricing o inst_single [1 / 3]).2 = 0 := by
    simp only [solve_pricing]
    rw [pricing_single_exact _ hp]
    norm_num
  refine ⟨hb, by rw [initial_master_single]; rfl, hval, hduals, hred, by unfold EPS; norm_num, ?_⟩
  intro fuel
  unfold solve_column_generation
  rw [hb]
  simp only
  rw [colgen_loop_succ, hduals, hred, if_pos (by unfold EPS; norm_num), hval]
  simp [initial_master_single]

/-- Witness of C8: the solver `oracle_single` is exact on the two solves of the run. -/
theorem single_item_scenario_witness :
    oracle_single.ExactMaster (initial_master inst_single) ∧
    oracle_single.ExactPricing inst_single
      (read_duals inst_single [0] (oracle_single.optimize (initial_master inst_single))) ∧
    solve_column_generation oracle_single inst_single 1
      = Except.ok (some (⟨10 / 3, 1, 1⟩, [initial_master inst_single])) :=
  ⟨master_of_nil inst_single ▸ oracle_single_master [] (by intro p hp; cases hp),
    oracle_single_pricing _ (read_duals_length _ _ _),
    (single_item_scenario oracle_single
      (master_of_nil inst_single ▸ oracle_single_master [] (by intro p hp; cases hp))
      (oracle_single_pricing _ (read_duals_length _ _ _))).2.2.2.2.2.2 0⟩

theorem fits_quot_ne_zero (inst : Instance) (hfit : inst.Fits) :
    ∀ i, i < inst.n → quot inst i ≠ 0 := by
  intro i hi h0
  have := (quot_spec inst.W _ (hfit i hi).1 (hfit i hi).2).1
  unfold quot at h0
  omega

/-- C3. For every instance in which every item fits, with a solver that is exact on the
masters and the pricing problems of the instance (optimal solutions, optimal dual-feasible
prices, optimal bounded-knapsack solutions), `solve_column_generation` returns: there is
one result that every fuel of at least `1 + prod_i (W / w_i + 1)` produces. Its iteration
count is the number of master solves and is at most `1 + prod_i (W / w_i + 1)`, and every
column that the run adds has a coefficient vector different from that of every column
already in the master. -/
theorem column_generation_terminates (o : Oracle) (inst : Instance) (hfit : inst.Fits)
    (hex : o.Exact inst) :
    ∃ res tr,
      (∀ fuel, 1 + pattern_count inst ≤ fuel →
        solve_column_generation o inst fuel = Except.ok (some (res, tr))) ∧
      res.n_iterations = tr.length ∧
      res.n_iterations ≤ 1 + pattern_count inst ∧
      tr.Chain' (ExtendsNew inst.n) := by
  have hb := build_master_ok inst (fits_quot_ne_zero inst hfit)
  obtain ⟨res, tr, h1, h2, h3⟩ := colgen_terminates_aux o inst hex (pattern_count inst) [] 1
    (by intro p hp; cases hp)
    (missing_le inst _)
  rw [master_of_nil] at h1
  refine ⟨res, tr, ?_, ?_, by omega, h3⟩
  · intro fuel hfuel
    unfold solve_column_generation
    rw [hb]
    simp only
    rw [colgen_loop_mono o inst _ _ _ _ _ h1 fuel (by omega)]
  · have := (colgen_loop_shape o inst _ _ _ _ _ _ h1).2.2.1
    omega

/-- Witness of C3: the single-item instance with its exact solver. -/
theorem column_generation_terminates_witness :
    inst_single.Fits ∧ oracle_single.Exact inst_single ∧
    ∃ res tr,
      (∀ fuel, 1 + pattern_count inst_single ≤ fuel →
        solve_column_generation oracle_single inst_single fuel
          = Except.ok (some (res, tr))) ∧
      res.n_iterations = tr.length ∧
      res.n_iterations ≤ 1 + pattern_count inst_single ∧
      tr.Chain' (ExtendsNew inst_single.n) :=
  ⟨by decide, oracle_single_exact,
    column_generation_terminates oracle_single inst_single (by decide) oracle_single_exact⟩

/-- C4. For every master whose rows are demand rows as `build_master` writes them
(constant sides, the columns attached) and every pattern `p`: `add_column` appends one
column and leaves the rows alone, and the master after `add_column` has an optimal value
that is at most the optimal value before, whenever both exist. Hence, in every run of
`solve_column_generation` in which the solver returns optimal solutions of the masters it
solves, the objective values of the successive masters are non-increasing. -/
theorem master_objective_monotone :
    (∀ (master : Model) (demand : List Nat) (p : Pattern) (v v' : ℚ),
      master.sense = ObjSense.minimize →
      (∀ c, c ∈ master.constrs → c.lhs.terms = [] ∧ c.rhs.terms = []) →
      master.IsOptVal v →
      (add_column master demand p).IsOptVal v' →
      (add_column master demand p).vars = master.vars ++ [pattern_var demand p] ∧
        (add_column master demand p).constrs = master.constrs ∧ v' ≤ v) ∧
    (∀ (inst : Instance) (o : Oracle) (fuel : Nat) (res : ColGenResult) (tr : List Model),
      solve_column_generation o inst fuel = Except.ok (some (res, tr)) →
      (∀ m, m ∈ tr → m.IsOptimal (o.optimize m)) →
      (tr.map (fun m => (o.optimize m).objVal)).Chain' (fun a b => b ≤ a)) := by
  constructor
  · intro master demand p v v' hmin hrows hv hv'
    obtain ⟨⟨x, hx, hxv⟩, -⟩ := hv
    obtain ⟨-, hbest⟩ := hv'
    obtain ⟨x', hx', hobj⟩ := extends_feasible master (add_column master demand p)
      (add_column_extends _ _ _) hrows x hx
    have := hbest x' hx'
    have hs : (add_column master demand p).sense = ObjSense.minimize := hmin
    rw [hs] at this
    simp only at this
    rw [hobj, hxv] at this
    exact ⟨rfl, rfl, this⟩
  · intro inst o fuel res tr hrun hopt
    unfold solve_column_generation at hrun
    rcases build_master_cases inst with hb | hb
    · rw [hb] at hrun; cases hrun
    · rw [hb] at hrun
      simp only [Except.ok.injEq] at hrun
      obtain ⟨-, hchain, -, -, hrows, -⟩ :=
        colgen_loop_shape o inst (List.range inst.n) fuel (initial_master inst) 1 res tr hrun
      rw [List.chain'_map]
      rw [List.Chain'.iff_mem] at hchain
      refine List.Chain'.imp ?_ hchain
      rintro m m' ⟨hm, hm', hext⟩
      obtain ⟨hfeas, hobj, -⟩ := hopt m hm
      obtain ⟨-, -, hbest'⟩ := hopt m' hm'
      obtain ⟨x', hx', hobj'⟩ := extends_feasible m m' hext
        (fun c hc => by
          rw [(hrows m hm).1] at hc
          exact master_of_rows inst c hc)
        _ hfeas
      have := hbest' x' hx'
      have hs : m'.sense = ObjSense.minimize := by rw [(hrows m' hm').2]; rfl
      rw [hs] at this
      simp only at this
      rw [hobj', ← hobj] at this
      exact this

/-- Witness of C4: on the single-item instance, the master with the trivial pattern and
the master with the pattern `[3]` added both have optimal value `10/3`. -/
theorem master_objective_monotone_witness :
    (master_of inst_single []).IsOptVal (10 / 3) ∧
    (add_column (master_of inst_single []) (List.range inst_single.n) [3]).IsOptVal (10 / 3) ∧
    (10 / 3 : ℚ) ≤ 10 / 3 :=
  have h1 : (master_of inst_single []).IsOptVal (10 / 3) :=
    isOptimal_isOptVal _ _ (oracle_single_master [] (by intro p hp; cases hp)).1
  have h2 : (add_column (master_of inst_single []) (List.range inst_single.n) [3]).IsOptVal
      (10 / 3) := by
    rw [add_column_master_of]
    exact isOptimal_isOptVal _ _ (oracle_single_master ([] ++ [[3]]) (by
      intro p hp
      rw [List.nil_append, List.mem_singleton] at hp
      subst hp
      decide)).1
  ⟨h1, h2, (master_objective_monotone.1 (master_of inst_single []) (List.range inst_single.n)
    [3] (10 / 3) (10 / 3) rfl (fun c hc => master_of_rows inst_single c hc) h1 h2).2.2⟩

theorem dense_initial_two :
    (initial_master inst_two).vars.map (dense 2) = [[3, 0], [0, 2]] := by
  rw [initial_master_two]
  simp [dense, colCoef, show List.range 2 = [0, 1] from rfl]

theorem dense_extended_two :
    (add_column (initial_master inst_two) [0, 1] [2, 1]).vars.map (dense 2)
      = [[3, 0], [0, 2], [2, 1]] := by
  rw [extended_master_two]
  simp [dense, colCoef, show List.range 2 = [0, 1] from rfl]

theorem cppRound_two : cppRound 2 = 2 := by
  have := cppRound_int 2
  simpa using this

theorem cppRound_one : cppRound 1 = 1 := by
  have := cppRound_int 1
  simpa using this

/-- C9. On the instance `n = 2`, `W = 10`, `w = [3, 4]`, `d = [5, 4]`, with a solver that
is exact on the first master, on the first pricing problem and on the master with the
column `[2, 1]`: `build_master` creates the trivial patterns `[3, 0]` and `[0, 2]`; the
first master solve has objective `11/3` and duals `(1/3, 1/2)`; the first pricing problem
has value `7/6`, with `(2, 1)` as its only optimal solution, so that `solve_pricing`
returns the pattern `[2, 1]` and reduced cost `-1/6 < -EPS`; the loop adds the column
`[2, 1]` and goes on; and the next master solve has objective `13/4`, strictly below
`11/3`. -/
theorem two_item_scenario (o : Oracle)
    (hm : o.ExactMaster (initial_master inst_two))
    (hp : o.ExactPricing inst_two
      (read_duals inst_two [0, 1] (o.optimize (initial_master inst_two))))
    (hm2 : o.ExactMaster (add_column (initial_master inst_two) [0, 1] [2, 1])) :
    build_master inst_two Model.empty = Except.ok ([0, 1], initial_master inst_two) ∧
    (initial_master inst_two).vars.map (dense 2) = [[3, 0], [0, 2]] ∧
    (o.optimize (initial_master inst_two)).objVal = 11 / 3 ∧
    read_duals inst_two [0, 1] (o.optimize (initial_master inst_two)) = [1 / 3, 1 / 2] ∧
    (o.optimize (pricing_model inst_two [1 / 3, 1 / 2]).2).objVal = 7 / 6 ∧
    (∀ x, (pricing_model inst_two [1 / 3, 1 / 2]).2.Feasible x →
      (pricing_model inst_two [1 / 3, 1 / 2]).2.objective x ≤ 7 / 6 ∧
      ((pricing_model inst_two [1 / 3, 1 / 2]).2.objective x = 7 / 6 → x 0 = 2 ∧ x 1 = 1)) ∧
    solve_pricing o inst_two [1 / 3, 1 / 2] = ([2, 1], -1 / 6) ∧
    (-1 / 6 : ℚ) < -EPS ∧
    (∀ fuel, colgen_loop o inst_two [0, 1] (fuel + 1) (initial_master inst_two) 1
      = (colgen_loop o inst_two [0, 1] fuel
          (add_column (initial_master inst_two) [0, 1] [2, 1]) 2).map
          (fun r => (r.1, initial_master inst_two :: r.2))) ∧
    (add_column (initial_master inst_two) [0, 1] [2, 1]).vars.map (dense 2)
      = [[3, 0], [0, 2], [2, 1]] ∧
    (o.optimize (add_column (initial_master inst_two) [0, 1] [2, 1])).objVal = 13 / 4 ∧
    (o.optimize (add_column (initial_master inst_two) [0, 1] [2, 1])).objVal
      < (o.optimize (initial_master inst_two)).objVal := by
  have hb : build_master inst_two Model.empty
      = Except.ok ([0, 1], initial_master inst_two) := build_master_ok inst_two quot_two
  obtain ⟨hval, hpi0, hpi1⟩ := master_two_exact _ hm.1 hm.2
  have hduals : read_duals inst_two [0, 1] (o.optimize (initial_master inst_two))
      = [1 / 3, 1 / 2] := by
    show [(o.optimize (initial_master inst_two)).price 0,
      (o.optimize (initial_master inst_two)).price 1] = [1 / 3, 1 / 2]
    rw [hpi0, hpi1]
  rw [hduals] at hp
  obtain ⟨hpv, hx0, hx1⟩ := pricing_two_exact _ hp
  have hsp : solve_pricing o inst_two [1 / 3, 1 / 2] = ([2, 1], -1 / 6) := by
    have h1 : (solve_pricing o inst_two [1 / 3, 1 / 2]).1
        = [cppRound ((o.optimize (pricing_model inst_two [1 / 3, 1 / 2]).2).assign 0),
           cppRound ((o.optimize (pricing_model inst_two [1 / 3, 1 / 2]).2).assign 1)] := by
      simp only [solve_pricing, pricing_model_eq]
      rfl
    have h2 : (solve_pricing o inst_two [1 / 3, 1 / 2]).2
        = 1 - (o.optimize (pricing_model inst_two [1 / 3, 1 / 2]).2).objVal := rfl
    rw [hx0, hx1, cppRound_two, cppRound_one] at h1
    rw [hpv] at h2
    apply Prod.ext
    · exact h1
    · rw [h2]; norm_num
  have hv2 := extended_two_exact _ hm2.1 hm2.2
  have hneg : ¬ ((-1 / 6 : ℚ) > -EPS) := by unfold EPS; norm_num
  refine ⟨hb, dense_initial_two, hval, hduals, hpv, ?_, hsp, by unfold EPS; norm_num, ?_,
    dense_extended_two, hv2, by rw [hv2, hval]; norm_num⟩
  · intro x hx
    rw [pricing_two_feasible] at hx
    rw [pricing_two_objective]
    obtain ⟨k1, k2⟩ := knapsack_two _ _ hx.1 hx.2.1 hx.2.2
    exact ⟨k1, fun he => k2 (le_of_eq he.symm)⟩
  · intro fuel
    rw [colgen_loop_succ, hduals, hsp]
    simp only
    rw [if_neg hneg]

theorem oracle_two_initial : oracle_two.ExactMaster (initial_master inst_two) := by
  have hsol : oracle_two.optimize (initial_master inst_two)
      = ⟨11 / 3, [5 / 3, 2], [1 / 3, 1 / 2]⟩ := by
    rw [initial_master_two]; rfl
  rw [Oracle.ExactMaster, hsol]
  refine ⟨⟨?_, ?_, ?_⟩, ⟨?_, ?_, ?_⟩⟩
  · rw [initial_two_feasible]; norm_num [Solution.assign]
  · rw [initial_two_objective]; norm_num [Solution.assign]
  · intro x hx
    rw [initial_two_feasible] at hx
    have hs : (initial_master inst_two).sense = ObjSense.minimize := rfl
    rw [hs, initial_two_objective]
    simp only
    obtain ⟨f0, f1, f2, f3⟩ := hx
    linarith
  · intro i _
    match i with
    | 0 => norm_num [Solution.price]
    | 1 => norm_num [Solution.price]
    | (k + 2) => simp [Solution.price]
  · rw [initial_master_two]
    simp only [pricedValue, forall_getElem?_cons, forall_getElem?_nil, colCoef,
      List.length_cons, List.length_nil, show List.range (0 + 1 + 1) = [0, 1] from rfl]
    norm_num [Solution.price]
  · rw [initial_master_two]
    norm_num [dualFrom, Solution.price]

theorem oracle_two_duals :
    read_duals inst_two [0, 1] (oracle_two.optimize (initial_master inst_two))
      = [1 / 3, 1 / 2] := by
  have hsol : oracle_two.optimize (initial_master inst_two)
      = ⟨11 / 3, [5 / 3, 2], [1 / 3, 1 / 2]⟩ := by
    rw [initial_master_two]; rfl
  rw [hsol]
  rfl

theorem oracle_two_pricing :
    oracle_two.ExactPricing inst_two
      (read_duals inst_two [0, 1] (oracle_two.optimize (initial_master inst_two))) := by
  rw [oracle_two_duals]
  have hsol : oracle_two.optimize (pricing_model inst_two [1 / 3, 1 / 2]).2
      = ⟨7 / 6, [2, 1], []⟩ := by
    rw [pricing_model_eq]; rfl
  rw [Oracle.ExactPricing, hsol]
  refine ⟨?_, ?_, ?_⟩
  · rw [pricing_two_feasible]; norm_num [Solution.assign, IsInt]
  · rw [pricing_two_objective]; norm_num [Solution.assign]
  · intro x hx
    have hs : (pricing_model inst_two [1 / 3, 1 / 2]).2.sense = ObjSense.maximize := by
      rw [pricing_model_eq]
    rw [hs, pricing_two_objective]
    simp only
    rw [pricing_two_feasible] at hx
    exact (knapsack_two _ _ hx.1 hx.2.1 hx.2.2).1

theorem oracle_two_extended :
    oracle_two.ExactMaster (add_column (initial_master inst_two) [0, 1] [2, 1]) := by
  have hsol : oracle_two.optimize (add_column (initial_master inst_two) [0, 1] [2, 1])
      = ⟨13 / 4, [0, 3 / 4, 5 / 2], [1 / 4, 1 / 2]⟩ := by
    rw [extended_master_two]; rfl
  rw [Oracle.ExactMaster, hsol]
  refine ⟨⟨?_, ?_, ?_⟩, ⟨?_, ?_, ?_⟩⟩
  · rw [extended_two_feasible]; norm_num [Solution.assign]
  · rw [extended_two_objective]; norm_num [Solution.assign]
  · intro x hx
    rw [extended_two_feasible] at hx
    have hs : (add_column (initial_master inst_two) [0, 1] [2, 1]).sense
        = ObjSense.minimize := rfl
    rw [hs, extended_two_objective]
    simp only
    obtain ⟨f0, f1, f2, f3, f4⟩ := hx
    linarith
  · intro i _
    match i with
    | 0 => norm_num [Solution.price]
    | 1 => norm_num [Solution.price]
    | (k + 2) => simp [Solution.price]
  · rw [extended_master_two]
    simp only [pricedValue, forall_getElem?_cons, forall_getElem?_nil, colCoef,
      List.length_cons, List.length_nil, show List.range (0 + 1 + 1) = [0, 1] from rfl]
    norm_num [Solution.price]
  · rw [extended_master_two]
    norm_num [dualFrom, Solution.price]

/-- Witness of C9: the solver `oracle_two` is exact on the three solves, and the second
master solve reports `13/4`. -/
theorem two_item_scenario_witness :
    oracle_two.ExactMaster (initial_master inst_two) ∧
    oracle_two.ExactPricing inst_two
      (read_duals inst_two [0, 1] (oracle_two.optimize (initial_master inst_two))) ∧
    oracle_two.ExactMaster (add_column (initial_master inst_two) [0, 1] [2, 1]) ∧
    solve_pricing oracle_two inst_two [1 / 3, 1 / 2] = ([2, 1], -1 / 6) ∧
    (oracle_two.optimize (add_column (initial_master inst_two) [0, 1] [2, 1])).objVal
      = 13 / 4 :=
  ⟨oracle_two_initial, oracle_two_pricing, oracle_two_extended,
    (two_item_scenario oracle_two oracle_two_initial oracle_two_pricing
      oracle_two_extended).2.2.2.2.2.2.1,
    (two_item_scenario oracle_two oracle_two_initial oracle_two_pricing
      oracle_two_extended).2.2.2.2.2.2.2.2.2.2.1⟩

/-- C10, at the instance `n = 1`, `W = 10`, `w = [6]`, `d = [3]` (the item fits, the
demand is non-negative): the compact `main` computes `C = 2`, which is
`ceil(18 / 10)` and at most the total demand 3, but the integer model
`build_model(inst, env, false, 2)` has no feasible assignment, while the model with
`C = 3 = sum_i d_i` bars has one. -/
theorem bar_count_too_small :
    inst_three.Fits ∧ inst_three.NonnegDemand ∧
    bar_count inst_three = 2 ∧ total_size inst_three = 18 ∧
    (¬ ∃ x, (build_model inst_three false 2).Feasible x) ∧
    (∃ x, (build_model inst_three false 3).Feasible x) := by
  refine ⟨by decide, by decide, by decide, by decide, ?_, ?_⟩
  · rintro ⟨x, hx⟩
    rw [compact_feasible_iff] at hx
    obtain ⟨hy, hxv, hcap, hdem, -⟩ := hx
    have y0 := (hy 0 (by norm_num)).2.1
    have y1 := (hy 1 (by norm_num)).2.1
    have i2 := (hxv 0 (by decide)).2 rfl
    have i3 := (hxv 1 (by decide)).2 rfl
    have c0 := hcap 0 (by norm_num)
    have c1 := hcap 1 (by norm_num)
    have d0 := hdem 0 (by decide)
    simp only [inst_three, show List.range 1 = [0] from rfl,
      show List.range 2 = [0, 1] from rfl, List.map_cons, List.map_nil, List.sum_cons,
      List.sum_nil, List.getD_cons_zero] at c0 c1 d0
    norm_num at c0 c1 d0 i2 i3
    obtain ⟨z2, hz2⟩ := (IsInt_iff _).mp i2
    obtain ⟨z3, hz3⟩ := (IsInt_iff _).mp i3
    rw [hz2] at c0 d0
    rw [hz3] at c1 d0
    have b2 : (6 : ℚ) * z2 ≤ 10 := by linarith
    have b3 : (6 : ℚ) * z3 ≤ 10 := by linarith
    have b2' : 6 * z2 ≤ 10 := by exact_mod_cast b2
    have b3' : 6 * z3 ≤ 10 := by exact_mod_cast b3
    have d0' : 3 ≤ z2 + z3 := by exact_mod_cast d0
    omega
  · refine ⟨fun _ => 1, ?_⟩
    rw [compact_feasible_iff]
    refine ⟨?_, ?_, ?_, ?_, ?_⟩
    · intro c _; norm_num [IsInt]
    · intro j _; norm_num [IsInt]
    · intro c _
      simp [inst_three, show List.range 1 = [0] from rfl]
      norm_num
    · intro i hi
      have : i = 0 := by
        have : i < 1 := hi
        omega
      subst this
      simp [inst_three, show List.range 3 = [0, 1, 2] from rfl]
      norm_num
    · intro _ c _
      exact le_refl _

/-- C5 (amended). For every instance in which every item fits, with an exact solver: in
every finished run of `solve_column_generation`, the objective of every master solved,
and in particular the value `lp_obj` returned, is greater than or equal to the optimal
value of the relaxed compact model `build_model(inst, env, true, C)`, whatever the bar
count `C`, so in particular for the `C` that the compact `main` computes. -/
theorem compact_bound_below_master (o : Oracle) (inst : Instance) (fuel : Nat)
    (res : ColGenResult) (tr : List Model) (C : Nat) (vc : ℚ)
    (hfit : inst.Fits) (hex : o.Exact inst)
    (hrun : solve_column_generation o inst fuel = Except.ok (some (res, tr)))
    (hv : (build_model inst true C).IsOptVal vc) :
    (∀ m, m ∈ tr → vc ≤ (o.optimize m).objVal) ∧ vc ≤ res.lp_obj := by
  unfold solve_column_generation at hrun
  rw [build_master_ok inst (fits_quot_ne_zero inst hfit)] at hrun
  simp only [Except.ok.injEq] at hrun
  rw [← master_of_nil] at hrun
  have hall : ∀ m, m ∈ tr → vc ≤ (o.optimize m).objVal := by
    intro m hm
    obtain ⟨pats, hpats, rfl⟩ := colgen_loop_masters o inst hex.2 fuel [] 1 res tr
      (by intro p hp; cases hp) hrun m hm
    obtain ⟨⟨hfeas, hobj, -⟩, -⟩ := hex.1 pats hpats
    rw [hobj]
    exact compact_le_master inst hfit C vc hv pats hpats _ hfeas
  refine ⟨hall, ?_⟩
  obtain ⟨-, -, -, -, -, m, hm1, -, hm3⟩ := colgen_loop_shape o inst _ _ _ _ _ _ hrun
  rw [hm3]
  exact hall m (List.mem_of_mem_getLast? hm1)

theorem compact_single_optimum : (build_model inst_single true 3).IsOptVal 3 := by
  constructor
  · obtain ⟨x, hx, ho⟩ := compact_uniform inst_single (by decide) (by decide) 3
      (by
        have : total_plus inst_single = 300 := by
          simp [total_plus, dplus, inst_single, show List.range 1 = [0] from rfl]
          norm_num
        rw [this]
        norm_num [inst_single])
    refine ⟨x, hx, ?_⟩
    rw [ho]
    have : total_plus inst_single = 300 := by
      simp [total_plus, dplus, inst_single, show List.range 1 = [0] from rfl]
      norm_num
    rw [this]
    norm_num [inst_single]
  · intro x hx
    have hs : (build_model inst_single true 3).sense = ObjSense.minimize := by
      rw [build_model_eq]
    rw [hs, compact_objective]
    simp only
    rw [compact_feasible_iff] at hx
    obtain ⟨-, -, hcap, hdem, -⟩ := hx
    have c0 := hcap 0 (by norm_num)
    have c1 := hcap 1 (by norm_num)
    have c2 := hcap 2 (by norm_num)
    have d0 := hdem 0 (by decide)
    simp only [inst_single, show List.range 1 = [0] from rfl,
      show List.range 3 = [0, 1, 2] from rfl, List.map_cons, List.map_nil, List.sum_cons,
      List.sum_nil, List.getD_cons_zero] at c0 c1 c2 d0 ⊢
    norm_num at c0 c1 c2 d0 ⊢
    linarith

/-- C5, as stated, fails: on the single-item instance (`W = 100`, `w = 30`, `d = 10`) the
exact solver makes `solve_column_generation` return `lp_obj = 10/3`, the compact `main`
computes `C = 3`, and the relaxed compact model with 3 bars has optimal value `3`, which
is smaller than `10/3`. -/
theorem compact_bound_counterexample :
    inst_single.Fits ∧ oracle_single.Exact inst_single ∧
    solve_column_generation oracle_single inst_single 1
      = Except.ok (some (⟨10 / 3, 1, 1⟩, [initial_master inst_single])) ∧
    bar_count inst_single = 3 ∧
    (build_model inst_single true 3).IsOptVal 3 ∧
    ¬ ((10 / 3 : ℚ) ≤ 3) ∧ (10 / 3 : ℚ) ≠ 3 :=
  ⟨by decide, oracle_single_exact, run_single 0, by decide, compact_single_optimum,
    by norm_num, by norm_num⟩

/-- Witness of C5 (amended): the single-item instance, where the compact bound is `3` and
the master bound `10/3`. -/
theorem compact_bound_below_master_witness :
    inst_single.Fits ∧ oracle_single.Exact inst_single ∧
    solve_column_generation oracle_single inst_single 1
      = Except.ok (some (⟨10 / 3, 1, 1⟩, [initial_master inst_single])) ∧
    (build_model inst_single true (bar_count inst_single).toNat).IsOptVal 3 ∧
    (3 : ℚ) ≤ (⟨10 / 3, 1, 1⟩ : ColGenResult).lp_obj :=
  have hv : (build_model inst_single true (bar_count inst_single).toNat).IsOptVal 3 := by
    have : (bar_count inst_single).toNat = 3 := by decide
    rw [this]
    exact compact_single_optimum
  ⟨by decide, oracle_single_exact, run_single 0, hv,
    (compact_bound_below_master oracle_single inst_single 1 ⟨10 / 3, 1, 1⟩
      [initial_master inst_single] (bar_count inst_single).toNat 3 (by decide)
      oracle_single_exact (run_single 0) hv).2⟩

end CuttingStock
